import Mathlib

/-!
# Fromager allocator (`newlib/libc/machine/fromager`)

A shallow embedding of `mallocr.c`, `llvm_intrin.c` and the allocator part of
`syscalls_native.c`.

* Machine integers (`uintptr_t`, `size_t`, `uint64_t`) are natural numbers, every
  arithmetic result being reduced modulo `2 ^ 64` exactly where the C code computes
  it.
* Memory is a byte map `Nat → Nat`; words are eight little-endian bytes.
* The process state is threaded explicitly through every function (`Machine`).
* `__cc_flag_invalid` ends the process (`_exit(1)`), so a call either returns
  (`Outcome.ret`) or never returns (`Outcome.halt`).
* The answers of the host (the poison oracle `__cc_advise_poison_offset`, the
  region allocator `__cc_malloc`) are extra arguments of the function that asks.
-/

namespace Fromager

/-- The modulus of `uintptr_t` / `size_t` arithmetic, `2 ^ 64`. -/
abbrev WORD : Nat := 18446744073709551616

/-- The size of a machine word in bytes, `sizeof(uintptr_t)`. -/
abbrev WSIZE : Nat := 8

/-- Calls of host primitives, recorded in the order of execution (latest first). -/
inductive Event where
  | flag_invalid
  | flag_bug
  | read_unchecked (ptr : Nat)
  | write_unchecked (ptr val : Nat)
  | access_valid (start stop : Nat)
  | access_invalid (start stop : Nat)
  | advise_poison_offset (start len : Nat)
  | write_and_poison (ptr val : Nat)
  | cc_malloc (size : Nat)
  | mmap (addr len : Nat)
  deriving DecidableEq, Repr

/-- The state of the process as far as the allocator can observe or change it.
`mem`, `pos` are the program's own state (`pos` is the `static uintptr_t pos` of the
simple allocator).  `valid`, `poisoned`, `invalid`, `bug` and `log` are kept by the
host: which bytes are declared accessible, which bytes lie in a poisoned word,
whether the trace was flagged invalid, whether a bug was flagged, and which host
primitives were called. -/
structure Machine where
  mem : Nat → Nat
  pos : Nat
  valid : Nat → Bool
  poisoned : Nat → Bool
  invalid : Bool
  bug : Bool
  log : List Event

/-- Result of running a function: it returned `a` in state `s`, or the process
was ended inside the call in state `s` (`__cc_flag_invalid` calls `_exit(1)`; a store
to an address that is not mapped is a fault). -/
inductive Outcome (α : Type) where
  | ret (s : Machine) (a : α)
  | halt (s : Machine)

namespace Outcome

/-- The machine state in which the call returned or the process ended. -/
def state {α : Type} : Outcome α → Machine
  | ret s _ => s
  | halt s => s

/-- Whether the call returned to its caller. -/
def returned {α : Type} : Outcome α → Bool
  | ret _ _ => true
  | halt _ => false

/-- The returned value, if the call returned. -/
def value {α : Type} : Outcome α → Option α
  | ret _ a => some a
  | halt _ => none

/-- Sequencing: the rest of the function runs only if the call returned. -/
def bind {α β : Type} (o : Outcome α) (f : Machine → α → Outcome β) : Outcome β :=
  match o with
  | ret s a => f s a
  | halt s => halt s

end Outcome

/-! ## Memory -/

/-- Store one byte. -/
def store_byte (mem : Nat → Nat) (a v : Nat) : Nat → Nat :=
  fun x => if x = a then v else mem x

/-- Load of a `uintptr_t` at address `a`: eight little-endian bytes, the byte
addresses wrapping at `2 ^ 64`. -/
def read_word (mem : Nat → Nat) (a : Nat) : Nat :=
  mem a % 256
    + (mem ((a + 1) % WORD) % 256) * 256
    + (mem ((a + 2) % WORD) % 256) * 65536
    + (mem ((a + 3) % WORD) % 256) * 16777216
    + (mem ((a + 4) % WORD) % 256) * 4294967296
    + (mem ((a + 5) % WORD) % 256) * 1099511627776
    + (mem ((a + 6) % WORD) % 256) * 281474976710656
    + (mem ((a + 7) % WORD) % 256) * 72057594037927936

/-- Whether byte address `x` lies in the word that starts at `a` (addresses
wrapping at `2 ^ 64`). -/
def in_word (a x : Nat) : Bool :=
  decide (x < WORD) && decide ((x + WORD - a % WORD) % WORD < WSIZE)

/-- Store of a `uintptr_t` at address `a`: eight little-endian bytes. -/
def write_word (mem : Nat → Nat) (a v : Nat) : Nat → Nat :=
  fun x => if in_word a x then (v / 256 ^ ((x + WORD - a % WORD) % WORD)) % 256 else mem x

/-- The state of a process when it starts, with memory `mem`: the cursor of the
simple allocator is `0`, the host has declared nothing accessible, poisoned
nothing, flagged nothing and seen no call. -/
def start_state (mem : Nat → Nat) : Machine :=
  { mem := mem, pos := 0, valid := fun _ => false, poisoned := fun _ => false,
    invalid := false, bug := false, log := [] }

/-! ## Host primitives -/

/-- `__cc_flag_invalid` (`syscalls_native.c`): the trace is flagged invalid and the
process exits. -/
def __cc_flag_invalid {α : Type} (s : Machine) : Outcome α :=
  .halt { s with invalid := true, log := Event.flag_invalid :: s.log }

/-- `__cc_flag_bug` (`syscalls_native.c`): the trace is flagged as exhibiting a bug;
execution continues. -/
def __cc_flag_bug (s : Machine) : Machine :=
  { s with bug := true, log := Event.flag_bug :: s.log }

/-- Modelled from the spec: `__cc_valid_if` of `fromager.h`, which is not among the
sources.  The trace is valid only if `cond` holds: when `cond` is false the trace is
flagged invalid (as its uses at `mallocr.c` lines 53-56 and `syscalls_native.c` line
95 require). -/
def __cc_valid_if (s : Machine) (cond : Bool) : Outcome Unit :=
  if cond then .ret s () else __cc_flag_invalid s

/-- Modelled from the spec: `__cc_bug_if` of `fromager.h`, which is not among the
sources.  A bug is flagged when `cond` holds. -/
def __cc_bug_if (s : Machine) (cond : Bool) : Machine :=
  if cond then __cc_flag_bug s else s

/-- `__cc_read_unchecked`: `return *ptr`. -/
def __cc_read_unchecked (s : Machine) (ptr : Nat) : Machine × Nat :=
  ({ s with log := Event.read_unchecked ptr :: s.log }, read_word s.mem ptr)

/-- `__cc_write_unchecked`: `*ptr = val`. -/
def __cc_write_unchecked (s : Machine) (ptr val : Nat) : Machine :=
  { s with mem := write_word s.mem ptr val, log := Event.write_unchecked ptr val :: s.log }

/-- `__cc_access_valid(start, end)`: no effect on the program's state; the host
records the bytes of `[start, end)` as accessible. -/
def __cc_access_valid (s : Machine) (start stop : Nat) : Machine :=
  { s with
    valid := fun x => (decide (start ≤ x) && decide (x < stop)) || s.valid x,
    log := Event.access_valid start stop :: s.log }

/-- `__cc_access_invalid(start, end)`: no effect on the program's state; the host
records the bytes of `[start, end)` as inaccessible. -/
def __cc_access_invalid (s : Machine) (start stop : Nat) : Machine :=
  { s with
    valid := fun x => !(decide (start ≤ x) && decide (x < stop)) && s.valid x,
    log := Event.access_invalid start stop :: s.log }

/-- Whether some byte of the word at `ptr` is poisoned. -/
def word_poisoned (s : Machine) (ptr : Nat) : Bool :=
  s.poisoned ptr || s.poisoned ((ptr + 1) % WORD) || s.poisoned ((ptr + 2) % WORD)
    || s.poisoned ((ptr + 3) % WORD) || s.poisoned ((ptr + 4) % WORD)
    || s.poisoned ((ptr + 5) % WORD) || s.poisoned ((ptr + 6) % WORD)
    || s.poisoned ((ptr + 7) % WORD)

/-- `__cc_write_and_poison(ptr, val)`: `*ptr = val`, and the host poisons the word.
"If `*ptr` is already poisoned, the trace is invalid" (`mallocr.c` lines 29-31). -/
def __cc_write_and_poison (s : Machine) (ptr val : Nat) : Outcome Unit :=
  let s1 := { s with log := Event.write_and_poison ptr val :: s.log }
  if word_poisoned s ptr then __cc_flag_invalid s1
  else .ret { s1 with
              mem := write_word s.mem ptr val,
              poisoned := fun x => in_word ptr x || s.poisoned x } ()

/-- `__cc_advise_poison_offset(start, len)`: the host picks the offset; its answer
`answer` is an argument of the caller.  Only the call is recorded. -/
def __cc_advise_poison_offset (s : Machine) (start len answer : Nat) : Machine × Nat :=
  ({ s with log := Event.advise_poison_offset start len :: s.log }, answer)

/-- `__cc_malloc(size)`: the host picks the region; its answer `answer` is an
argument of the caller.  Only the call is recorded. -/
def __cc_malloc (s : Machine) (size answer : Nat) : Machine × Nat :=
  ({ s with log := Event.cc_malloc size :: s.log }, answer)

/-- A one-byte store `*ptr = val` by the program.  Modelled from the spec: the
host checks the program's accesses, and a store to a byte that is not declared
accessible, or that lies in a poisoned word, is a detected bug (section 6, "later
accesses outside the declared state are caught as bugs by the host"; the host's
checker is not among the sources). -/
def store8 (s : Machine) (ptr val : Nat) : Machine :=
  let s1 := __cc_bug_if s (!s.valid ptr || s.poisoned ptr)
  { s1 with mem := store_byte s1.mem ptr (val % 256) }

/-! ## `llvm_intrin.c` -/

/-- `__llvm__memcpy__p0i8__p0i8__i64`: the loop `for (; dest != dest_end; ++src,
++dest) *dest = *src;` runs `len` times (`dest_end = dest + len` modulo `2 ^ 64`
and `len < 2 ^ 64`); the first argument counts the remaining iterations. -/
def memcpy_loop : Nat → (Nat → Nat) → Nat → Nat → (Nat → Nat)
  | 0, mem, _, _ => mem
  | n + 1, mem, dest, src =>
    memcpy_loop n (store_byte mem dest (mem src)) ((dest + 1) % WORD) ((src + 1) % WORD)

/-- `__llvm__memcpy__p0i8__p0i8__i64(dest, src, len)` as a state change. -/
def memcpy (s : Machine) (dest src len : Nat) : Machine :=
  { s with mem := memcpy_loop len s.mem dest src }

/-- The backward loop of `__llvm__memmove__p0i8__p0i8__i64`: `while (dest !=
dest_start) { --src; --dest; *dest = *src; }`, entered with `dest` and `src` already
advanced by `len`; it runs `len` times, and the first argument counts the remaining
iterations.  The decrement of a pointer wraps from `0` to `2 ^ 64 - 1`. -/
def memmove_back_loop : Nat → (Nat → Nat) → Nat → Nat → (Nat → Nat)
  | 0, mem, _, _ => mem
  | n + 1, mem, dest, src =>
    memmove_back_loop n
      (store_byte mem (if dest = 0 then WORD - 1 else dest - 1)
        (mem (if src = 0 then WORD - 1 else src - 1)))
      (if dest = 0 then WORD - 1 else dest - 1) (if src = 0 then WORD - 1 else src - 1)

/-- `__llvm__memmove__p0i8__p0i8__i64(dest, src, len)` on the byte memory: the
forward loop of `memcpy` when `dest <= src`, the backward loop otherwise. -/
def __llvm__memmove__p0i8__p0i8__i64 (mem : Nat → Nat) (dest src len : Nat) : Nat → Nat :=
  if dest ≤ src then memcpy_loop len mem dest src
  else memmove_back_loop len mem ((dest + len) % WORD) ((src + len) % WORD)

/-- The modulus of `uint32_t` arithmetic, `2 ^ 32`. -/
abbrev U32 : Nat := 4294967296

/-- One line of `__llvm__ctpop__i32`, `(x & lo) + ((x & hi) >> sh)`, as the sum
before it is reduced to a `uint32_t`. -/
def ctpop_sum (x lo hi sh : Nat) : Nat :=
  (x &&& lo) + ((x &&& hi) >>> sh)

/-- `__llvm__ctpop__i32`: five lines, each assigning the sum reduced modulo
`2 ^ 32` to `x`. -/
def __llvm__ctpop__i32 (x : Nat) : Nat :=
  let x := ctpop_sum x 0x55555555 0xaaaaaaaa 1 % U32
  let x := ctpop_sum x 0x33333333 0xcccccccc 2 % U32
  let x := ctpop_sum x 0x0f0f0f0f 0xf0f0f0f0 4 % U32
  let x := ctpop_sum x 0x00ff00ff 0xff00ff00 8 % U32
  let x := ctpop_sum x 0x0000ffff 0xffff0000 16 % U32
  x

/-- The five sums of `__llvm__ctpop__i32` in the order of execution, each before its
reduction modulo `2 ^ 32`. -/
def ctpop_sums (x : Nat) : List Nat :=
  let s1 := ctpop_sum x 0x55555555 0xaaaaaaaa 1
  let s2 := ctpop_sum (s1 % U32) 0x33333333 0xcccccccc 2
  let s3 := ctpop_sum (s2 % U32) 0x0f0f0f0f 0xf0f0f0f0 4
  let s4 := ctpop_sum (s3 % U32) 0x00ff00ff 0xff00ff00 8
  let s5 := ctpop_sum (s4 % U32) 0x0000ffff 0xffff0000 16
  [s1, s2, s3, s4, s5]

/-- The number of bits set to 1 among the 32 bits of `x`. -/
def bits_set (x : Nat) : Nat :=
  (List.range 32).countP fun i => x.testBit i

/-- `__builtin_mul_overflow(count, size, &total_size)` on `size_t`: whether the
product overflowed, and the wrapped product. -/
def __builtin_mul_overflow (count size : Nat) : Bool × Nat :=
  (decide (WORD ≤ count * size), (count * size) % WORD)

/-- `calloc` (`mallocr.c` lines 302-307), shared by both allocators; `malloc` is
the allocator's `malloc` (with the host's answers already supplied). -/
def calloc (malloc : Machine → Nat → Outcome Nat) (s : Machine) (count size : Nat) :
    Outcome Nat :=
  let r := __builtin_mul_overflow count size
  (__cc_valid_if s r.1).bind fun s1 _ => malloc s1 r.2

/-! ## The simple (bump) allocator, `FROMAGER_SIMPLE_MALLOC` -/

namespace Simple

/-- `#define POS_INIT 0x100000000ul`. -/
abbrev POS_INIT : Nat := 4294967296

/-- `#define MALLOC_PADDING 64`. -/
abbrev MALLOC_PADDING : Nat := 64

/-- The length of the window mapped at `POS_INIT`, `64 * 1024 * 1024`. -/
abbrev HEAP_WINDOW : Nat := 67108864

/-- `mmap(addr, 64 MiB, PROT_READ | PROT_WRITE, MAP_PRIVATE | MAP_ANONYMOUS |
MAP_FIXED, -1, 0)`: the operating system is taken to grant the mapping at `addr`
(so the `abort()` that follows a different answer is not reached); the window is
replaced by fresh zero pages. -/
def mmap_fixed (s : Machine) (addr : Nat) : Machine :=
  { s with
    mem := fun x => if addr ≤ x ∧ x < addr + HEAP_WINDOW then 0 else s.mem x,
    log := Event.mmap addr HEAP_WINDOW :: s.log }

/-- `__cc_malloc_init` (`syscalls_native.c` lines 86-92). -/
def __cc_malloc_init (s : Machine) (addr : Nat) : Machine :=
  mmap_fixed s addr

/-- `__cc_heap_snapshot` (`mallocr.c` lines 243-246): the returned pointer and the
value stored in `*len`. -/
def __cc_heap_snapshot (s : Machine) : Nat × Nat :=
  (POS_INIT, (s.pos + WORD - POS_INIT) % WORD)

/-- `__cc_malloc_heap_start`. -/
def __cc_malloc_heap_start (_s : Machine) : Nat := POS_INIT

/-- `__cc_malloc_heap_end`. -/
def __cc_malloc_heap_end (s : Machine) : Nat := s.pos

/-- `__cc_malloc_set_heap_end`. -/
def __cc_malloc_set_heap_end (s : Machine) (new_end : Nat) : Machine :=
  { s with pos := new_end }

/-- The state after the lazy initialisation of `posix_memalign` (lines 261-264). -/
def init_pos (s : Machine) : Machine :=
  if s.pos = 0 then __cc_malloc_init { s with pos := POS_INIT } POS_INIT else s

/-- The alignment after `if (alignment < sizeof(uintptr_t)) alignment =
sizeof(uintptr_t);` (lines 266-268). -/
def fix_alignment (alignment : Nat) : Nat :=
  if alignment < WSIZE then WSIZE else alignment

/-- The base of the allocation: `pos += sizeof(uintptr_t); pos = (pos + alignment -
1) & ~(alignment - 1);` (lines 270-271) from cursor `pos`, with `alignment` already
raised to the word size. -/
def align_pos (pos alignment : Nat) : Nat :=
  (((pos + WSIZE) % WORD + alignment - 1) % WORD) &&& (WORD - 1 - (alignment - 1) % WORD)

/-- The poisoning of lines 281-289, after the oracle answered `poison_offset`. -/
def poison_padding (s : Machine) (padding_start poison_offset : Nat) : Outcome Unit :=
  if poison_offset < MALLOC_PADDING then
    let poison := (padding_start + poison_offset) % WORD
    (__cc_valid_if s (decide (poison % WSIZE = 0))).bind fun s1 _ =>
      __cc_write_and_poison s1 poison 0
  else .ret s ()

/-- `posix_memalign` (`mallocr.c` lines 260-293), built without
`DISABLE_MALLOC_POISON`; `poison_offset` is the answer of
`__cc_advise_poison_offset`.  Returns the return code and the value stored in
`*memptr`. -/
def posix_memalign (s : Machine) (alignment size poison_offset : Nat) :
    Outcome (Nat × Nat) :=
  let s0 := init_pos s
  let alignment := fix_alignment alignment
  let base := align_pos s0.pos alignment
  let s1 := { s0 with pos := base }
  let memptr := base
  let s2 := __cc_access_valid s1 base ((base + size) % WORD)
  let s3 := __cc_write_unchecked s2 ((base + WORD - WSIZE) % WORD) size
  let padding_start := (base + size) % WORD
  let s4 := { s3 with pos := (padding_start + MALLOC_PADDING) % WORD }
  let q := __cc_advise_poison_offset s4 padding_start MALLOC_PADDING poison_offset
  (poison_padding q.1 padding_start q.2).bind fun s5 _ => .ret s5 (0, memptr)

/-- `malloc` (lines 187-192): `posix_memalign(&out, 16, size); return out;`. -/
def malloc (s : Machine) (size poison_offset : Nat) : Outcome Nat :=
  (posix_memalign s 16 size poison_offset).bind fun s1 r => .ret s1 r.2

/-- `free` (lines 196-212). -/
def free (s : Machine) (ptr : Nat) : Machine :=
  if ptr = 0 then s
  else if ptr < POS_INIT then s
  else
    let r := __cc_read_unchecked s ((ptr + WORD - WSIZE) % WORD)
    __cc_access_invalid r.1 ptr ((ptr + r.2) % WORD)

/-- `realloc` (lines 216-231). -/
def realloc (s : Machine) (ptr size poison_offset : Nat) : Outcome Nat :=
  if ptr = 0 then malloc s size poison_offset
  else
    let r := __cc_read_unchecked s ((ptr + WORD - WSIZE) % WORD)
    let old_size := r.2
    let copy_size := if old_size < size then old_size else size
    (malloc r.1 size poison_offset).bind fun s1 new_ptr =>
      let s2 := memcpy s1 new_ptr ptr copy_size
      let s3 := free s2 ptr
      .ret s3 new_ptr

/-- `__cc_malloc_init_from_snapshot` (`syscalls_native.c` lines 94-105).  The mapping
of line 98 is `HEAP_WINDOW` bytes long and `memcpy(heap, addr, len)` does not check
`len` against it: for `len > HEAP_WINDOW` the copy fills the window and then stores
past the mapping, where the process is taken to fault (no page is taken to be mapped
behind the window), so the call does not return and the cursor is not set. -/
def __cc_malloc_init_from_snapshot (s : Machine) (addr len : Nat) : Outcome Unit :=
  (__cc_valid_if s (decide (__cc_malloc_heap_end s = 0))).bind fun s1 _ =>
    let heap := __cc_malloc_heap_start s1
    let s2 := mmap_fixed s1 heap
    if len ≤ HEAP_WINDOW then
      let s3 := memcpy s2 heap addr len
      .ret (__cc_malloc_set_heap_end s3 ((heap + len) % WORD)) ()
    else .halt (memcpy s2 heap addr HEAP_WINDOW)

/-! ### Runs of the simple allocator -/

/-- The base of the allocation that `posix_memalign(_, alignment, _)` makes from
state `s` (lines 261-271). -/
def next_base (s : Machine) (alignment : Nat) : Nat :=
  align_pos (init_pos s).pos (fix_alignment alignment)

/-- The state of `posix_memalign` when the oracle has answered (after line 281):
the cursor initialised, the payload declared accessible, the header written, the
cursor moved past the payload and the padding. -/
def pre_poison (s : Machine) (alignment size : Nat) : Machine :=
  let s3 := __cc_write_unchecked
    (__cc_access_valid { init_pos s with pos := next_base s alignment }
      (next_base s alignment) ((next_base s alignment + size) % WORD))
    ((next_base s alignment + WORD - WSIZE) % WORD) size
  { s3 with
    pos := ((next_base s alignment + size) % WORD + MALLOC_PADDING) % WORD,
    log := Event.advise_poison_offset ((next_base s alignment + size) % WORD) MALLOC_PADDING
      :: s3.log }

/-- Whether the cursor arithmetic of `posix_memalign(_, alignment, size)` called in
state `s` stays below `2 ^ 64`, so that no `uintptr_t` result wraps. -/
def fits (s : Machine) (alignment size : Nat) : Bool :=
  decide ((init_pos s).pos + WSIZE + fix_alignment alignment - 1 < WORD) &&
    decide (align_pos (init_pos s).pos (fix_alignment alignment) + size + MALLOC_PADDING < WORD)

/-- Whether the oracle's answer `poison_offset` lets the poisoning at
`padding_start` go through: nothing is poisoned, or the chosen word is word-aligned
and not yet poisoned. -/
def poison_ok (s : Machine) (padding_start poison_offset : Nat) : Bool :=
  decide (MALLOC_PADDING ≤ poison_offset) ||
    (decide ((padding_start + poison_offset) % WORD % WSIZE = 0) &&
      !word_poisoned s ((padding_start + poison_offset) % WORD))

/-- A call of the allocator by the program, with the oracle's answer where the
call asks the oracle, or a one-byte store of the program. -/
inductive Call where
  | malloc (size poison_offset : Nat)
  | posix_memalign (alignment size poison_offset : Nat)
  | free (ptr : Nat)
  | realloc (ptr size poison_offset : Nat)
  | store (ptr val : Nat)

namespace Call

/-- Run one call; the result is the allocation returned, base and size, if the
call allocates. -/
def run (s : Machine) : Call → Outcome (Option (Nat × Nat))
  | malloc size off => (Simple.malloc s size off).bind fun s1 p => .ret s1 (some (p, size))
  | posix_memalign al size off =>
    (Simple.posix_memalign s al size off).bind fun s1 r => .ret s1 (some (r.2, size))
  | free ptr => .ret (Simple.free s ptr) none
  | realloc ptr size off =>
    (Simple.realloc s ptr size off).bind fun s1 p => .ret s1 (some (p, size))
  | store ptr val => .ret (store8 s ptr val) none

/-- Whether the cursor arithmetic of the call stays below `2 ^ 64`. -/
def fits (s : Machine) : Call → Bool
  | malloc size _ => Simple.fits s 16 size
  | posix_memalign al size _ => Simple.fits s al size
  | free _ => true
  | realloc _ size _ => Simple.fits s 16 size
  | store _ _ => true

end Call

/-- The alignment, size and oracle answer of the `posix_memalign` that the call
runs, if the call allocates. -/
def Call.alloc_params : Call → Option (Nat × Nat × Nat)
  | .malloc size off => some (16, size, off)
  | .posix_memalign al size off => some (al, size, off)
  | .free _ => none
  | .realloc _ size off => some (16, size, off)
  | .store _ _ => none

/-- The course of a process: the state reached, whether the process was ended by
an invalid trace, whether the cursor arithmetic of some call wrapped, and the
allocations returned so far (base and size, latest first). -/
structure Run where
  state : Machine
  ended : Bool
  wrapped : Bool
  allocs : List (Nat × Nat)

/-- The next call of a process; an ended process runs nothing. -/
def Run.step (r : Run) (c : Call) : Run :=
  if r.ended then r
  else
    match c.run r.state with
    | .halt s1 => { r with state := s1, ended := true, wrapped := r.wrapped || !c.fits r.state }
    | .ret s1 a =>
      { state := s1, ended := false, wrapped := r.wrapped || !c.fits r.state,
        allocs := a.toList ++ r.allocs }

/-- A sequence of calls run from state `s`. -/
def run_calls (s : Machine) (cs : List Call) : Run :=
  cs.foldl Run.step { state := s, ended := false, wrapped := false, allocs := [] }

/-- The invariant of the runs of the simple allocator: the cursor is a 64-bit
value, `0` or at least `POS_INIT`; every allocation returned lies, with its header
word before it and its padding after it, between the heap origin and the cursor;
a later allocation starts, header included, after the padding of every earlier one;
every poisoned byte lies less than 7 bytes past the cursor; a process that has not
ended has a valid trace. -/
structure Run.Inv (r : Run) : Prop where
  pos_lt : r.state.pos < WORD
  pos_init : r.state.pos = 0 ∨ POS_INIT ≤ r.state.pos
  allocs_in : ∀ a ∈ r.allocs,
    POS_INIT + WSIZE ≤ a.1 ∧ a.1 + a.2 + MALLOC_PADDING ≤ r.state.pos
  allocs_apart : r.allocs.Pairwise fun a a' => a'.1 + a'.2 + MALLOC_PADDING + WSIZE ≤ a.1
  poison_below : ∀ x, r.state.poisoned x = true → x < r.state.pos + 7
  running_valid : r.ended = false → r.state.invalid = false

/-- The program stores `p[i] = vals i` for `i = 0, ..., n - 1`. -/
def fill (s : Machine) (p : Nat) (vals : Nat → Nat) : Nat → Machine
  | 0 => s
  | n + 1 => store8 (fill s p vals n) ((p + n) % WORD) (vals n)

/-- `p = malloc(size)`, then stores to every byte of `[p, p + size)`, then
`free(p)`. -/
def alloc_fill_free (s : Machine) (size poison_offset : Nat) (vals : Nat → Nat) :
    Outcome Unit :=
  (malloc s size poison_offset).bind fun s1 p => .ret (free (fill s1 p vals size) p) ()

end Simple

/-! ## The size-class allocator (built when `FROMAGER_SIMPLE_MALLOC` is not defined) -/

namespace Full

/-- The poisoning of one oracle-chosen word of `[start, start + len)`, after the
oracle answered `poison_offset` (`mallocr.c` lines 83-91 and 129-136). -/
def poison_range (s : Machine) (start len poison_offset : Nat) : Outcome Unit :=
  if poison_offset < len then
    let poison := (start + poison_offset) % WORD
    (__cc_valid_if s (decide (poison % WSIZE = 0))).bind fun s1 _ =>
      __cc_write_and_poison s1 poison 0
  else .ret s ()

/-- `malloc_internal` (`mallocr.c` lines 45-94); `host_ptr` is the answer of
`__cc_malloc` and `poison_offset` the answer of `__cc_advise_poison_offset`. -/
def malloc_internal (s : Machine) (size host_ptr poison_offset : Nat) : Outcome Nat :=
  let q := __cc_malloc s ((size + 2 * WSIZE) % WORD) host_ptr
  let ptr := q.2
  let addr := ptr
  let region_size := (1 <<< ((addr >>> 58) &&& 63)) % WORD
  (__cc_valid_if q.1 (decide (region_size ≥ (size + 2 * WSIZE) % WORD))).bind fun s1 _ =>
  (__cc_valid_if s1 (decide (addr % region_size = 0))).bind fun s2 _ =>
  let metadata := (ptr + region_size + WORD - 2 * WSIZE) % WORD
  (__cc_write_and_poison s2 metadata 1).bind fun s3 _ =>
  let size_ptr := (ptr + region_size + WORD - WSIZE) % WORD
  let s4 := __cc_write_unchecked s3 size_ptr size
  let s5 := __cc_access_valid s4 ptr ((ptr + size) % WORD)
  let padding_start := (ptr + size) % WORD
  let padding_len := (metadata + WORD - padding_start) % WORD
  let a := __cc_advise_poison_offset s5 padding_start padding_len poison_offset
  (poison_range a.1 padding_start padding_len a.2).bind fun s6 _ => .ret s6 ptr

/-- `malloc` (lines 96-98). -/
def malloc (s : Machine) (size host_ptr poison_offset : Nat) : Outcome Nat :=
  malloc_internal s size host_ptr poison_offset

/-- `free_internal` (lines 102-137); `poison_offset` is the answer of
`__cc_advise_poison_offset`. -/
def free_internal (s : Machine) (ptr poison_offset : Nat) : Outcome Unit :=
  if ptr = 0 then .ret s ()
  else
    let log_region_size := ptr >>> 58
    let region_size := (1 <<< log_region_size) % WORD
    let s1 := __cc_bug_if s (decide (ptr % region_size ≠ 0))
    let s2 := store8 s1 ptr 0
    let size_ptr := (ptr + region_size + WORD - WSIZE) % WORD
    let r := __cc_read_unchecked s2 size_ptr
    let size := r.2
    let s3 := __cc_access_invalid r.1 ptr ((ptr + size) % WORD)
    let freed_start := ptr
    let freed_len := (region_size + WORD - 2 * WSIZE) % WORD
    let a := __cc_advise_poison_offset s3 freed_start freed_len poison_offset
    poison_range a.1 freed_start freed_len a.2

/-- `free` (lines 139-141). -/
def free (s : Machine) (ptr poison_offset : Nat) : Outcome Unit :=
  free_internal s ptr poison_offset

/-- `realloc` (lines 145-160); `host_ptr` and `poison_offset` are the host's
answers inside `malloc`, `free_offset` the oracle's answer inside `free`. -/
def realloc (s : Machine) (ptr size host_ptr poison_offset free_offset : Nat) :
    Outcome Nat :=
  let log_region_size := ptr >>> 58
  let region_size := (1 <<< log_region_size) % WORD
  let s1 := __cc_bug_if s (decide (ptr % region_size ≠ 0))
  let size_ptr := (ptr + region_size + WORD - WSIZE) % WORD
  let r := __cc_read_unchecked s1 size_ptr
  let old_size := r.2
  let copy_size := if old_size < size then old_size else size
  (malloc r.1 size host_ptr poison_offset).bind fun s2 new_ptr =>
    let s3 := memcpy s2 new_ptr ptr copy_size
    (free s3 ptr free_offset).bind fun s4 _ => .ret s4 new_ptr

/-- `posix_memalign` (lines 164-172): the return code and the value stored in
`*memptr`. -/
def posix_memalign (s : Machine) (alignment size host_ptr poison_offset : Nat) :
    Outcome (Nat × Nat) :=
  let size := if alignment > size then alignment else size
  (malloc s size host_ptr poison_offset).bind fun s1 p => .ret s1 (0, p)

/-- The state of `malloc_internal` when the oracle has answered (after line 82), the
two validity checks and the poisoning of the allocation marker having passed. -/
def after_advise (s : Machine) (size host_ptr : Nat) : Machine :=
  let region_size := (1 <<< ((host_ptr >>> 58) &&& 63)) % WORD
  let s0 := (__cc_malloc s ((size + 2 * WSIZE) % WORD) host_ptr).1
  let metadata := (host_ptr + region_size + WORD - 2 * WSIZE) % WORD
  let s3 : Machine := { s0 with
    log := Event.write_and_poison metadata 1 :: s0.log,
    mem := write_word s0.mem metadata 1,
    poisoned := fun x => in_word metadata x || s0.poisoned x }
  let s4 := __cc_write_unchecked s3 ((host_ptr + region_size + WORD - WSIZE) % WORD) size
  let s5 := __cc_access_valid s4 host_ptr ((host_ptr + size) % WORD)
  (__cc_advise_poison_offset s5 ((host_ptr + size) % WORD)
    ((metadata + WORD - (host_ptr + size) % WORD) % WORD) 0).1

end Full

/-! # Properties -/

/-! ## Arithmetic of the alignment mask -/

theorem and_mod_two_mul (a b : Nat) : (a &&& b) % 2 = (a % 2) * (b % 2) := by
  have h := Nat.testBit_and a b 0
  simp only [Nat.testBit_zero] at h
  rcases Nat.mod_two_eq_zero_or_one a with ha | ha <;>
  rcases Nat.mod_two_eq_zero_or_one b with hb | hb <;>
  rcases Nat.mod_two_eq_zero_or_one (a &&& b) with hab | hab <;>
  simp [ha, hb, hab] at h ⊢

/-- A number below `2 ^ n` is the sum of its parts under a mask and under the
complement of the mask. -/
theorem and_compl_add_and (n : Nat) : ∀ y m : Nat, y < 2 ^ n → m < 2 ^ n →
    (y &&& (2 ^ n - 1 - m)) + (y &&& m) = y := by
  induction n with
  | zero =>
    intro y m hy _
    have : y = 0 := by simpa using hy
    subst this
    simp
  | succ n ih =>
    intro y m hy hm
    have hy2 : y / 2 < 2 ^ n := by rw [pow_succ] at hy; omega
    have hm2 : m / 2 < 2 ^ n := by rw [pow_succ] at hm; omega
    have h := ih (y / 2) (m / 2) hy2 hm2
    have e1 : (2 ^ (n + 1) - 1 - m) / 2 = 2 ^ n - 1 - m / 2 := by rw [pow_succ]; omega
    have e2 : (2 ^ (n + 1) - 1 - m) % 2 = 1 - m % 2 := by rw [pow_succ] at hm ⊢; omega
    have d1 := @Nat.and_div_two y (2 ^ (n + 1) - 1 - m)
    have d2 := @Nat.and_div_two y m
    have m1 := and_mod_two_mul y (2 ^ (n + 1) - 1 - m)
    have m2 := and_mod_two_mul y m
    rw [e1] at d1
    rw [e2] at m1
    generalize y &&& (2 ^ (n + 1) - 1 - m) = A at *
    generalize y &&& m = B at *
    generalize y / 2 &&& (2 ^ n - 1 - m / 2) = A' at *
    generalize y / 2 &&& m / 2 = B' at *
    rcases Nat.mod_two_eq_zero_or_one y with hy0 | hy0 <;>
    rcases Nat.mod_two_eq_zero_or_one m with hm0 | hm0 <;>
    simp [hy0, hm0] at m1 m2 <;> omega

theorem and_compl_add_and64 (y m : Nat) (hy : y < WORD) (hm : m < WORD) :
    (y &&& (WORD - 1 - m)) + (y &&& m) = y :=
  and_compl_add_and 64 y m hy hm

/-- Clearing the bits of a mask `m` lowers a 64-bit number by at most `m`. -/
theorem and_mask_ge (y m : Nat) (hy : y < WORD) (hm : m < WORD) :
    y ≤ (y &&& (WORD - 1 - m)) + m := by
  have h := and_compl_add_and64 y m hy hm
  have h2 : y &&& m ≤ m := Nat.and_le_right
  omega

/-- Clearing the low `k` bits rounds a 64-bit number down to a multiple of `2 ^ k`. -/
theorem and_mask_pow2 (y k : Nat) (hy : y < WORD) (hk : k ≤ 64) :
    y &&& (WORD - 1 - (2 ^ k - 1)) = y - y % 2 ^ k := by
  have hlt : 2 ^ k - 1 < WORD := by
    have h1 : 2 ^ k ≤ 2 ^ 64 := Nat.pow_le_pow_right (by norm_num) hk
    have h2 : 0 < 2 ^ k := Nat.two_pow_pos k
    have h3 : (2:Nat) ^ 64 = WORD := by norm_num
    omega
  have h := and_compl_add_and64 y (2 ^ k - 1) hy hlt
  rw [Nat.and_pow_two_sub_one_eq_mod] at h
  have h4 : y % 2 ^ k ≤ y := Nat.mod_le _ _
  omega

/-! ## `calloc` -/

/-- C1 (the code at the failing inputs): when `count * size` does not fit in a
64-bit `size_t`, `calloc` flags nothing and calls `malloc` with the wrapped product,
so the trace is not rejected and an allocation is made. -/
theorem calloc_overflow_reaches_malloc (malloc : Machine → Nat → Outcome Nat) (s : Machine)
    (count size : Nat) (h : WORD ≤ count * size) :
    calloc malloc s count size = malloc s ((count * size) % WORD) := by
  simp [calloc, __builtin_mul_overflow, __cc_valid_if, Outcome.bind, h]

theorem calloc_overflow_reaches_malloc_witness :
    WORD ≤ 9223372036854775808 * 2 ∧
      calloc (fun s n => Simple.malloc s n 64) (start_state fun _ => 0)
          9223372036854775808 2
        = Simple.malloc (start_state fun _ => 0) ((9223372036854775808 * 2) % WORD) 64 :=
  ⟨by decide, calloc_overflow_reaches_malloc _ _ _ _ (by decide)⟩

/-- C2 (the code at the failing inputs): when `count * size` fits in a 64-bit
`size_t`, `calloc` flags the trace invalid, the process ends there and `malloc` is
never called. -/
theorem calloc_in_range_flags_invalid (malloc : Machine → Nat → Outcome Nat) (s : Machine)
    (count size : Nat) (h : count * size < WORD) :
    calloc malloc s count size
      = .halt { s with invalid := true, log := Event.flag_invalid :: s.log } := by
  have h2 : ¬ WORD ≤ count * size := by omega
  simp [calloc, __builtin_mul_overflow, __cc_valid_if, __cc_flag_invalid, Outcome.bind, h2]

theorem calloc_in_range_flags_invalid_witness :
    1 * 1 < WORD ∧
      calloc (fun s n => Simple.malloc s n 64) (start_state fun _ => 0) 1 1
        = .halt { (start_state fun _ => 0) with
                  invalid := true, log := Event.flag_invalid :: (start_state fun _ => 0).log } :=
  ⟨by decide, calloc_in_range_flags_invalid _ _ _ _ (by decide)⟩

/-! ## `free` and `realloc` on `NULL` -/

/-- C8: `free(NULL)` returns at once in both allocators, and so does the simple
allocator's `free` on every pointer below the heap origin `POS_INIT`: the whole
machine state (memory, cursor, accessible ranges, poisoned words, flags, and the
record of host-primitive calls) is unchanged. -/
theorem free_non_heap_is_noop (s : Machine) (ptr poison_offset : Nat)
    (h : ptr < Simple.POS_INIT) :
    Full.free s 0 poison_offset = .ret s () ∧ Simple.free s 0 = s ∧ Simple.free s ptr = s := by
  refine ⟨by simp [Full.free, Full.free_internal], by simp [Simple.free], ?_⟩
  simp [Simple.free, h]

theorem free_non_heap_is_noop_witness :
    4096 < Simple.POS_INIT ∧
      Full.free (start_state fun _ => 0) 0 0 = .ret (start_state fun _ => 0) () ∧
      Simple.free (start_state fun _ => 0) 0 = start_state (fun _ => 0) ∧
      Simple.free (start_state fun _ => 0) 4096 = start_state (fun _ => 0) :=
  ⟨by decide, free_non_heap_is_noop _ 4096 0 (by decide)⟩

/-- C9 (the code at a failing input): the size-class `realloc` has no `NULL` test.
With the word at `NULL + 1 - 8` read as the old size, `realloc(NULL, 1)` returns the
region the host gave, as `malloc(1)` does, but it reads that size word through
`__cc_read_unchecked` and copies one byte from address `0` into the new allocation,
which `malloc(1)` leaves untouched.  The simple allocator's `realloc(NULL, n)` is
`malloc(n)`. -/
theorem realloc_null_size_class_reads_and_copies :
    (Full.realloc
        (start_state fun a => if a = 18446744073709551609 then 1 else if a = 0 then 171 else 0)
        0 1 1441151880758558720 15 0).value = some 1441151880758558720 ∧
    (Full.malloc
        (start_state fun a => if a = 18446744073709551609 then 1 else if a = 0 then 171 else 0)
        1 1441151880758558720 15).value = some 1441151880758558720 ∧
    (Full.realloc
        (start_state fun a => if a = 18446744073709551609 then 1 else if a = 0 then 171 else 0)
        0 1 1441151880758558720 15 0).state.mem 1441151880758558720 = 171 ∧
    (Full.malloc
        (start_state fun a => if a = 18446744073709551609 then 1 else if a = 0 then 171 else 0)
        1 1441151880758558720 15).state.mem 1441151880758558720 = 0 ∧
    Event.read_unchecked 18446744073709551609 ∈ (Full.realloc
        (start_state fun a => if a = 18446744073709551609 then 1 else if a = 0 then 171 else 0)
        0 1 1441151880758558720 15 0).state.log ∧
    Event.read_unchecked 18446744073709551609 ∉ (Full.malloc
        (start_state fun a => if a = 18446744073709551609 then 1 else if a = 0 then 171 else 0)
        1 1441151880758558720 15).state.log ∧
    ∀ (s : Machine) (n poison_offset : Nat),
      Simple.realloc s 0 n poison_offset = Simple.malloc s n poison_offset := by
  refine ⟨by decide, by decide, by decide, by decide, by decide, by decide, ?_⟩
  intro s n poison_offset
  simp [Simple.realloc]

namespace Simple

theorem WORD_eq : WORD = 18446744073709551616 := rfl

theorem init_pos_pos (s : Machine) :
    (init_pos s).pos = if s.pos = 0 then POS_INIT else s.pos := by
  unfold init_pos
  split <;> simp_all [__cc_malloc_init, mmap_fixed]

theorem init_pos_poisoned (s : Machine) : (init_pos s).poisoned = s.poisoned := by
  unfold init_pos
  split <;> simp [__cc_malloc_init, mmap_fixed]

theorem init_pos_valid (s : Machine) : (init_pos s).valid = s.valid := by
  unfold init_pos
  split <;> simp [__cc_malloc_init, mmap_fixed]

theorem init_pos_invalid (s : Machine) : (init_pos s).invalid = s.invalid := by
  unfold init_pos
  split <;> simp [__cc_malloc_init, mmap_fixed]

theorem init_pos_bug (s : Machine) : (init_pos s).bug = s.bug := by
  unfold init_pos
  split <;> simp [__cc_malloc_init, mmap_fixed]

theorem fix_alignment_ge (al : Nat) : WSIZE ≤ fix_alignment al := by
  unfold fix_alignment
  split <;> omega

/-- Without wrap-around the base lies between `pos + 8` and `pos + 8 + alignment - 1`,
whatever the alignment. -/
theorem align_pos_bounds (pos al : Nat) (hal : 1 ≤ al) (h : pos + WSIZE + al - 1 < WORD) :
    pos + WSIZE ≤ align_pos pos al ∧ align_pos pos al ≤ pos + WSIZE + al - 1 := by
  have hW := WORD_eq
  unfold align_pos
  have e1 : (pos + WSIZE) % WORD = pos + WSIZE := Nat.mod_eq_of_lt (by omega)
  have e2 : (pos + WSIZE + al - 1) % WORD = pos + WSIZE + al - 1 := Nat.mod_eq_of_lt h
  have e3 : (al - 1) % WORD = al - 1 := Nat.mod_eq_of_lt (by omega)
  rw [e1, e2, e3]
  have h1 := and_mask_ge (pos + WSIZE + al - 1) (al - 1) h (by omega)
  have h2 : (pos + WSIZE + al - 1) &&& (WORD - 1 - (al - 1)) ≤ pos + WSIZE + al - 1 :=
    Nat.and_le_left
  omega

/-- Without wrap-around and for a power-of-two alignment the base is `pos + 8`
rounded up to the alignment. -/
theorem align_pos_pow2 (pos k : Nat) (h : pos + WSIZE + 2 ^ k - 1 < WORD) :
    align_pos pos (2 ^ k) = (pos + WSIZE + 2 ^ k - 1) - (pos + WSIZE + 2 ^ k - 1) % 2 ^ k := by
  have hW := WORD_eq
  have hpos : 0 < 2 ^ k := Nat.two_pow_pos k
  have hk : k ≤ 64 := by
    by_contra hc
    have : 2 ^ 65 ≤ 2 ^ k := Nat.pow_le_pow_right (by norm_num) (by omega)
    have h3 : (2:Nat) ^ 65 = 36893488147419103232 := by norm_num
    omega
  unfold align_pos
  have e1 : (pos + WSIZE) % WORD = pos + WSIZE := Nat.mod_eq_of_lt (by omega)
  have e2 : (pos + WSIZE + 2 ^ k - 1) % WORD = pos + WSIZE + 2 ^ k - 1 := Nat.mod_eq_of_lt h
  have e3 : (2 ^ k - 1) % WORD = 2 ^ k - 1 := Nat.mod_eq_of_lt (by omega)
  rw [e1, e2, e3]
  exact and_mask_pow2 _ k h hk

theorem word_poisoned_congr (s t : Machine) (h : s.poisoned = t.poisoned) (p : Nat) :
    word_poisoned s p = word_poisoned t p := by
  simp [word_poisoned, h]

theorem poison_padding_returned (s : Machine) (ps off : Nat) :
    (poison_padding s ps off).returned = poison_ok s ps off := by
  unfold poison_padding poison_ok
  by_cases h1 : off < MALLOC_PADDING
  · have h1' : ¬ MALLOC_PADDING ≤ off := by omega
    by_cases h2 : (ps + off) % WORD % WSIZE = 0
    · by_cases h3 : word_poisoned s ((ps + off) % WORD) = true
      · simp [h1, h1', h2, h3, __cc_valid_if, Outcome.bind, __cc_write_and_poison,
          __cc_flag_invalid, Outcome.returned]
      · simp [h1, h1', h2, h3, __cc_valid_if, Outcome.bind, __cc_write_and_poison,
          __cc_flag_invalid, Outcome.returned]
    · simp [h1, h1', h2, __cc_valid_if, Outcome.bind, __cc_flag_invalid, Outcome.returned]
  · have h1' : MALLOC_PADDING ≤ off := by omega
    simp [h1, h1', Outcome.returned]

theorem poison_padding_pos (s : Machine) (ps off : Nat) :
    (poison_padding s ps off).state.pos = s.pos := by
  unfold poison_padding
  by_cases h1 : off < MALLOC_PADDING
  · by_cases h2 : (ps + off) % WORD % WSIZE = 0
    · by_cases h3 : word_poisoned s ((ps + off) % WORD) = true
      · simp [h1, h2, h3, __cc_valid_if, Outcome.bind, __cc_write_and_poison,
          __cc_flag_invalid, Outcome.state]
      · simp [h1, h2, h3, __cc_valid_if, Outcome.bind, __cc_write_and_poison,
          __cc_flag_invalid, Outcome.state]
    · simp [h1, h2, __cc_valid_if, Outcome.bind, __cc_flag_invalid, Outcome.state]
  · simp [h1, Outcome.state]

theorem posix_memalign_eq (s : Machine) (al size off : Nat) :
    posix_memalign s al size off =
      (poison_padding
        { (__cc_write_unchecked
            (__cc_access_valid { init_pos s with pos := next_base s al }
              (next_base s al) ((next_base s al + size) % WORD))
            ((next_base s al + WORD - WSIZE) % WORD) size) with
          pos := ((next_base s al + size) % WORD + MALLOC_PADDING) % WORD,
          log := Event.advise_poison_offset ((next_base s al + size) % WORD) MALLOC_PADDING ::
            (__cc_write_unchecked
            (__cc_access_valid { init_pos s with pos := next_base s al }
              (next_base s al) ((next_base s al + size) % WORD))
            ((next_base s al + WORD - WSIZE) % WORD) size).log }
        ((next_base s al + size) % WORD) off).bind fun s5 _ => .ret s5 (0, next_base s al) := by
  rfl

theorem bind_state_pos {α β : Type} (o : Outcome α) (f : Machine → α → Outcome β)
    (h : ∀ s a, (f s a).state.pos = s.pos) : (o.bind f).state.pos = o.state.pos := by
  cases o with
  | ret s a => simpa [Outcome.bind, Outcome.state] using h s a
  | halt s => rfl

theorem bind_ret_returned {α β : Type} (o : Outcome α) (g : Machine → α → Machine)
    (v : Machine → α → β) :
    (o.bind fun s a => .ret (g s a) (v s a)).returned = o.returned := by
  cases o <;> rfl

theorem posix_memalign_pos (s : Machine) (al size off : Nat) :
    (posix_memalign s al size off).state.pos
      = ((next_base s al + size) % WORD + MALLOC_PADDING) % WORD := by
  rw [posix_memalign_eq, bind_state_pos _ _ (by intro s1 a; rfl), poison_padding_pos]

theorem posix_memalign_returned (s : Machine) (al size off : Nat) :
    (posix_memalign s al size off).returned
      = poison_ok s ((next_base s al + size) % WORD) off := by
  rw [posix_memalign_eq, bind_ret_returned _ (fun s _ => s) (fun _ _ => (0, next_base s al)),
    poison_padding_returned]
  unfold poison_ok
  rw [word_poisoned_congr _ s]
  simp [__cc_write_unchecked, __cc_access_valid, init_pos_poisoned]

theorem posix_memalign_value (s : Machine) (al size off : Nat) :
    (posix_memalign s al size off).value
      = if poison_ok s ((next_base s al + size) % WORD) off then some (0, next_base s al)
        else none := by
  have h := posix_memalign_returned s al size off
  rw [posix_memalign_eq] at h ⊢
  generalize poison_padding _ _ _ = o at h ⊢
  cases o <;> simp_all [Outcome.bind, Outcome.returned, Outcome.value]

theorem next_base_of_pos_eq (s t : Machine) (h : s.pos = t.pos) (al : Nat) :
    next_base s al = next_base t al := by
  unfold next_base
  rw [init_pos_pos, init_pos_pos, h]

theorem malloc_pos (s : Machine) (size off : Nat) :
    (malloc s size off).state.pos = ((next_base s 16 + size) % WORD + MALLOC_PADDING) % WORD := by
  unfold malloc
  rw [bind_state_pos _ _ (by intro s1 a; rfl), posix_memalign_pos]

theorem malloc_value (s : Machine) (size off : Nat) :
    (malloc s size off).value
      = if poison_ok s ((next_base s 16 + size) % WORD) off then some (next_base s 16)
        else none := by
  have h := posix_memalign_value s 16 size off
  unfold malloc
  generalize posix_memalign s 16 size off = o at h ⊢
  cases o with
  | ret s1 r =>
    simp only [Outcome.value, Outcome.bind] at h ⊢
    split at h <;> simp_all
  | halt s1 =>
    simp only [Outcome.value, Outcome.bind] at h ⊢
    split at h <;> simp_all

theorem free_pos (s : Machine) (ptr : Nat) : (free s ptr).pos = s.pos := by
  unfold free
  split
  · rfl
  · split
    · rfl
    · rfl

theorem realloc_pos (s : Machine) (ptr size off : Nat) :
    (realloc s ptr size off).state.pos
      = ((next_base s 16 + size) % WORD + MALLOC_PADDING) % WORD := by
  unfold realloc
  split
  · exact malloc_pos s size off
  · rw [bind_state_pos _ _ (fun s1 p => by simp [Outcome.state, free_pos, memcpy]), malloc_pos,
      next_base_of_pos_eq (__cc_read_unchecked s ((ptr + WORD - WSIZE) % WORD)).1 s rfl]

/-- The bounds that `fits` gives: the cursor after initialisation, the base and the
new cursor, none of them wrapped. -/
theorem fits_bounds (s : Machine) (al size : Nat) (h : fits s al size = true) :
    (init_pos s).pos + WSIZE ≤ next_base s al ∧
      next_base s al ≤ (init_pos s).pos + WSIZE + fix_alignment al - 1 ∧
      next_base s al + size + MALLOC_PADDING < WORD := by
  unfold fits at h
  simp only [Bool.and_eq_true, decide_eq_true_eq] at h
  have hb := align_pos_bounds (init_pos s).pos (fix_alignment al)
    (by have := fix_alignment_ge al; simp only [WSIZE] at this; omega) h.1
  exact ⟨hb.1, hb.2, h.2⟩

theorem posix_memalign_pos_of_fits (s : Machine) (al size off : Nat)
    (h : fits s al size = true) :
    (posix_memalign s al size off).state.pos = next_base s al + size + MALLOC_PADDING := by
  have hb := fits_bounds s al size h
  rw [posix_memalign_pos]
  simp only [WORD, MALLOC_PADDING] at hb ⊢
  omega

theorem pos_le_init_pos (s : Machine) : s.pos ≤ (init_pos s).pos := by
  rw [init_pos_pos]
  split <;> omega

theorem fix_alignment_pow2 (k : Nat) : fix_alignment (2 ^ k) = 2 ^ max k 3 := by
  unfold fix_alignment
  by_cases hk : k < 3
  · have h1 : max k 3 = 3 := by omega
    have h2 : 2 ^ k < 2 ^ 3 := Nat.pow_lt_pow_right (by norm_num) hk
    rw [h1, if_pos (by simpa [WSIZE] using h2)]
    rfl
  · have h1 : max k 3 = k := by omega
    have h2 : 2 ^ 3 ≤ 2 ^ k := Nat.pow_le_pow_right (by norm_num) (by omega)
    rw [h1, if_neg (by simp only [WSIZE]; omega)]

theorem max_pow2_eight (k : Nat) : max (2 ^ k) 8 = 2 ^ max k 3 := by
  by_cases hk : k < 3
  · have h1 : max k 3 = 3 := by omega
    have h2 : 2 ^ k < 2 ^ 3 := Nat.pow_lt_pow_right (by norm_num) hk
    rw [h1]
    have : (2:Nat) ^ 3 = 8 := by norm_num
    omega
  · have h1 : max k 3 = k := by omega
    have h2 : 2 ^ 3 ≤ 2 ^ k := Nat.pow_le_pow_right (by norm_num) (by omega)
    rw [h1]
    have : (2:Nat) ^ 3 = 8 := by norm_num
    omega

/-- Rounding `x + m - 1` down to a multiple of `m` gives the least multiple of `m`
that is at least `x`. -/
theorem round_up_least (x m : Nat) (hm : 0 < m) :
    ((x + m - 1) - (x + m - 1) % m) % m = 0 ∧ x ≤ (x + m - 1) - (x + m - 1) % m ∧
      ∀ b, b % m = 0 → x ≤ b → (x + m - 1) - (x + m - 1) % m ≤ b := by
  have h1 : (x + m - 1) % m < m := Nat.mod_lt _ hm
  have h2 := Nat.div_add_mod (x + m - 1) m
  have e : (x + m - 1) - (x + m - 1) % m = m * ((x + m - 1) / m) := by omega
  rw [e]
  refine ⟨Nat.mul_mod_right _ _, by omega, ?_⟩
  intro b hb hx
  obtain ⟨q, rfl⟩ := Nat.dvd_of_mod_eq_zero hb
  apply Nat.mul_le_mul_left
  by_contra hc
  have h3 : q + 1 ≤ (x + m - 1) / m := by omega
  have h4 : m * (q + 1) ≤ m * ((x + m - 1) / m) := Nat.mul_le_mul_left _ h3
  rw [Nat.mul_add, Nat.mul_one] at h4
  omega

/-- The base of a 16-byte-aligned request is a multiple of 16, wrap-around or not. -/
theorem align_pos_sixteen (pos : Nat) : align_pos pos 16 % 16 = 0 := by
  unfold align_pos
  have hy : ((pos + WSIZE) % WORD + 16 - 1) % WORD < WORD := Nat.mod_lt _ (by norm_num)
  have h := and_mask_pow2 _ 4 hy (by norm_num)
  have e : (16 - 1) % WORD = 2 ^ 4 - 1 := by norm_num
  rw [e, h]
  generalize ((pos + WSIZE) % WORD + 16 - 1) % WORD = y
  have : (2:Nat) ^ 4 = 16 := by norm_num
  rw [this]
  omega

theorem next_base_sixteen (s : Machine) : next_base s 16 % 16 = 0 := by
  unfold next_base
  have : fix_alignment 16 = 16 := by decide
  rw [this]
  exact align_pos_sixteen _

/-- C5 (amended): for every state, every power-of-two alignment `2 ^ k` and every
size for which the cursor arithmetic does not wrap, `posix_memalign` stores a base
`b` that is the least multiple of `max (2 ^ k) 8` at or above the old cursor plus one
header word, the old cursor being read as the heap origin `POS_INIT` when it is still
`0`; the new cursor is `b + size + 64`; and the call returns `0` together with `b`
exactly when the oracle's answer keeps the trace valid (it poisons nothing, or a
word-aligned word that is not yet poisoned), the process ending otherwise.  Every
pointer that `malloc` returns is a multiple of 16. -/
theorem posix_memalign_base_least_multiple (s : Machine) (k size off : Nat)
    (hfit : fits s (2 ^ k) size = true) :
    ∃ b, b % max (2 ^ k) 8 = 0 ∧
      (if s.pos = 0 then POS_INIT else s.pos) + 8 ≤ b ∧
      (∀ b', b' % max (2 ^ k) 8 = 0 →
        (if s.pos = 0 then POS_INIT else s.pos) + 8 ≤ b' → b ≤ b') ∧
      (posix_memalign s (2 ^ k) size off).state.pos = b + size + 64 ∧
      (posix_memalign s (2 ^ k) size off).value
        = (if poison_ok s (b + size) off then some (0, b) else none) ∧
      ∀ (t : Machine) (n o p : Nat), (malloc t n o).value = some p → p % 16 = 0 := by
  have hb := fits_bounds s (2 ^ k) size hfit
  have hfit' := hfit
  unfold fits at hfit'
  simp only [Bool.and_eq_true, decide_eq_true_eq] at hfit'
  have hP := init_pos_pos s
  have hbase : next_base s (2 ^ k)
      = ((init_pos s).pos + WSIZE + 2 ^ max k 3 - 1)
          - ((init_pos s).pos + WSIZE + 2 ^ max k 3 - 1) % 2 ^ max k 3 := by
    unfold next_base
    rw [fix_alignment_pow2]
    apply align_pos_pow2
    rw [← fix_alignment_pow2]
    exact hfit'.1
  have hl := round_up_least ((init_pos s).pos + WSIZE) (2 ^ max k 3) (Nat.two_pow_pos _)
  rw [← hbase, ← max_pow2_eight, hP] at hl
  refine ⟨next_base s (2 ^ k), hl.1, hl.2.1, hl.2.2, ?_, ?_, ?_⟩
  · exact posix_memalign_pos_of_fits s _ size off hfit
  · rw [posix_memalign_value]
    have e : (next_base s (2 ^ k) + size) % WORD = next_base s (2 ^ k) + size :=
      Nat.mod_eq_of_lt (by simp only [WORD, MALLOC_PADDING] at hb ⊢; omega)
    rw [e]
  · intro t n o p hp
    rw [malloc_value] at hp
    split at hp
    · simp only [Option.some.injEq] at hp
      rw [← hp]
      exact next_base_sixteen t
    · simp at hp

theorem posix_memalign_base_least_multiple_witness :
    fits (start_state fun _ => 0) (2 ^ 5) 100 = true ∧
    ∃ b, b % max (2 ^ 5) 8 = 0 ∧
      (if (start_state fun _ => 0).pos = 0 then POS_INIT else (start_state fun _ => 0).pos) + 8
        ≤ b ∧
      (∀ b', b' % max (2 ^ 5) 8 = 0 →
        (if (start_state fun _ => 0).pos = 0 then POS_INIT
          else (start_state fun _ => 0).pos) + 8 ≤ b' → b ≤ b') ∧
      (posix_memalign (start_state fun _ => 0) (2 ^ 5) 100 4).state.pos = b + 100 + 64 ∧
      (posix_memalign (start_state fun _ => 0) (2 ^ 5) 100 4).value
        = (if poison_ok (start_state fun _ => 0) (b + 100) 4 then some (0, b) else none) ∧
      ∀ (t : Machine) (n o p : Nat), (malloc t n o).value = some p → p % 16 = 0 :=
  ⟨by decide, posix_memalign_base_least_multiple _ 5 100 4 (by decide)⟩

/-- C5 (counterexample): from the state of a process that has not allocated yet
(cursor `0`) the base stored for alignment 16 is `0x100000010`, although 16 is a
multiple of 16 that is at least the old cursor plus 8; and when the oracle answers
with the misaligned offset 1, `posix_memalign` does not return. -/
theorem posix_memalign_from_zero_cursor_counterexample :
    (start_state fun _ => 0).pos = 0 ∧
    fits (start_state fun _ => 0) 16 1 = true ∧
    (posix_memalign (start_state fun _ => 0) 16 1 64).value = some (0, 4294967312) ∧
    16 % max 16 8 = 0 ∧ (start_state fun _ => 0).pos + 8 ≤ 16 ∧ 16 < 4294967312 ∧
    (posix_memalign (start_state fun _ => 0) 16 1 1).returned = false := by
  decide

/-- C7 (amended): when the cursor arithmetic of the call does not wrap, the cursor
after `posix_memalign`, `malloc` or `realloc` is not lower than the cursor before the
call, for every alignment, size and oracle answer; `free` never changes the cursor. -/
theorem cursor_never_moves_backward (s : Machine) (al size off ptr : Nat)
    (h : fits s al size = true) (h16 : fits s 16 size = true) :
    s.pos ≤ (posix_memalign s al size off).state.pos ∧
      s.pos ≤ (malloc s size off).state.pos ∧
      s.pos ≤ (realloc s ptr size off).state.pos ∧
      (free s ptr).pos = s.pos := by
  have hb := fits_bounds s al size h
  have hb16 := fits_bounds s 16 size h16
  have h0 := pos_le_init_pos s
  refine ⟨?_, ?_, ?_, free_pos s ptr⟩
  · rw [posix_memalign_pos_of_fits s al size off h]
    omega
  · rw [malloc_pos]
    simp only [WORD, MALLOC_PADDING] at hb16 ⊢
    omega
  · rw [realloc_pos]
    simp only [WORD, MALLOC_PADDING] at hb16 ⊢
    omega

theorem cursor_never_moves_backward_witness :
    fits (malloc (start_state fun _ => 0) 1 64).state 32 100 = true ∧
    fits (malloc (start_state fun _ => 0) 1 64).state 16 100 = true ∧
    (malloc (start_state fun _ => 0) 1 64).state.pos
      ≤ (posix_memalign (malloc (start_state fun _ => 0) 1 64).state 32 100 0).state.pos ∧
    (malloc (start_state fun _ => 0) 1 64).state.pos
      ≤ (malloc (malloc (start_state fun _ => 0) 1 64).state 100 0).state.pos ∧
    (malloc (start_state fun _ => 0) 1 64).state.pos
      ≤ (realloc (malloc (start_state fun _ => 0) 1 64).state 4294967312 100 0).state.pos ∧
    (free (malloc (start_state fun _ => 0) 1 64).state 4294967312).pos
      = (malloc (start_state fun _ => 0) 1 64).state.pos :=
  ⟨by decide, by decide,
    cursor_never_moves_backward _ 32 100 0 4294967312 (by decide) (by decide)⟩

/-- C7 (counterexample): after `malloc(1)` the cursor is `0x100000051`; a following
`malloc(2 ^ 64 - 100)` returns and leaves the cursor at `0x10000003c`, which is
lower. -/
theorem cursor_moves_backward_on_wrap :
    (malloc (start_state fun _ => 0) 1 64).state.pos = 4294967377 ∧
    (malloc (malloc (start_state fun _ => 0) 1 64).state 18446744073709551516 64).returned
      = true ∧
    (malloc (malloc (start_state fun _ => 0) 1 64).state 18446744073709551516 64).state.pos
      = 4294967356 ∧
    ¬ ((malloc (start_state fun _ => 0) 1 64).state.pos
      ≤ (malloc (malloc (start_state fun _ => 0) 1 64).state 18446744073709551516 64).state.pos) := by
  decide

theorem poison_padding_cases (s : Machine) (ps off : Nat) :
    poison_padding s ps off =
      if off < MALLOC_PADDING then
        if (ps + off) % WORD % WSIZE = 0 then
          if word_poisoned s ((ps + off) % WORD) = true then
            .halt { s with invalid := true,
                           log := Event.flag_invalid ::
                             Event.write_and_poison ((ps + off) % WORD) 0 :: s.log }
          else
            .ret { s with mem := write_word s.mem ((ps + off) % WORD) 0,
                          poisoned := fun x => in_word ((ps + off) % WORD) x || s.poisoned x,
                          log := Event.write_and_poison ((ps + off) % WORD) 0 :: s.log } ()
        else .halt { s with invalid := true, log := Event.flag_invalid :: s.log }
      else .ret s () := by
  unfold poison_padding
  by_cases h1 : off < MALLOC_PADDING
  · by_cases h2 : (ps + off) % WORD % WSIZE = 0
    · by_cases h3 : word_poisoned s ((ps + off) % WORD) = true
      · simp [h1, h2, h3, __cc_valid_if, Outcome.bind, __cc_write_and_poison, __cc_flag_invalid]
      · simp [h1, h2, h3, __cc_valid_if, Outcome.bind, __cc_write_and_poison, __cc_flag_invalid]
    · simp [h1, h2, __cc_valid_if, Outcome.bind, __cc_flag_invalid]
  · simp [h1]

theorem poison_padding_valid (s : Machine) (ps off : Nat) :
    (poison_padding s ps off).state.valid = s.valid := by
  rw [poison_padding_cases]
  split_ifs <;> rfl

theorem poison_padding_bug (s : Machine) (ps off : Nat) :
    (poison_padding s ps off).state.bug = s.bug := by
  rw [poison_padding_cases]
  split_ifs <;> rfl

theorem poison_padding_invalid (s : Machine) (ps off : Nat) :
    (poison_padding s ps off).state.invalid = (s.invalid || !poison_ok s ps off) := by
  rw [poison_padding_cases]
  unfold poison_ok
  split_ifs with h1 h2 h3 <;> simp_all [Outcome.state]

theorem poison_padding_poisoned (s : Machine) (ps off x : Nat)
    (h : (poison_padding s ps off).state.poisoned x = true) :
    s.poisoned x = true ∨
      (off < MALLOC_PADDING ∧ (ps + off) % WORD % WSIZE = 0 ∧
        in_word ((ps + off) % WORD) x = true) := by
  rw [poison_padding_cases] at h
  split_ifs at h with h1 h2 h3
  · exact Or.inl h
  · simp only [Outcome.state, Bool.or_eq_true] at h
    rcases h with h | h
    · exact Or.inr ⟨h1, h2, h⟩
    · exact Or.inl h
  · exact Or.inl h
  · exact Or.inl h

theorem poison_padding_mem (s : Machine) (ps off x : Nat)
    (h : in_word ((ps + off) % WORD) x = false ∨ MALLOC_PADDING ≤ off) :
    (poison_padding s ps off).state.mem x = s.mem x := by
  rw [poison_padding_cases]
  split_ifs with h1 h2 h3
  · rfl
  · rcases h with h | h
    · simp [Outcome.state, write_word, h]
    · omega
  · rfl
  · rfl

/-- The bytes of a word that does not wrap around the address space. -/
theorem in_word_iff (a x : Nat) (ha : a + WSIZE ≤ WORD) :
    in_word a x = true ↔ a ≤ x ∧ x < a + WSIZE := by
  unfold in_word
  simp only [WORD, WSIZE, Bool.and_eq_true, decide_eq_true_eq] at ha ⊢
  omega

theorem posix_memalign_eq_pre (s : Machine) (al size off : Nat) :
    posix_memalign s al size off =
      (poison_padding (pre_poison s al size) ((next_base s al + size) % WORD) off).bind
        fun s5 _ => .ret s5 (0, next_base s al) := rfl

theorem bind_ret_state {α β : Type} (o : Outcome α) (v : Machine → α → β) :
    (o.bind fun s a => .ret s (v s a)).state = o.state := by
  cases o <;> rfl

theorem posix_memalign_state (s : Machine) (al size off : Nat) :
    (posix_memalign s al size off).state
      = (poison_padding (pre_poison s al size) ((next_base s al + size) % WORD) off).state := by
  rw [posix_memalign_eq_pre]
  exact bind_ret_state _ (fun _ _ => (0, next_base s al))

theorem malloc_state (s : Machine) (size off : Nat) :
    (malloc s size off).state = (posix_memalign s 16 size off).state := by
  exact bind_ret_state (posix_memalign s 16 size off) (fun _ r => r.2)

theorem pre_poison_poisoned (s : Machine) (al size : Nat) :
    (pre_poison s al size).poisoned = s.poisoned := by
  simp [pre_poison, __cc_write_unchecked, __cc_access_valid, init_pos_poisoned]

theorem pre_poison_bug (s : Machine) (al size : Nat) : (pre_poison s al size).bug = s.bug := by
  simp [pre_poison, __cc_write_unchecked, __cc_access_valid, init_pos_bug]

theorem pre_poison_invalid (s : Machine) (al size : Nat) :
    (pre_poison s al size).invalid = s.invalid := by
  simp [pre_poison, __cc_write_unchecked, __cc_access_valid, init_pos_invalid]

theorem pre_poison_valid (s : Machine) (al size : Nat) :
    (pre_poison s al size).valid = fun x =>
      (decide (next_base s al ≤ x) && decide (x < (next_base s al + size) % WORD))
        || s.valid x := by
  simp [pre_poison, __cc_write_unchecked, __cc_access_valid, init_pos_valid]

theorem pre_poison_mem (s : Machine) (al size : Nat) :
    (pre_poison s al size).mem
      = write_word (init_pos s).mem ((next_base s al + WORD - WSIZE) % WORD) size := by
  simp [pre_poison, __cc_write_unchecked, __cc_access_valid]

theorem poison_ok_congr (s t : Machine) (h : s.poisoned = t.poisoned) (ps off : Nat) :
    poison_ok s ps off = poison_ok t ps off := by
  unfold poison_ok
  rw [word_poisoned_congr s t h]

theorem posix_memalign_bug (s : Machine) (al size off : Nat) :
    (posix_memalign s al size off).state.bug = s.bug := by
  rw [posix_memalign_state, poison_padding_bug, pre_poison_bug]

theorem posix_memalign_invalid (s : Machine) (al size off : Nat) :
    (posix_memalign s al size off).state.invalid
      = (s.invalid || !poison_ok s ((next_base s al + size) % WORD) off) := by
  rw [posix_memalign_state, poison_padding_invalid, pre_poison_invalid,
    poison_ok_congr _ s (pre_poison_poisoned s al size)]

theorem posix_memalign_valid (s : Machine) (al size off : Nat) :
    (posix_memalign s al size off).state.valid = fun x =>
      (decide (next_base s al ≤ x) && decide (x < (next_base s al + size) % WORD))
        || s.valid x := by
  rw [posix_memalign_state, poison_padding_valid, pre_poison_valid]

/-- Under `fits`, a byte poisoned after `posix_memalign` was poisoned before or lies
in the new word, which starts in the padding. -/
theorem posix_memalign_poisoned (s : Machine) (al size off x : Nat)
    (hfit : fits s al size = true)
    (h : (posix_memalign s al size off).state.poisoned x = true) :
    s.poisoned x = true ∨
      (next_base s al + size ≤ x ∧ x < next_base s al + size + MALLOC_PADDING + 7) := by
  have hb := fits_bounds s al size hfit
  rw [posix_memalign_state] at h
  rcases poison_padding_poisoned _ _ _ _ h with h | ⟨h1, h2, h3⟩
  · rw [pre_poison_poisoned] at h
    exact Or.inl h
  · right
    have e : (next_base s al + size) % WORD = next_base s al + size :=
      Nat.mod_eq_of_lt (by simp only [WORD, MALLOC_PADDING] at hb ⊢; omega)
    rw [e] at h2 h3
    have e2 : (next_base s al + size + off) % WORD = next_base s al + size + off :=
      Nat.mod_eq_of_lt (by simp only [WORD, MALLOC_PADDING] at hb h1 ⊢; omega)
    rw [e2] at h2 h3
    rw [in_word_iff _ _ (by simp only [WORD, MALLOC_PADDING, WSIZE] at hb h1 h2 ⊢; omega)] at h3
    simp only [WORD, MALLOC_PADDING, WSIZE] at hb h1 h2 h3 ⊢
    omega

/-- The poisoned bytes after the poisoning step: a word is added exactly when the
oracle's offset is in range and names a word-aligned word that is not yet
poisoned. -/
theorem poison_padding_poisoned_eq (s : Machine) (ps off : Nat) :
    (poison_padding s ps off).state.poisoned =
      if off < MALLOC_PADDING ∧ (ps + off) % WORD % WSIZE = 0 ∧
          word_poisoned s ((ps + off) % WORD) = false then
        fun x => in_word ((ps + off) % WORD) x || s.poisoned x
      else s.poisoned := by
  rw [poison_padding_cases]
  split_ifs <;> simp_all [Outcome.state]

theorem posix_memalign_poisoned_eq (s : Machine) (al size off : Nat) :
    (posix_memalign s al size off).state.poisoned =
      if off < MALLOC_PADDING ∧ ((next_base s al + size) % WORD + off) % WORD % WSIZE = 0 ∧
          word_poisoned s (((next_base s al + size) % WORD + off) % WORD) = false then
        fun x => in_word (((next_base s al + size) % WORD + off) % WORD) x || s.poisoned x
      else s.poisoned := by
  rw [posix_memalign_state, poison_padding_poisoned_eq, pre_poison_poisoned,
    word_poisoned_congr _ s (pre_poison_poisoned s al size)]

theorem bind_returned_value {α β : Type} (o : Outcome α) (v : α → β) :
    (o.bind fun s a => .ret s (v a)).value = o.value.map v := by
  cases o <;> rfl

theorem malloc_returned (s : Machine) (size off : Nat) :
    (malloc s size off).returned = poison_ok s ((next_base s 16 + size) % WORD) off := by
  rw [← posix_memalign_returned]
  exact bind_ret_returned (posix_memalign s 16 size off) (fun s _ => s) (fun _ r => r.2)

theorem bind_ret_field {α β γ : Type} (o : Outcome α) (g : Machine → α → Machine)
    (v : Machine → α → β) (F : Machine → γ) (hF : ∀ s a, F (g s a) = F s) :
    F (o.bind fun s a => .ret (g s a) (v s a)).state = F o.state := by
  cases o with
  | ret s a => exact hF s a
  | halt s => rfl

theorem bind_ret_value {α : Type} (o : Outcome α) (g : Machine → α → Machine) :
    (o.bind fun s a => .ret (g s a) a).value = o.value := by
  cases o <;> rfl

theorem realloc_eq (s : Machine) (ptr size off : Nat) (h : ptr ≠ 0) :
    realloc s ptr size off =
      (malloc (__cc_read_unchecked s ((ptr + WORD - WSIZE) % WORD)).1 size off).bind
        fun s1 new_ptr =>
          .ret (free (memcpy s1 new_ptr ptr
            (if (__cc_read_unchecked s ((ptr + WORD - WSIZE) % WORD)).2 < size
              then (__cc_read_unchecked s ((ptr + WORD - WSIZE) % WORD)).2 else size)) ptr)
            new_ptr := by
  unfold realloc
  rw [if_neg h]

theorem free_poisoned (s : Machine) (ptr : Nat) : (free s ptr).poisoned = s.poisoned := by
  unfold free
  split_ifs <;> rfl

theorem free_invalid (s : Machine) (ptr : Nat) : (free s ptr).invalid = s.invalid := by
  unfold free
  split_ifs <;> rfl

theorem free_bug (s : Machine) (ptr : Nat) : (free s ptr).bug = s.bug := by
  unfold free
  split_ifs <;> rfl

theorem free_mem (s : Machine) (ptr : Nat) : (free s ptr).mem = s.mem := by
  unfold free
  split_ifs <;> rfl

/-- The cursor, the poisoned bytes and the flags after `realloc` are those after the
`malloc` it calls, and it returns what that `malloc` returns. -/
theorem realloc_view (s : Machine) (ptr size off : Nat) :
    (realloc s ptr size off).state.pos = (malloc s size off).state.pos ∧
      (realloc s ptr size off).state.poisoned = (malloc s size off).state.poisoned ∧
      (realloc s ptr size off).state.invalid = (malloc s size off).state.invalid ∧
      (realloc s ptr size off).value = (malloc s size off).value := by
  by_cases h0 : ptr = 0
  · unfold realloc
    rw [if_pos h0]
    exact ⟨rfl, rfl, rfl, rfl⟩
  · have hp : (malloc (__cc_read_unchecked s ((ptr + WORD - WSIZE) % WORD)).1 size off).state.pos
        = (malloc s size off).state.pos := by
      rw [malloc_pos, malloc_pos,
        next_base_of_pos_eq (__cc_read_unchecked s ((ptr + WORD - WSIZE) % WORD)).1 s rfl]
    have hq : (malloc (__cc_read_unchecked s ((ptr + WORD - WSIZE) % WORD)).1 size off).state.poisoned
        = (malloc s size off).state.poisoned := by
      rw [malloc_state, malloc_state, posix_memalign_poisoned_eq, posix_memalign_poisoned_eq,
        next_base_of_pos_eq (__cc_read_unchecked s ((ptr + WORD - WSIZE) % WORD)).1 s rfl,
        word_poisoned_congr (__cc_read_unchecked s ((ptr + WORD - WSIZE) % WORD)).1 s rfl]
      rfl
    have hi : (malloc (__cc_read_unchecked s ((ptr + WORD - WSIZE) % WORD)).1 size off).state.invalid
        = (malloc s size off).state.invalid := by
      rw [malloc_state, malloc_state, posix_memalign_invalid, posix_memalign_invalid,
        next_base_of_pos_eq (__cc_read_unchecked s ((ptr + WORD - WSIZE) % WORD)).1 s rfl,
        poison_ok_congr (__cc_read_unchecked s ((ptr + WORD - WSIZE) % WORD)).1 s rfl]
      rfl
    have hv : (malloc (__cc_read_unchecked s ((ptr + WORD - WSIZE) % WORD)).1 size off).value
        = (malloc s size off).value := by
      rw [malloc_value, malloc_value,
        next_base_of_pos_eq (__cc_read_unchecked s ((ptr + WORD - WSIZE) % WORD)).1 s rfl,
        poison_ok_congr (__cc_read_unchecked s ((ptr + WORD - WSIZE) % WORD)).1 s rfl]
    rw [realloc_eq s ptr size off h0, ← hp, ← hq, ← hi, ← hv]
    refine ⟨?_, ?_, ?_, ?_⟩
    · exact bind_ret_field _ _ _ Machine.pos (fun s1 a => by rw [free_pos]; rfl)
    · exact bind_ret_field _ _ _ Machine.poisoned (fun s1 a => by rw [free_poisoned]; rfl)
    · exact bind_ret_field _ _ _ Machine.invalid (fun s1 a => by rw [free_invalid]; rfl)
    · exact bind_ret_value _ _

theorem store8_view (s : Machine) (ptr val : Nat) :
    (store8 s ptr val).pos = s.pos ∧ (store8 s ptr val).poisoned = s.poisoned ∧
      (store8 s ptr val).invalid = s.invalid ∧ (store8 s ptr val).valid = s.valid := by
  unfold store8 __cc_bug_if
  split_ifs <;> exact ⟨rfl, rfl, rfl, rfl⟩

/-- A call that does not allocate returns and leaves the cursor, the poisoned bytes
and the validity of the trace as they are. -/
theorem run_params_none (s : Machine) (c : Call) (h : c.alloc_params = none) :
    (c.run s).returned = true ∧ (c.run s).value = some none ∧ c.fits s = true ∧
      (c.run s).state.pos = s.pos ∧ (c.run s).state.poisoned = s.poisoned ∧
      (c.run s).state.invalid = s.invalid := by
  cases c with
  | malloc size off => simp [Call.alloc_params] at h
  | posix_memalign al size off => simp [Call.alloc_params] at h
  | realloc ptr size off => simp [Call.alloc_params] at h
  | free ptr =>
    exact ⟨rfl, rfl, rfl, free_pos s ptr, free_poisoned s ptr, free_invalid s ptr⟩
  | store ptr val =>
    have hv := store8_view s ptr val
    exact ⟨rfl, rfl, rfl, hv.1, hv.2.1, hv.2.2.1⟩

/-- A call that allocates changes the cursor, the poisoned bytes and the validity of
the trace as its `posix_memalign` does, and returns the base that `posix_memalign`
stores. -/
theorem run_params_some (s : Machine) (c : Call) (al size off : Nat)
    (h : c.alloc_params = some (al, size, off)) :
    (c.run s).returned = poison_ok s ((next_base s al + size) % WORD) off ∧
      (c.run s).value = (if poison_ok s ((next_base s al + size) % WORD) off
        then some (some (next_base s al, size)) else none) ∧
      c.fits s = fits s al size ∧
      (c.run s).state.pos = (posix_memalign s al size off).state.pos ∧
      (c.run s).state.poisoned = (posix_memalign s al size off).state.poisoned ∧
      (c.run s).state.invalid = (posix_memalign s al size off).state.invalid := by
  have key : ∀ (o : Outcome Nat),
      o.value = (if poison_ok s ((next_base s al + size) % WORD) off
        then some (next_base s al) else none) →
      (o.bind fun s1 p => Outcome.ret s1 (some (p, size))).returned
          = poison_ok s ((next_base s al + size) % WORD) off ∧
        (o.bind fun s1 p => Outcome.ret s1 (some (p, size))).value
          = (if poison_ok s ((next_base s al + size) % WORD) off
            then some (some (next_base s al, size)) else none) ∧
        (o.bind fun s1 p => Outcome.ret s1 (some (p, size))).state = o.state := by
    intro o ho
    cases o with
    | ret s1 p =>
      simp only [Outcome.value] at ho
      split at ho
      · next hok =>
        simp only [Option.some.injEq] at ho
        simp [Outcome.bind, Outcome.returned, Outcome.value, Outcome.state, hok, ho]
      · simp at ho
    | halt s1 =>
      simp only [Outcome.value] at ho
      split at ho
      · simp at ho
      · next hok => simp [Outcome.bind, Outcome.returned, Outcome.value, Outcome.state, hok]
  cases c with
  | free ptr => simp [Call.alloc_params] at h
  | store ptr val => simp [Call.alloc_params] at h
  | malloc size' off' =>
    simp only [Call.alloc_params, Option.some.injEq, Prod.mk.injEq] at h
    obtain ⟨rfl, rfl, rfl⟩ := h
    have k := key (malloc s size' off') (malloc_value s size' off')
    refine ⟨k.1, k.2.1, rfl, ?_, ?_, ?_⟩ <;>
      simp only [Call.run] <;> rw [k.2.2, malloc_state]
  | posix_memalign al' size' off' =>
    simp only [Call.alloc_params, Option.some.injEq, Prod.mk.injEq] at h
    obtain ⟨rfl, rfl, rfl⟩ := h
    have hv := posix_memalign_value s al' size' off'
    simp only [Call.run]
    generalize posix_memalign s al' size' off' = o at hv ⊢
    cases o with
    | ret s1 p =>
      simp only [Outcome.value] at hv
      split at hv
      · next hok =>
        simp only [Option.some.injEq] at hv
        simp [Outcome.bind, Outcome.returned, Outcome.value, Outcome.state, hok, hv, Call.fits]
      · simp at hv
    | halt s1 =>
      simp only [Outcome.value] at hv
      split at hv
      · simp at hv
      · next hok =>
        simp [Outcome.bind, Outcome.returned, Outcome.value, Outcome.state, hok, Call.fits]
  | realloc ptr size' off' =>
    simp only [Call.alloc_params, Option.some.injEq, Prod.mk.injEq] at h
    obtain ⟨rfl, rfl, rfl⟩ := h
    have hv := realloc_view s ptr size' off'
    have k := key (realloc s ptr size' off') (by rw [hv.2.2.2, malloc_value])
    refine ⟨k.1, k.2.1, rfl, ?_, ?_, ?_⟩ <;> simp only [Call.run] <;> rw [k.2.2]
    · rw [hv.1, malloc_state]
    · rw [hv.2.1, malloc_state]
    · rw [hv.2.2.1, malloc_state]

/-- The next call of a running process, in terms of the outcome of the call. -/
theorem step_of_outcome (r : Run) (c : Call) (hr : r.ended = false) :
    (r.step c).state = (c.run r.state).state ∧
      (r.step c).ended = !(c.run r.state).returned ∧
      (r.step c).wrapped = (r.wrapped || !c.fits r.state) ∧
      (r.step c).allocs = (match (c.run r.state).value with
        | some (some a) => a :: r.allocs
        | _ => r.allocs) := by
  unfold Run.step
  rw [hr]
  simp only [Bool.false_eq_true, if_false]
  cases c.run r.state with
  | halt s1 => exact ⟨rfl, rfl, rfl, rfl⟩
  | ret s1 a =>
    cases a with
    | none => exact ⟨rfl, rfl, rfl, rfl⟩
    | some a => exact ⟨rfl, rfl, rfl, rfl⟩

theorem step_ended (r : Run) (c : Call) (hr : r.ended = true) : r.step c = r := by
  unfold Run.step
  rw [if_pos hr]

theorem step_wrapped_mono (r : Run) (c : Call) (h : (r.step c).wrapped = false) :
    r.wrapped = false := by
  cases hr : r.ended with
  | true => rw [step_ended r c hr] at h; exact h
  | false =>
    rw [(step_of_outcome r c hr).2.2.1] at h
    simp only [Bool.or_eq_false_iff] at h
    exact h.1

theorem foldl_wrapped_mono (cs : List Call) : ∀ (r : Run),
    (cs.foldl Run.step r).wrapped = false → r.wrapped = false := by
  induction cs with
  | nil => intro r h; exact h
  | cons c cs ih =>
    intro r h
    exact step_wrapped_mono r c (ih _ h)

theorem init_pos_ge (s : Machine) (h : s.pos = 0 ∨ POS_INIT ≤ s.pos) :
    POS_INIT ≤ (init_pos s).pos := by
  rw [init_pos_pos]
  split <;> omega

/-- The invariant is kept by every call whose cursor arithmetic does not wrap. -/
theorem inv_step (r : Run) (c : Call) (hI : r.Inv) (hw : (r.step c).wrapped = false) :
    (r.step c).Inv := by
  cases hr : r.ended with
  | true => rw [step_ended r c hr]; exact hI
  | false =>
    obtain ⟨hst, hen, hwr, hal⟩ := step_of_outcome r c hr
    cases hp : c.alloc_params with
    | none =>
      obtain ⟨h1, h2, _, h4, h5, h6⟩ := run_params_none r.state c hp
      rw [h2] at hal
      refine ⟨?_, ?_, ?_, ?_, ?_, ?_⟩
      · rw [hst, h4]; exact hI.pos_lt
      · rw [hst, h4]; exact hI.pos_init
      · rw [hst, h4, hal]; exact hI.allocs_in
      · rw [hal]; exact hI.allocs_apart
      · rw [hst, h4, h5]; exact hI.poison_below
      · intro _; rw [hst, h6]; exact hI.running_valid hr
    | some q =>
      obtain ⟨al, size, off⟩ := q
      obtain ⟨h1, h2, h3, h4, h5, h6⟩ := run_params_some r.state c al size off hp
      rw [hwr, h3] at hw
      simp only [Bool.or_eq_false_iff, Bool.not_eq_false'] at hw
      have hfit := hw.2
      have hb := fits_bounds r.state al size hfit
      have hP := init_pos_ge r.state hI.pos_init
      have hP2 := pos_le_init_pos r.state
      have hpos : (r.step c).state.pos = next_base r.state al + size + MALLOC_PADDING := by
        rw [hst, h4, posix_memalign_pos_of_fits r.state al size off hfit]
      have hold : ∀ a ∈ r.allocs, POS_INIT + WSIZE ≤ a.1 ∧
          a.1 + a.2 + MALLOC_PADDING ≤ (r.step c).state.pos := by
        intro a ha
        have := hI.allocs_in a ha
        rw [hpos]
        omega
      refine ⟨?_, ?_, ?_, ?_, ?_, ?_⟩
      · rw [hpos]; exact hb.2.2
      · rw [hpos]; right; omega
      · rw [hal, h2]
        split_ifs
        · intro a ha
          rcases List.mem_cons.1 ha with rfl | ha
          · rw [hpos]
            simp only
            omega
          · exact hold a ha
        · exact hold
      · rw [hal, h2]
        split_ifs
        · refine List.Pairwise.cons ?_ hI.allocs_apart
          intro a ha
          have := hI.allocs_in a ha
          simp only
          omega
        · exact hI.allocs_apart
      · intro x hx
        rw [hst, h5] at hx
        rw [hpos]
        rcases posix_memalign_poisoned r.state al size off x hfit hx with h | h
        · have := hI.poison_below x h
          omega
        · omega
      · intro he
        rw [hen, h1] at he
        simp only [Bool.not_eq_false'] at he
        rw [hst, h6, posix_memalign_invalid, he, hI.running_valid hr]
        rfl

theorem inv_foldl (cs : List Call) : ∀ (r : Run), r.Inv →
    (cs.foldl Run.step r).wrapped = false → (cs.foldl Run.step r).Inv := by
  induction cs with
  | nil => intro r hI _; exact hI
  | cons c cs ih =>
    intro r hI h
    exact ih _ (inv_step r c hI (foldl_wrapped_mono cs _ h)) h

theorem inv_start (mem : Nat → Nat) :
    Run.Inv { state := start_state mem, ended := false, wrapped := false, allocs := [] } := by
  refine ⟨by show 0 < WORD; decide, Or.inl rfl, ?_, List.Pairwise.nil, ?_, fun _ => rfl⟩
  · intro a ha; simp at ha
  · intro x hx; simp [start_state] at hx

/-- Every run from the start of a process whose cursor arithmetic never wraps
satisfies the invariant. -/
theorem run_calls_inv (mem : Nat → Nat) (cs : List Call)
    (hw : (run_calls (start_state mem) cs).wrapped = false) :
    (run_calls (start_state mem) cs).Inv :=
  inv_foldl cs _ (inv_start mem) hw

/-- C4: in every run of `malloc`/`posix_memalign`/`free`/`realloc` calls (and program
stores) from the start of a process during which the 64-bit cursor arithmetic does
not wrap, the address ranges `[base - 8, base + size)`, header word plus payload, of
any two allocations ever returned share no address, whether or not `free` was called
in between, and every returned base is at least `0x100000000 + 8`. -/
theorem allocations_never_overlap (mem : Nat → Nat) (cs : List Call)
    (hw : (run_calls (start_state mem) cs).wrapped = false) :
    (run_calls (start_state mem) cs).allocs.Pairwise
        (fun a a' => ∀ x, ¬ ((a.1 - 8 ≤ x ∧ x < a.1 + a.2) ∧ (a'.1 - 8 ≤ x ∧ x < a'.1 + a'.2))) ∧
      ∀ a ∈ (run_calls (start_state mem) cs).allocs, 4294967296 + 8 ≤ a.1 := by
  have hI := run_calls_inv mem cs hw
  refine ⟨?_, fun a ha => (hI.allocs_in a ha).1⟩
  refine List.Pairwise.imp_of_mem ?_ hI.allocs_apart
  intro a a' ha ha' h x hx
  have h1 := hI.allocs_in a ha
  have h2 := hI.allocs_in a' ha'
  simp only [WSIZE, MALLOC_PADDING, POS_INIT] at h h1 h2
  omega

theorem allocations_never_overlap_witness :
    (run_calls (start_state fun _ => 0)
      [Call.malloc 10 6, Call.store 4294967312 65, Call.free 4294967312,
        Call.realloc 4294967312 100 64, Call.malloc 3 5]).allocs.length = 3 ∧
    (run_calls (start_state fun _ => 0)
      [Call.malloc 10 6, Call.store 4294967312 65, Call.free 4294967312,
        Call.realloc 4294967312 100 64, Call.malloc 3 5]).wrapped = false ∧
    (run_calls (start_state fun _ => 0)
      [Call.malloc 10 6, Call.store 4294967312 65, Call.free 4294967312,
        Call.realloc 4294967312 100 64, Call.malloc 3 5]).allocs.Pairwise
        (fun a a' => ∀ x, ¬ ((a.1 - 8 ≤ x ∧ x < a.1 + a.2) ∧ (a'.1 - 8 ≤ x ∧ x < a'.1 + a'.2))) ∧
      ∀ a ∈ (run_calls (start_state fun _ => 0)
      [Call.malloc 10 6, Call.store 4294967312 65, Call.free 4294967312,
        Call.realloc 4294967312 100 64, Call.malloc 3 5]).allocs, 4294967296 + 8 ≤ a.1 :=
  ⟨by decide, by decide, allocations_never_overlap _ _ (by decide)⟩

/-- The lazy initialisation records host calls but flags nothing. -/
theorem init_pos_log (s : Machine) :
    ∃ evs, (init_pos s).log = evs ++ s.log ∧
      Event.flag_bug ∉ evs ∧ Event.flag_invalid ∉ evs := by
  unfold init_pos
  split
  · exact ⟨[Event.mmap POS_INIT HEAP_WINDOW], rfl, by simp, by simp⟩
  · exact ⟨[], rfl, by simp, by simp⟩

theorem pre_poison_log (s : Machine) (al size : Nat) :
    ∃ evs, (pre_poison s al size).log = evs ++ s.log ∧
      Event.flag_bug ∉ evs ∧ Event.flag_invalid ∉ evs := by
  obtain ⟨evs, h, h1, h2⟩ := init_pos_log s
  refine ⟨Event.advise_poison_offset ((next_base s al + size) % WORD) MALLOC_PADDING ::
    Event.write_unchecked ((next_base s al + WORD - WSIZE) % WORD) size ::
    Event.access_valid (next_base s al) ((next_base s al + size) % WORD) :: evs, ?_, ?_, ?_⟩
  · simp [pre_poison, __cc_write_unchecked, __cc_access_valid, h]
  · simp [h1]
  · simp [h2]

theorem poison_padding_log (s : Machine) (ps off : Nat) (h : poison_ok s ps off = true) :
    ∃ evs, (poison_padding s ps off).state.log = evs ++ s.log ∧
      Event.flag_bug ∉ evs ∧ Event.flag_invalid ∉ evs := by
  rw [poison_padding_cases]
  unfold poison_ok at h
  split_ifs with h1 h2 h3
  · simp_all
    omega
  · exact ⟨[Event.write_and_poison ((ps + off) % WORD) 0], rfl, by simp, by simp⟩
  · simp_all
    omega
  · exact ⟨[], rfl, by simp, by simp⟩

theorem posix_memalign_log (s : Machine) (al size off : Nat)
    (h : poison_ok s ((next_base s al + size) % WORD) off = true) :
    ∃ evs, (posix_memalign s al size off).state.log = evs ++ s.log ∧
      Event.flag_bug ∉ evs ∧ Event.flag_invalid ∉ evs := by
  rw [posix_memalign_state]
  rw [← poison_ok_congr _ s (pre_poison_poisoned s al size)] at h
  obtain ⟨e1, h1, a1, b1⟩ := poison_padding_log _ _ _ h
  obtain ⟨e2, h2, a2, b2⟩ := pre_poison_log s al size
  refine ⟨e1 ++ e2, ?_, ?_, ?_⟩
  · rw [h1, h2, List.append_assoc]
  · simp [a1, a2]
  · simp [b1, b2]

/-- In a state that satisfies the invariant, an oracle answer that is out of range
or names a word-aligned address keeps the trace valid. -/
theorem poison_ok_of_inv (s : Machine) (al size off : Nat) (hfit : fits s al size = true)
    (hpo : ∀ x, s.poisoned x = true → x < s.pos + 7)
    (horacle : MALLOC_PADDING ≤ off ∨ (next_base s al + size + off) % WSIZE = 0) :
    poison_ok s ((next_base s al + size) % WORD) off = true := by
  have hb := fits_bounds s al size hfit
  have hP := pos_le_init_pos s
  unfold poison_ok
  by_cases h1 : MALLOC_PADDING ≤ off
  · simp [h1]
  · have h2 : (next_base s al + size + off) % WSIZE = 0 := by
      rcases horacle with h | h
      · exact absurd h h1
      · exact h
    have e : (next_base s al + size) % WORD = next_base s al + size :=
      Nat.mod_eq_of_lt (by simp only [WORD, MALLOC_PADDING] at hb ⊢; omega)
    have e2 : (next_base s al + size + off) % WORD = next_base s al + size + off :=
      Nat.mod_eq_of_lt (by simp only [WORD, MALLOC_PADDING] at hb h1 ⊢; omega)
    rw [e, e2]
    have hnp : ∀ x, s.pos + 7 ≤ x → s.poisoned x = false := by
      intro x hx
      cases hq : s.poisoned x with
      | false => rfl
      | true => have := hpo x hq; omega
    have hw : word_poisoned s (next_base s al + size + off) = false := by
      unfold word_poisoned
      have m : ∀ i, i < 8 → (next_base s al + size + off + i) % WORD
          = next_base s al + size + off + i := by
        intro i hi
        apply Nat.mod_eq_of_lt
        simp only [WORD, MALLOC_PADDING, WSIZE] at hb h1 h2 ⊢
        omega
      rw [m 1 (by omega), m 2 (by omega), m 3 (by omega), m 4 (by omega), m 5 (by omega),
        m 6 (by omega), m 7 (by omega)]
      simp only [WSIZE] at hb
      rw [hnp _ (by omega), hnp _ (by omega), hnp _ (by omega), hnp _ (by omega),
        hnp _ (by omega), hnp _ (by omega), hnp _ (by omega), hnp _ (by omega)]
      rfl
    simp [h2, hw]

theorem store8_of_accessible (s : Machine) (ptr val : Nat) (hv : s.valid ptr = true)
    (hp : s.poisoned ptr = false) :
    store8 s ptr val = { s with mem := store_byte s.mem ptr (val % 256) } := by
  unfold store8 __cc_bug_if
  simp [hv, hp]

/-- Stores to accessible, unpoisoned bytes change nothing but the memory. -/
theorem fill_of_accessible (s : Machine) (p : Nat) (vals : Nat → Nat) (n : Nat)
    (h : ∀ i, i < n → s.valid ((p + i) % WORD) = true ∧ s.poisoned ((p + i) % WORD) = false) :
    (fill s p vals n).valid = s.valid ∧ (fill s p vals n).poisoned = s.poisoned ∧
      (fill s p vals n).bug = s.bug ∧ (fill s p vals n).invalid = s.invalid ∧
      (fill s p vals n).pos = s.pos ∧ (fill s p vals n).log = s.log := by
  induction n with
  | zero => exact ⟨rfl, rfl, rfl, rfl, rfl, rfl⟩
  | succ n ih =>
    obtain ⟨h1, h2, h3, h4, h5, h6⟩ := ih (fun i hi => h i (by omega))
    have hn := h n (by omega)
    unfold fill
    rw [store8_of_accessible _ _ _ (by rw [h1]; exact hn.1) (by rw [h2]; exact hn.2)]
    exact ⟨h1, h2, h3, h4, h5, h6⟩

theorem free_log (s : Machine) (ptr : Nat) :
    ∃ evs, (free s ptr).log = evs ++ s.log ∧
      Event.flag_bug ∉ evs ∧ Event.flag_invalid ∉ evs := by
  unfold free
  split_ifs
  · exact ⟨[], rfl, by simp, by simp⟩
  · exact ⟨[], rfl, by simp, by simp⟩
  · exact ⟨[Event.access_invalid ptr ((ptr + (__cc_read_unchecked s
      ((ptr + WORD - WSIZE) % WORD)).2) % WORD), Event.read_unchecked
      ((ptr + WORD - WSIZE) % WORD)], rfl, by simp, by simp⟩

theorem outcome_eq_ret {α : Type} (o : Outcome α) (a : α) (h : o.value = some a) :
    o = .ret o.state a := by
  cases o with
  | ret s b => simp only [Outcome.value, Option.some.injEq] at h; rw [h]; rfl
  | halt s => simp [Outcome.value] at h

/-- C6 (amended): in every state reached by a run from the start of a process whose
cursor arithmetic did not wrap and that has not ended, for every size whose
allocation does not wrap either, and every oracle answer that is out of range or
names a word-aligned address, `p = malloc(size)` returns; every byte of
`[p, p + size)` is then declared accessible and lies in no poisoned word; and
`malloc`, the stores to every byte of `[p, p + size)` and `free(p)` together flag
neither an invalid trace nor a bug, no `__cc_write_and_poison` hitting a poisoned
word. -/
theorem alloc_fill_free_flags_nothing (mem : Nat → Nat) (cs : List Call) (size off : Nat)
    (vals : Nat → Nat)
    (hw : (run_calls (start_state mem) cs).wrapped = false)
    (he : (run_calls (start_state mem) cs).ended = false)
    (hfit : fits (run_calls (start_state mem) cs).state 16 size = true)
    (horacle : 64 ≤ off ∨
      (next_base (run_calls (start_state mem) cs).state 16 + size + off) % 8 = 0) :
    (∃ p s1, malloc (run_calls (start_state mem) cs).state size off = .ret s1 p ∧
      ∀ i, i < size → s1.valid (p + i) = true ∧ s1.poisoned (p + i) = false) ∧
    (alloc_fill_free (run_calls (start_state mem) cs).state size off vals).returned = true ∧
    (alloc_fill_free (run_calls (start_state mem) cs).state size off vals).state.invalid
      = false ∧
    (alloc_fill_free (run_calls (start_state mem) cs).state size off vals).state.bug
      = (run_calls (start_state mem) cs).state.bug ∧
    ∃ evs, (alloc_fill_free (run_calls (start_state mem) cs).state size off vals).state.log
        = evs ++ (run_calls (start_state mem) cs).state.log ∧
      Event.flag_bug ∉ evs ∧ Event.flag_invalid ∉ evs := by
  have hI := run_calls_inv mem cs hw
  generalize (run_calls (start_state mem) cs) = r at *
  have hb := fits_bounds r.state 16 size hfit
  have hP := pos_le_init_pos r.state
  have hok := poison_ok_of_inv r.state 16 size off hfit hI.poison_below horacle
  have hval := malloc_value r.state size off
  rw [hok, if_pos rfl] at hval
  have hret := outcome_eq_ret _ _ hval
  have hst := malloc_state r.state size off
  have e : (next_base r.state 16 + size) % WORD = next_base r.state 16 + size :=
    Nat.mod_eq_of_lt (by simp only [WORD, MALLOC_PADDING] at hb ⊢; omega)
  -- every byte of the payload is accessible and unpoisoned
  have hacc : ∀ i, i < size →
      (malloc r.state size off).state.valid (next_base r.state 16 + i) = true ∧
      (malloc r.state size off).state.poisoned (next_base r.state 16 + i) = false := by
    intro i hi
    constructor
    · rw [hst, posix_memalign_valid, e]
      simp
      left
      omega
    · cases hq : (malloc r.state size off).state.poisoned (next_base r.state 16 + i) with
      | false => rfl
      | true =>
        rw [hst] at hq
        rcases posix_memalign_poisoned r.state 16 size off _ hfit hq with h | h
        · have := hI.poison_below _ h
          simp only [WSIZE] at hb
          omega
        · omega
  have hacc' : ∀ i, i < size →
      (malloc r.state size off).state.valid ((next_base r.state 16 + i) % WORD) = true ∧
      (malloc r.state size off).state.poisoned ((next_base r.state 16 + i) % WORD) = false := by
    intro i hi
    have e3 : (next_base r.state 16 + i) % WORD = next_base r.state 16 + i :=
      Nat.mod_eq_of_lt (by simp only [WORD, MALLOC_PADDING] at hb ⊢; omega)
    rw [e3]
    exact hacc i hi
  obtain ⟨f1, f2, f3, f4, f5, f6⟩ :=
    fill_of_accessible (malloc r.state size off).state (next_base r.state 16) vals size hacc'
  have hinv : (malloc r.state size off).state.invalid = false := by
    rw [hst, posix_memalign_invalid, hok, hI.running_valid he]
    rfl
  have hbug : (malloc r.state size off).state.bug = r.state.bug := by
    rw [hst, posix_memalign_bug]
  obtain ⟨e1, l1, a1, b1⟩ := posix_memalign_log r.state 16 size off hok
  rw [← hst] at l1
  obtain ⟨e2, l2, a2, b2⟩ :=
    free_log (fill (malloc r.state size off).state (next_base r.state 16) vals size)
      (next_base r.state 16)
  have hall : alloc_fill_free r.state size off vals
      = .ret (free (fill (malloc r.state size off).state (next_base r.state 16) vals size)
          (next_base r.state 16)) () := by
    unfold alloc_fill_free
    conv_lhs => rw [hret]
    rfl
  rw [hall]
  refine ⟨⟨_, _, hret, hacc⟩, rfl, ?_, ?_, ?_⟩
  · show (free _ _).invalid = false
    rw [free_invalid, f4, hinv]
  · show (free _ _).bug = _
    rw [free_bug, f3, hbug]
  · refine ⟨e2 ++ e1, ?_, by simp [a1, a2], by simp [b1, b2]⟩
    show (free _ _).log = _
    rw [l2, f6, l1, List.append_assoc]

theorem alloc_fill_free_flags_nothing_witness :
    (run_calls (start_state fun _ => 0) [Call.malloc 1 7]).wrapped = false ∧
    (run_calls (start_state fun _ => 0) [Call.malloc 1 7]).ended = false ∧
    fits (run_calls (start_state fun _ => 0) [Call.malloc 1 7]).state 16 10 = true ∧
    (next_base (run_calls (start_state fun _ => 0) [Call.malloc 1 7]).state 16 + 10 + 6) % 8
      = 0 ∧
    (alloc_fill_free (run_calls (start_state fun _ => 0) [Call.malloc 1 7]).state 10 6
      (fun i => i)).returned = true ∧
    (alloc_fill_free (run_calls (start_state fun _ => 0) [Call.malloc 1 7]).state 10 6
      (fun i => i)).state.invalid = false :=
  ⟨by decide, by decide, by decide, by decide,
    (alloc_fill_free_flags_nothing (fun _ => 0) [Call.malloc 1 7] 10 6 (fun i => i)
      (by decide) (by decide) (by decide) (Or.inr (by decide))).2.1,
    (alloc_fill_free_flags_nothing (fun _ => 0) [Call.malloc 1 7] 10 6 (fun i => i)
      (by decide) (by decide) (by decide) (Or.inr (by decide))).2.2.1⟩

/-- C6 (counterexample): after `malloc(1)` whose poisoned word is `0x100000018`, the
request `malloc(2 ^ 64 - 72)` wraps the cursor so that its padding starts at
`0x100000018`; the oracle's answer 0 is in range and names a word-aligned address,
yet `__cc_write_and_poison` hits the word poisoned before, the trace is flagged
invalid and `malloc` does not return. -/
theorem alloc_fill_free_wrap_counterexample :
    (run_calls (start_state fun _ => 0) [Call.malloc 1 7]).ended = false ∧
    (run_calls (start_state fun _ => 0) [Call.malloc 1 7]).state.poisoned 4294967320 = true ∧
    0 < 18446744073709551544 ∧
    (0 < 64 ∧
      ((next_base (run_calls (start_state fun _ => 0) [Call.malloc 1 7]).state 16
        + 18446744073709551544) % WORD + 0) % WORD = 4294967320 ∧ 4294967320 % 8 = 0) ∧
    (alloc_fill_free (run_calls (start_state fun _ => 0) [Call.malloc 1 7]).state
      18446744073709551544 0 (fun _ => 0)).returned = false ∧
    (alloc_fill_free (run_calls (start_state fun _ => 0) [Call.malloc 1 7]).state
      18446744073709551544 0 (fun _ => 0)).state.invalid = true := by
  decide

theorem write_word_frame (mem : Nat → Nat) (a v x : Nat) (h : in_word a x = false) :
    write_word mem a v x = mem x := by
  unfold write_word
  rw [h]
  rfl

theorem poison_padding_mem_frame (s : Machine) (ps off x : Nat)
    (h : off < MALLOC_PADDING → (ps + off) % WORD % WSIZE = 0 →
      in_word ((ps + off) % WORD) x = false) :
    (poison_padding s ps off).state.mem x = s.mem x := by
  rw [poison_padding_cases]
  split_ifs with h1 h2 h3
  · rfl
  · exact write_word_frame _ _ _ _ (h h1 h2)
  · rfl
  · rfl

/-- Under `fits`, `posix_memalign` changes no byte below the header word of the new
allocation, apart from the zeroing of the heap window when it initialises the
heap. -/
theorem posix_memalign_mem_below (s : Machine) (al size off x : Nat)
    (hfit : fits s al size = true) (hx : x + WSIZE < next_base s al) :
    (posix_memalign s al size off).state.mem x = (init_pos s).mem x := by
  have hb := fits_bounds s al size hfit
  have hW : WORD = 18446744073709551616 := rfl
  have hS : WSIZE = 8 := rfl
  have hM : MALLOC_PADDING = 64 := rfl
  rw [posix_memalign_state, poison_padding_mem_frame, pre_poison_mem, write_word_frame]
  · have e : (next_base s al + WORD - WSIZE) % WORD = next_base s al - WSIZE := by
      simp only [WORD, WSIZE, MALLOC_PADDING] at hb hx ⊢
      omega
    rw [e]
    cases hq : in_word (next_base s al - WSIZE) x with
    | false => rfl
    | true =>
      have hle : next_base s al - WSIZE + WSIZE ≤ WORD := by omega
      rw [in_word_iff _ _ hle] at hq
      omega
  · intro h1 h2
    have e : (next_base s al + size) % WORD = next_base s al + size :=
      Nat.mod_eq_of_lt (by simp only [WORD, MALLOC_PADDING] at hb ⊢; omega)
    have e2 : (next_base s al + size + off) % WORD = next_base s al + size + off :=
      Nat.mod_eq_of_lt (by simp only [WORD, MALLOC_PADDING] at hb h1 ⊢; omega)
    rw [e, e2] at h2 ⊢
    simp only [WSIZE] at h2
    cases hq : in_word (next_base s al + size + off) x with
    | false => rfl
    | true =>
      have hle : next_base s al + size + off + WSIZE ≤ WORD := by omega
      rw [in_word_iff _ _ hle] at hq
      omega

/-- The forward byte loop copies `n` bytes when the ranges do not wrap around the
address space and the destination does not start inside the source after its
start. -/
theorem memcpy_loop_spec (n : Nat) : ∀ (mem : Nat → Nat) (dest src : Nat),
    dest + n ≤ WORD → src + n ≤ WORD → (dest ≤ src ∨ src + n ≤ dest) →
    (∀ i, i < n → memcpy_loop n mem dest src (dest + i) = mem (src + i)) ∧
      ∀ x, (x < dest ∨ dest + n ≤ x) → memcpy_loop n mem dest src x = mem x := by
  induction n with
  | zero =>
    intro mem dest src _ _ _
    exact ⟨fun i hi => absurd hi (Nat.not_lt_zero i), fun x _ => rfl⟩
  | succ n ih =>
    intro mem dest src hd hs ho
    unfold memcpy_loop
    cases n with
    | zero =>
      refine ⟨?_, ?_⟩
      · intro i hi
        have : i = 0 := by omega
        subst this
        simp [memcpy_loop, store_byte]
      · intro x hx
        have : x ≠ dest := by omega
        simp [memcpy_loop, store_byte, this]
    | succ m =>
      have e1 : (dest + 1) % WORD = dest + 1 := Nat.mod_eq_of_lt (by omega)
      have e2 : (src + 1) % WORD = src + 1 := Nat.mod_eq_of_lt (by omega)
      rw [e1, e2]
      obtain ⟨h1, h2⟩ := ih (store_byte mem dest (mem src)) (dest + 1) (src + 1)
        (by omega) (by omega) (by omega)
      refine ⟨?_, ?_⟩
      · intro i hi
        cases i with
        | zero =>
          rw [h2 (dest + 0) (by omega)]
          simp [store_byte]
        | succ j =>
          have := h1 j (by omega)
          rw [show dest + (j + 1) = dest + 1 + j by omega, this]
          have hne : src + 1 + j ≠ dest := by omega
          simp only [store_byte, if_neg hne]
          congr 1
          omega
      · intro x hx
        rw [h2 x (by omega)]
        have hne : x ≠ dest := by omega
        simp only [store_byte, if_neg hne]

theorem init_pos_of_pos_ne (s : Machine) (h : s.pos ≠ 0) : init_pos s = s := by
  unfold init_pos
  rw [if_neg h]

theorem fits_of_pos_eq (s t : Machine) (h : s.pos = t.pos) (al size : Nat) :
    fits s al size = fits t al size := by
  unfold fits
  rw [init_pos_pos, init_pos_pos, h]

/-- C3 (amended): let `p` be an allocation of size `old` returned earlier in a run
from the start of a process whose cursor arithmetic did not wrap, its header word
still holding `old`.  For every new size `n` (smaller, equal
or larger) whose allocation does not wrap, and every oracle answer that is out of
range or names a word-aligned address, `realloc(p, n)` returns a pointer `q` such that
for every `i < min(old, n)` the byte at `q + i` after the call is the byte at `p + i`
before the call. -/
theorem realloc_preserves_prefix (mem : Nat → Nat) (cs : List Call) (p old n off : Nat)
    (hw : (run_calls (start_state mem) cs).wrapped = false)
    (hp : (p, old) ∈ (run_calls (start_state mem) cs).allocs)
    (hhdr : read_word (run_calls (start_state mem) cs).state.mem (p - 8) = old)
    (hfit : fits (run_calls (start_state mem) cs).state 16 n = true)
    (horacle : 64 ≤ off ∨
      (next_base (run_calls (start_state mem) cs).state 16 + n + off) % 8 = 0) :
    ∃ q s', realloc (run_calls (start_state mem) cs).state p n off = .ret s' q ∧
      ∀ i, i < min old n → s'.mem (q + i) = (run_calls (start_state mem) cs).state.mem (p + i) := by
  have hI := run_calls_inv mem cs hw
  generalize (run_calls (start_state mem) cs) = r at *
  have hW : WORD = 18446744073709551616 := rfl
  have hS : WSIZE = 8 := rfl
  have hM : MALLOC_PADDING = 64 := rfl
  have hPI : POS_INIT = 4294967296 := rfl
  have ha := hI.allocs_in (p, old) hp
  simp only at ha
  have hp0 : p ≠ 0 := by omega
  have hpos0 : r.state.pos ≠ 0 := by omega
  have hplt := hI.pos_lt
  -- the state in which `malloc` is called differs from `r.state` in the log only
  have hr1 : (__cc_read_unchecked r.state ((p + WORD - WSIZE) % WORD)).1.pos = r.state.pos := rfl
  have hfit1 : fits (__cc_read_unchecked r.state ((p + WORD - WSIZE) % WORD)).1 16 n = true := by
    rw [fits_of_pos_eq _ _ hr1]; exact hfit
  have hnb : next_base (__cc_read_unchecked r.state ((p + WORD - WSIZE) % WORD)).1 16
      = next_base r.state 16 := next_base_of_pos_eq _ _ hr1 16
  have hb := fits_bounds r.state 16 n hfit
  have hP : (init_pos r.state).pos = r.state.pos := by rw [init_pos_of_pos_ne _ hpos0]
  have hok := poison_ok_of_inv (__cc_read_unchecked r.state ((p + WORD - WSIZE) % WORD)).1
    16 n off hfit1 hI.poison_below (by rw [hnb]; exact horacle)
  have hval := malloc_value (__cc_read_unchecked r.state ((p + WORD - WSIZE) % WORD)).1 n off
  rw [hok, if_pos rfl, hnb] at hval
  have hret := outcome_eq_ret _ _ hval
  have hold : (__cc_read_unchecked r.state ((p + WORD - WSIZE) % WORD)).2 = old := by
    have e : (p + WORD - WSIZE) % WORD = p - 8 := by
      simp only [WORD, WSIZE]
      omega
    rw [e]
    exact hhdr
  have hmin : (if old < n then old else n) = min old n := by
    split <;> omega
  have hre : realloc r.state p n off
      = .ret (free (memcpy
          (malloc (__cc_read_unchecked r.state ((p + WORD - WSIZE) % WORD)).1 n off).state
          (next_base r.state 16) p (min old n)) p) (next_base r.state 16) := by
    rw [realloc_eq _ p n off hp0, hold, hmin]
    conv_lhs => rw [hret]
    rfl
  refine ⟨_, _, hre, ?_⟩
  intro i hi
  rw [free_mem]
  show memcpy_loop (min old n) _ (next_base r.state 16) p (next_base r.state 16 + i) = _
  have hspec := memcpy_loop_spec (min old n)
    (malloc (__cc_read_unchecked r.state ((p + WORD - WSIZE) % WORD)).1 n off).state.mem
    (next_base r.state 16) p (by omega) (by omega) (Or.inr (by omega))
  rw [hspec.1 i hi, malloc_state,
    posix_memalign_mem_below _ 16 n off (p + i) hfit1 (by rw [hnb]; omega),
    init_pos_of_pos_ne _ (by rw [hr1]; exact hpos0)]
  rfl

theorem realloc_preserves_prefix_witness :
    (run_calls (start_state fun _ => 0)
      [Call.malloc 4 4, Call.store 4294967312 65, Call.store 4294967313 66]).wrapped = false ∧
    (run_calls (start_state fun _ => 0)
      [Call.malloc 4 4, Call.store 4294967312 65, Call.store 4294967313 66]).ended = false ∧
    (4294967312, 4) ∈ (run_calls (start_state fun _ => 0)
      [Call.malloc 4 4, Call.store 4294967312 65, Call.store 4294967313 66]).allocs ∧
    read_word (run_calls (start_state fun _ => 0)
      [Call.malloc 4 4, Call.store 4294967312 65, Call.store 4294967313 66]).state.mem
      (4294967312 - 8) = 4 ∧
    (run_calls (start_state fun _ => 0)
      [Call.malloc 4 4, Call.store 4294967312 65, Call.store 4294967313 66]).state.mem
      4294967313 = 66 ∧
    ∃ q s', realloc (run_calls (start_state fun _ => 0)
        [Call.malloc 4 4, Call.store 4294967312 65, Call.store 4294967313 66]).state
        4294967312 2 6 = .ret s' q ∧
      ∀ i, i < min 4 2 → s'.mem (q + i) = (run_calls (start_state fun _ => 0)
        [Call.malloc 4 4, Call.store 4294967312 65, Call.store 4294967313 66]).state.mem
        (4294967312 + i) :=
  ⟨by decide, by decide, by decide, by decide, by decide,
    realloc_preserves_prefix _ _ 4294967312 4 2 6 (by decide) (by decide)
      (by decide) (by decide) (Or.inr (by decide))⟩

/-- C3 (counterexample): `p = malloc(4)` is live with its header intact and
`realloc(p, 8)` does not wrap, but the oracle answers with offset 1, an in-range
offset whose address is not word-aligned: the trace is flagged invalid inside
`malloc` and `realloc` returns no pointer. -/
theorem realloc_hostile_oracle_counterexample :
    (run_calls (start_state fun _ => 0) [Call.malloc 4 4]).wrapped = false ∧
    (run_calls (start_state fun _ => 0) [Call.malloc 4 4]).ended = false ∧
    (4294967312, 4) ∈ (run_calls (start_state fun _ => 0) [Call.malloc 4 4]).allocs ∧
    read_word (run_calls (start_state fun _ => 0) [Call.malloc 4 4]).state.mem
      (4294967312 - 8) = 4 ∧
    fits (run_calls (start_state fun _ => 0) [Call.malloc 4 4]).state 16 8 = true ∧
    (realloc (run_calls (start_state fun _ => 0) [Call.malloc 4 4]).state
      4294967312 8 1).value = none ∧
    (realloc (run_calls (start_state fun _ => 0) [Call.malloc 4 4]).state
      4294967312 8 1).state.invalid = true := by
  decide

theorem word_poisoned_mono (s t : Machine)
    (h : ∀ x, t.poisoned x = true → s.poisoned x = true) (p : Nat)
    (hp : word_poisoned t p = true) : word_poisoned s p = true := by
  unfold word_poisoned at hp ⊢
  simp only [Bool.or_eq_true] at hp ⊢
  rcases hp with ((((((hp | hp) | hp) | hp) | hp) | hp) | hp) | hp
  · exact Or.inl (Or.inl (Or.inl (Or.inl (Or.inl (Or.inl (Or.inl (h _ hp)))))))
  · exact Or.inl (Or.inl (Or.inl (Or.inl (Or.inl (Or.inl (Or.inr (h _ hp)))))))
  · exact Or.inl (Or.inl (Or.inl (Or.inl (Or.inl (Or.inr (h _ hp))))))
  · exact Or.inl (Or.inl (Or.inl (Or.inl (Or.inr (h _ hp)))))
  · exact Or.inl (Or.inl (Or.inl (Or.inr (h _ hp))))
  · exact Or.inl (Or.inl (Or.inr (h _ hp)))
  · exact Or.inl (Or.inr (h _ hp))
  · exact Or.inr (h _ hp)

/-- The relation between a process and a process restored from its snapshot: as
long as the first is running, the second is running too, has returned the same
allocations, has the same cursor, and has poisoned no byte that the first has not. -/
theorem restored_step (ro rt : Run) (c : Call)
    (h : ro.ended = false → rt.ended = false ∧ rt.allocs = ro.allocs ∧
      rt.state.pos = ro.state.pos ∧
      ∀ x, rt.state.poisoned x = true → ro.state.poisoned x = true) :
    (ro.step c).ended = false → (rt.step c).ended = false ∧
      (rt.step c).allocs = (ro.step c).allocs ∧
      (rt.step c).state.pos = (ro.step c).state.pos ∧
      ∀ x, (rt.step c).state.poisoned x = true → (ro.step c).state.poisoned x = true := by
  intro he
  cases hro : ro.ended with
  | true => rw [step_ended ro c hro, hro] at he; exact absurd he (by decide)
  | false =>
    obtain ⟨hte, hta, htp, htq⟩ := h hro
    obtain ⟨o1, o2, _, o4⟩ := step_of_outcome ro c hro
    obtain ⟨t1, t2, _, t4⟩ := step_of_outcome rt c hte
    cases hp : c.alloc_params with
    | none =>
      obtain ⟨a1, a2, _, a4, a5, _⟩ := run_params_none ro.state c hp
      obtain ⟨b1, b2, _, b4, b5, _⟩ := run_params_none rt.state c hp
      refine ⟨by rw [t2, b1]; rfl, by rw [t4, o4, a2, b2, hta], by rw [t1, o1, a4, b4, htp], ?_⟩
      intro x hx
      rw [t1, b5] at hx
      rw [o1, a5]
      exact htq x hx
    | some q =>
      obtain ⟨al, size, off⟩ := q
      obtain ⟨a1, a2, _, a4, a5, _⟩ := run_params_some ro.state c al size off hp
      obtain ⟨b1, b2, _, b4, b5, _⟩ := run_params_some rt.state c al size off hp
      have hnb : next_base rt.state al = next_base ro.state al :=
        next_base_of_pos_eq _ _ htp al
      rw [hnb] at b1 b2
      rw [o2, a1] at he
      simp only [Bool.not_eq_false'] at he
      -- the original's oracle answer is acceptable in the restored process as well
      have hok : poison_ok rt.state ((next_base ro.state al + size) % WORD) off = true := by
        unfold poison_ok at he ⊢
        simp only [Bool.or_eq_true, Bool.and_eq_true, decide_eq_true_eq,
          Bool.not_eq_true'] at he ⊢
        rcases he with he | ⟨he1, he2⟩
        · exact Or.inl he
        · refine Or.inr ⟨he1, ?_⟩
          cases hq : word_poisoned rt.state
              (((next_base ro.state al + size) % WORD + off) % WORD) with
          | false => rfl
          | true => rw [word_poisoned_mono ro.state rt.state htq _ hq] at he2; exact he2
      refine ⟨by rw [t2, b1, hok]; rfl, by rw [t4, o4, a2, b2, he, hok, hta], ?_, ?_⟩
      · rw [t1, o1, a4, b4, posix_memalign_pos, posix_memalign_pos, hnb]
      · intro x hx
        rw [t1, b5, posix_memalign_poisoned_eq, hnb] at hx
        rw [o1, a5, posix_memalign_poisoned_eq]
        unfold poison_ok at he hok
        simp only [Bool.or_eq_true, Bool.and_eq_true, decide_eq_true_eq,
          Bool.not_eq_true'] at he hok
        by_cases hlt : off < MALLOC_PADDING
        · have hge : ¬ MALLOC_PADDING ≤ off := by omega
          rcases he with he | ⟨he1, he2⟩
          · exact absurd he hge
          · rcases hok with hok | ⟨hk1, hk2⟩
            · exact absurd hok hge
            · rw [if_pos ⟨hlt, he1, hk2⟩] at hx
              rw [if_pos ⟨hlt, he1, he2⟩]
              simp only [Bool.or_eq_true] at hx ⊢
              rcases hx with hx | hx
              · exact Or.inl hx
              · exact Or.inr (htq x hx)
        · rw [if_neg (fun hc => hlt hc.1)] at hx
          rw [if_neg (fun hc => hlt hc.1)]
          exact htq x hx

theorem restored_foldl (cs : List Call) : ∀ (ro rt : Run),
    (ro.ended = false → rt.ended = false ∧ rt.allocs = ro.allocs ∧
      rt.state.pos = ro.state.pos ∧
      ∀ x, rt.state.poisoned x = true → ro.state.poisoned x = true) →
    (cs.foldl Run.step ro).ended = false →
      (cs.foldl Run.step rt).ended = false ∧
      (cs.foldl Run.step rt).allocs = (cs.foldl Run.step ro).allocs ∧
      (cs.foldl Run.step rt).state.pos = (cs.foldl Run.step ro).state.pos ∧
      ∀ x, (cs.foldl Run.step rt).state.poisoned x = true →
        (cs.foldl Run.step ro).state.poisoned x = true := by
  induction cs with
  | nil => intro ro rt h; exact h
  | cons c cs ih =>
    intro ro rt h
    exact ih (ro.step c) (rt.step c) (restored_step ro rt c h)

/-- A process that starts with the cursor of another one, and with no poisoned byte
that the other has not, runs every sequence of calls that the other runs without
ending, and returns the same allocations. -/
theorem restored_runs (s t : Machine) (hpos : t.pos = s.pos)
    (hpo : ∀ x, t.poisoned x = true → s.poisoned x = true) (cs : List Call)
    (he : (run_calls s cs).ended = false) :
    (run_calls t cs).ended = false ∧ (run_calls t cs).allocs = (run_calls s cs).allocs := by
  have h := restored_foldl cs
    { state := s, ended := false, wrapped := false, allocs := [] }
    { state := t, ended := false, wrapped := false, allocs := [] }
    (fun _ => ⟨rfl, rfl, hpos, hpo⟩) he
  exact ⟨h.1, h.2.1⟩

/-- The restore of at most `HEAP_WINDOW` bytes in a fresh process, step by step. -/
theorem init_from_snapshot_fresh (tmem : Nat → Nat) (addr len : Nat)
    (hlen : len ≤ HEAP_WINDOW) :
    ∃ t, __cc_malloc_init_from_snapshot (start_state tmem) addr len = .ret t () ∧
      t.mem = memcpy_loop len
        (fun x => if POS_INIT ≤ x ∧ x < POS_INIT + HEAP_WINDOW then 0 else tmem x)
        POS_INIT addr ∧
      t.pos = (POS_INIT + len) % WORD ∧ t.poisoned = (fun _ => false) ∧
      t.invalid = false ∧ t.bug = false ∧ t.log = [Event.mmap POS_INIT HEAP_WINDOW] := by
  refine ⟨__cc_malloc_set_heap_end
    (memcpy (mmap_fixed (start_state tmem) POS_INIT) POS_INIT addr len)
    ((POS_INIT + len) % WORD), ?_, rfl, rfl, rfl, rfl, rfl, rfl⟩
  show (if len ≤ HEAP_WINDOW then _ else _) = _
  rw [if_pos hlen]
  rfl

/-- C10 (amended): for every state with cursor `c ≤ 0x104000000` (the heap lies
within the 64 MiB window) reached by a run from the start of a process whose cursor
arithmetic did not wrap and in which some allocation was returned,
`__cc_heap_snapshot` returns base `0x100000000` and length `c - 0x100000000`; and
`__cc_malloc_init_from_snapshot`, called in a fresh process with those bytes in a
buffer that lies outside the heap window, returns with no flag raised, leaves the
heap bytes `[0x100000000, c)` equal to the snapshotted ones and the cursor equal to
`c`; every sequence of calls that the original process can run from there without
ending runs in the restored process without ending and returns the same
allocations. -/
theorem snapshot_restore_round_trip (mem : Nat → Nat) (cs : List Call) (tmem : Nat → Nat)
    (addr : Nat)
    (hw : (run_calls (start_state mem) cs).wrapped = false)
    (hne : (run_calls (start_state mem) cs).allocs ≠ [])
    (hwin : (run_calls (start_state mem) cs).state.pos ≤ POS_INIT + HEAP_WINDOW)
    (hbuf : addr + (__cc_heap_snapshot (run_calls (start_state mem) cs).state).2 ≤ POS_INIT ∨
      (POS_INIT + HEAP_WINDOW ≤ addr ∧
        addr + (__cc_heap_snapshot (run_calls (start_state mem) cs).state).2 ≤ WORD))
    (hbytes : ∀ i, i < (__cc_heap_snapshot (run_calls (start_state mem) cs).state).2 →
      tmem (addr + i) = (run_calls (start_state mem) cs).state.mem (POS_INIT + i)) :
    4294967296 ≤ (run_calls (start_state mem) cs).state.pos ∧
    __cc_heap_snapshot (run_calls (start_state mem) cs).state
      = (4294967296, (run_calls (start_state mem) cs).state.pos - 4294967296) ∧
    ∃ t, __cc_malloc_init_from_snapshot (start_state tmem) addr
          (__cc_heap_snapshot (run_calls (start_state mem) cs).state).2 = .ret t () ∧
      t.invalid = false ∧ t.bug = false ∧
      Event.flag_invalid ∉ t.log ∧ Event.flag_bug ∉ t.log ∧
      (∀ x, 4294967296 ≤ x → x < (run_calls (start_state mem) cs).state.pos →
        t.mem x = (run_calls (start_state mem) cs).state.mem x) ∧
      t.pos = (run_calls (start_state mem) cs).state.pos ∧
      ∀ cs', (run_calls (run_calls (start_state mem) cs).state cs').ended = false →
        (run_calls t cs').ended = false ∧
        (run_calls t cs').allocs = (run_calls (run_calls (start_state mem) cs).state cs').allocs := by
  have hI := run_calls_inv mem cs hw
  generalize (run_calls (start_state mem) cs) = r at *
  have hW : WORD = 18446744073709551616 := rfl
  have hPI : POS_INIT = 4294967296 := rfl
  have hHW : HEAP_WINDOW = 67108864 := rfl
  have hS : WSIZE = 8 := rfl
  have hM : MALLOC_PADDING = 64 := rfl
  obtain ⟨a, ha⟩ := List.exists_mem_of_ne_nil _ hne
  have hin := hI.allocs_in a ha
  have hlt := hI.pos_lt
  have hpos : POS_INIT ≤ r.state.pos := by omega
  have hlen : (__cc_heap_snapshot r.state).2 = r.state.pos - POS_INIT := by
    show (r.state.pos + WORD - POS_INIT) % WORD = r.state.pos - POS_INIT
    simp only [WORD, POS_INIT] at hlt hpos ⊢
    omega
  rw [hlen] at hbuf hbytes ⊢
  obtain ⟨t, ht, htm, htp, htq, hti, htb, htl⟩ :=
    init_from_snapshot_fresh tmem addr (r.state.pos - POS_INIT) (by omega)
  have hcur : t.pos = r.state.pos := by
    rw [htp]
    simp only [WORD, POS_INIT] at hlt hpos ⊢
    omega
  refine ⟨hpos, by rw [← hlen]; rfl, t, ht, hti, htb, by rw [htl]; simp, by rw [htl]; simp,
    ?_, hcur, ?_⟩
  · intro x hx1 hx2
    have hspec := memcpy_loop_spec (r.state.pos - POS_INIT)
      (fun x => if POS_INIT ≤ x ∧ x < POS_INIT + HEAP_WINDOW then 0 else tmem x)
      POS_INIT addr (by omega) (by omega) (by omega)
    have h1 := hspec.1 (x - POS_INIT) (by omega)
    have e : POS_INIT + (x - POS_INIT) = x := by omega
    rw [e] at h1
    rw [htm, h1]
    have hout : ¬ (POS_INIT ≤ addr + (x - POS_INIT) ∧
        addr + (x - POS_INIT) < POS_INIT + HEAP_WINDOW) := by omega
    simp only [if_neg hout]
    rw [hbytes (x - POS_INIT) (by omega), e]
  · intro cs' he
    exact restored_runs r.state t hcur (fun x hx => by rw [htq] at hx; simp at hx) cs' he

/-- C10 (counterexample): `malloc(2 ^ 64 - 100)` as the first allocation wraps the
cursor to `0xffffffec`, below the heap origin; `__cc_heap_snapshot` then reports the
length `2 ^ 64 - 20`, which is not `c - 0x100000000`.  And when the buffer that holds
the snapshot bytes lies inside the heap window (here at `0x100001000`), the mapping
of the window clears it before the copy: the payload byte 65 at `0x100000010` is 0
after the restore.  And after `malloc(64 MiB)`, which does not wrap, the cursor is
`0x104000050` and the snapshot is 80 bytes longer than the window that the restore
maps: the copy stores past the mapping and the restore does not return. -/
theorem snapshot_after_wrap_counterexample :
    (run_calls (start_state fun _ => 0) [Call.malloc 18446744073709551516 64]).ended = false ∧
    (run_calls (start_state fun _ => 0) [Call.malloc 18446744073709551516 64]).allocs
      = [(4294967312, 18446744073709551516)] ∧
    (run_calls (start_state fun _ => 0) [Call.malloc 18446744073709551516 64]).state.pos
      = 4294967276 ∧
    __cc_heap_snapshot
        (run_calls (start_state fun _ => 0) [Call.malloc 18446744073709551516 64]).state
      = (4294967296, 18446744073709551596) ∧
    ((18446744073709551596 : Nat) : Int) ≠ (4294967276 : Int) - (4294967296 : Int) ∧
    __cc_heap_snapshot
        (run_calls (start_state fun _ => 0) [Call.malloc 4 4, Call.store 4294967312 65]).state
      = (4294967296, 84) ∧
    (run_calls (start_state fun _ => 0)
      [Call.malloc 4 4, Call.store 4294967312 65]).state.mem 4294967312 = 65 ∧
    (fun x => if x = 4294971400 then 4 else if x = 4294971408 then 65 else 0) (4294971392 + 16)
      = 65 ∧
    (__cc_malloc_init_from_snapshot
      (start_state fun x => if x = 4294971400 then 4 else if x = 4294971408 then 65 else 0)
      4294971392 84).state.mem 4294967312 = 0 ∧
    (run_calls (start_state fun _ => 0) [Call.malloc 67108864 64]).wrapped = false ∧
    (run_calls (start_state fun _ => 0) [Call.malloc 67108864 64]).allocs
      = [(4294967312, 67108864)] ∧
    (run_calls (start_state fun _ => 0) [Call.malloc 67108864 64]).state.pos = 4362076240 ∧
    __cc_heap_snapshot (run_calls (start_state fun _ => 0) [Call.malloc 67108864 64]).state
      = (4294967296, 67108944) ∧
    HEAP_WINDOW < 67108944 ∧
    (__cc_malloc_init_from_snapshot (start_state fun _ => 0) 1000 67108944).returned
      = false := by
  refine ⟨by decide, by decide, by decide, by decide, by omega, by decide, by decide,
    by decide, ?_, by decide, by decide, by decide, by decide, by decide, by decide⟩
  obtain ⟨t, ht, htm, -⟩ := init_from_snapshot_fresh
    (fun x => if x = 4294971400 then 4 else if x = 4294971408 then 65 else 0) 4294971392 84
    (by decide)
  have hcopy := (memcpy_loop_spec 84
    (fun x => if POS_INIT ≤ x ∧ x < POS_INIT + HEAP_WINDOW then 0
      else (fun x => if x = 4294971400 then 4 else if x = 4294971408 then 65 else 0) x)
    POS_INIT 4294971392 (by decide) (by decide) (Or.inl (by decide))).1 16 (by decide)
  rw [ht]
  show t.mem (POS_INIT + 16) = 0
  rw [htm, hcopy]
  decide

theorem snapshot_restore_round_trip_witness :
    (run_calls (start_state fun _ => 0) [Call.malloc 4 4, Call.store 4294967312 65]).wrapped
      = false ∧
    (run_calls (start_state fun _ => 0) [Call.malloc 4 4, Call.store 4294967312 65]).allocs
      ≠ [] ∧
    (run_calls (start_state fun _ => 0) [Call.malloc 4 4, Call.store 4294967312 65]).state.pos
      ≤ POS_INIT + HEAP_WINDOW ∧
    1000 + (__cc_heap_snapshot (run_calls (start_state fun _ => 0)
      [Call.malloc 4 4, Call.store 4294967312 65]).state).2 ≤ POS_INIT ∧
    (∀ i, i < (__cc_heap_snapshot (run_calls (start_state fun _ => 0)
        [Call.malloc 4 4, Call.store 4294967312 65]).state).2 →
      (fun x => if x = 1008 then 4 else if x = 1016 then 65 else 0) (1000 + i)
        = (run_calls (start_state fun _ => 0)
            [Call.malloc 4 4, Call.store 4294967312 65]).state.mem (POS_INIT + i)) ∧
    4294967296 ≤ (run_calls (start_state fun _ => 0)
      [Call.malloc 4 4, Call.store 4294967312 65]).state.pos ∧
    __cc_heap_snapshot (run_calls (start_state fun _ => 0)
        [Call.malloc 4 4, Call.store 4294967312 65]).state
      = (4294967296, (run_calls (start_state fun _ => 0)
        [Call.malloc 4 4, Call.store 4294967312 65]).state.pos - 4294967296) :=
  ⟨by decide, by decide, by decide, by decide, by decide,
    (snapshot_restore_round_trip (fun _ => 0) [Call.malloc 4 4, Call.store 4294967312 65]
      (fun x => if x = 1008 then 4 else if x = 1016 then 65 else 0) 1000
      (by decide) (by decide) (by decide) (Or.inl (by decide)) (by decide)).1,
    (snapshot_restore_round_trip (fun _ => 0) [Call.malloc 4 4, Call.store 4294967312 65]
      (fun x => if x = 1008 then 4 else if x = 1016 then 65 else 0) 1000
      (by decide) (by decide) (by decide) (Or.inl (by decide)) (by decide)).2.1⟩

end Simple

namespace Full

theorem WORD_pow : WORD = 2 ^ 64 := by norm_num

/-- The top six bits of a 64-bit address. -/
theorem top_bits_lt (a : Nat) (ha : a < WORD) : a / 2 ^ 58 < 64 := by
  have h : (2:Nat) ^ 58 = 288230376151711744 := by norm_num
  rw [h]
  simp only [WORD] at ha
  omega

theorem two_pow_top_lt (k : Nat) (hk : k < 64) : 2 ^ k < WORD := by
  rw [WORD_pow]
  exact Nat.pow_lt_pow_right (by norm_num) hk

/-- The region size that `malloc_internal` decodes is `2 ^ (a / 2 ^ 58)`. -/
theorem decode_malloc (a : Nat) (ha : a < WORD) :
    (1 <<< ((a >>> 58) &&& 63)) % WORD = 2 ^ (a / 2 ^ 58) := by
  have hk := top_bits_lt a ha
  have e : (a >>> 58) &&& 63 = a / 2 ^ 58 := by
    rw [Nat.shiftRight_eq_div_pow]
    have h63 : (63 : Nat) = 2 ^ 6 - 1 := by norm_num
    rw [h63, Nat.and_pow_two_sub_one_eq_mod]
    exact Nat.mod_eq_of_lt (by norm_num; exact hk)
  rw [e, Nat.one_shiftLeft]
  exact Nat.mod_eq_of_lt (two_pow_top_lt _ hk)

/-- The region size that `free_internal` and `realloc` decode is `2 ^ (a / 2 ^ 58)`. -/
theorem decode_free (a : Nat) (ha : a < WORD) :
    (1 <<< (a >>> 58)) % WORD = 2 ^ (a / 2 ^ 58) := by
  have hk := top_bits_lt a ha
  rw [Nat.shiftRight_eq_div_pow, Nat.one_shiftLeft]
  exact Nat.mod_eq_of_lt (two_pow_top_lt _ hk)

end Full

/-- The record of host calls of `t` continues the record of `s`. -/
theorem log_extends_refl (s : Machine) : ∃ evs, s.log = evs ++ s.log := ⟨[], rfl⟩

theorem log_extends_trans {s t u : Machine} (h1 : ∃ evs, t.log = evs ++ s.log)
    (h2 : ∃ evs, u.log = evs ++ t.log) : ∃ evs, u.log = evs ++ s.log := by
  obtain ⟨e1, h1⟩ := h1
  obtain ⟨e2, h2⟩ := h2
  exact ⟨e2 ++ e1, by rw [h2, h1, List.append_assoc]⟩

theorem log_extends_mem {s t : Machine} (h : ∃ evs, t.log = evs ++ s.log) (e : Event)
    (he : e ∈ s.log) : e ∈ t.log := by
  obtain ⟨evs, h⟩ := h
  rw [h]
  exact List.mem_append_right _ he

theorem bind_log_extends {α β : Type} (s : Machine) (o : Outcome α)
    (f : Machine → α → Outcome β) (h1 : ∃ evs, o.state.log = evs ++ s.log)
    (h2 : ∀ s1 a, ∃ evs, (f s1 a).state.log = evs ++ s1.log) :
    ∃ evs, (o.bind f).state.log = evs ++ s.log := by
  cases o with
  | ret s1 a => exact log_extends_trans h1 (h2 s1 a)
  | halt s1 => exact h1

theorem valid_if_log_extends (s : Machine) (c : Bool) :
    ∃ evs, (__cc_valid_if s c).state.log = evs ++ s.log := by
  cases c
  · exact ⟨[Event.flag_invalid], rfl⟩
  · exact ⟨[], rfl⟩

theorem write_and_poison_log_extends (s : Machine) (p v : Nat) :
    ∃ evs, (__cc_write_and_poison s p v).state.log = evs ++ s.log := by
  unfold __cc_write_and_poison
  split_ifs
  · exact ⟨[Event.flag_invalid, Event.write_and_poison p v], rfl⟩
  · exact ⟨[Event.write_and_poison p v], rfl⟩

theorem bug_if_log_extends (s : Machine) (c : Bool) :
    ∃ evs, (__cc_bug_if s c).log = evs ++ s.log := by
  cases c
  · exact ⟨[], rfl⟩
  · exact ⟨[Event.flag_bug], rfl⟩

theorem store8_log_extends (s : Machine) (p v : Nat) :
    ∃ evs, (store8 s p v).log = evs ++ s.log :=
  bug_if_log_extends s _

namespace Full

theorem poison_range_log_extends (s : Machine) (start len off : Nat) :
    ∃ evs, (poison_range s start len off).state.log = evs ++ s.log := by
  unfold poison_range
  split_ifs
  · exact bind_log_extends s _ _ (valid_if_log_extends s _)
      (fun s1 _ => write_and_poison_log_extends s1 _ _)
  · exact ⟨[], rfl⟩

theorem malloc_internal_log_extends (s : Machine) (size hp off : Nat) :
    ∃ evs, (malloc_internal s size hp off).state.log = evs ++ s.log := by
  unfold malloc_internal
  refine bind_log_extends s _ _ ?_ (fun s1 _ => ?_)
  · exact log_extends_trans (s := s) (t := (__cc_malloc s ((size + 2 * WSIZE) % WORD) hp).1)
      ⟨[Event.cc_malloc ((size + 2 * WSIZE) % WORD)], rfl⟩ (valid_if_log_extends _ _)
  refine bind_log_extends s1 _ _ (valid_if_log_extends _ _) (fun s2 _ => ?_)
  refine bind_log_extends s2 _ _ (write_and_poison_log_extends _ _ _) (fun s3 _ => ?_)
  refine bind_log_extends s3 _ _ ?_ (fun s6 _ => ⟨[], rfl⟩)
  refine log_extends_trans (s := s3) ?_ (poison_range_log_extends _ _ _ _)
  exact ⟨[_, _, _], rfl⟩

theorem free_internal_log_extends (s : Machine) (ptr off : Nat) :
    ∃ evs, (free_internal s ptr off).state.log = evs ++ s.log := by
  unfold free_internal
  split_ifs
  · exact ⟨[], rfl⟩
  · refine log_extends_trans (s := s) ?_ (poison_range_log_extends _ _ _ _)
    refine log_extends_trans
      (bug_if_log_extends s (decide (ptr % ((1 <<< (ptr >>> 58)) % WORD) ≠ 0))) ?_
    refine log_extends_trans (store8_log_extends _ ptr 0) ?_
    exact ⟨[_, _, _], rfl⟩

end Full

namespace Full

theorem bind_returned {α β : Type} (o : Outcome α) (f : Machine → α → Outcome β)
    (h : (o.bind f).returned = true) : ∃ s1 a, o = .ret s1 a ∧ (f s1 a).returned = true := by
  cases o with
  | ret s1 a => exact ⟨s1, a, rfl, h⟩
  | halt s1 => simp [Outcome.bind, Outcome.returned] at h

theorem valid_if_ret (s s1 : Machine) (c : Bool) (a : Unit)
    (h : __cc_valid_if s c = .ret s1 a) : c = true ∧ s1 = s := by
  cases c
  · simp [__cc_valid_if, __cc_flag_invalid] at h
  · simp only [__cc_valid_if, if_true, Outcome.ret.injEq] at h
    exact ⟨rfl, h.1.symm⟩

theorem write_and_poison_ret (s s1 : Machine) (p v : Nat) (a : Unit)
    (h : __cc_write_and_poison s p v = .ret s1 a) :
    word_poisoned s p = false ∧
      s1 = { s with log := Event.write_and_poison p v :: s.log,
                    mem := write_word s.mem p v,
                    poisoned := fun x => in_word p x || s.poisoned x } := by
  unfold __cc_write_and_poison at h
  cases hw : word_poisoned s p with
  | true => simp [hw, __cc_flag_invalid] at h
  | false =>
    simp only [hw, Bool.false_eq_true, if_false, Outcome.ret.injEq] at h
    exact ⟨rfl, h.1.symm⟩

theorem malloc_internal_eq (s : Machine) (size hp off : Nat) :
    malloc_internal s size hp off =
      (__cc_valid_if (__cc_malloc s ((size + 2 * WSIZE) % WORD) hp).1
        (decide ((1 <<< ((hp >>> 58) &&& 63)) % WORD ≥ (size + 2 * WSIZE) % WORD))).bind
      fun s1 _ =>
      (__cc_valid_if s1 (decide (hp % ((1 <<< ((hp >>> 58) &&& 63)) % WORD) = 0))).bind
      fun s2 _ =>
      (__cc_write_and_poison s2
        ((hp + (1 <<< ((hp >>> 58) &&& 63)) % WORD + WORD - 2 * WSIZE) % WORD) 1).bind
      fun s3 _ =>
      (poison_range
        (__cc_advise_poison_offset
          (__cc_access_valid
            (__cc_write_unchecked s3
              ((hp + (1 <<< ((hp >>> 58) &&& 63)) % WORD + WORD - WSIZE) % WORD) size)
            hp ((hp + size) % WORD))
          ((hp + size) % WORD)
          (((hp + (1 <<< ((hp >>> 58) &&& 63)) % WORD + WORD - 2 * WSIZE) % WORD + WORD
            - (hp + size) % WORD) % WORD) off).1
        ((hp + size) % WORD)
        (((hp + (1 <<< ((hp >>> 58) &&& 63)) % WORD + WORD - 2 * WSIZE) % WORD + WORD
            - (hp + size) % WORD) % WORD) off).bind fun s6 _ => .ret s6 hp := rfl

/-- When `malloc_internal` returns, both validity checks passed, the allocation
marker was not poisoned before, and the rest of the call is the poisoning of the
oracle's word. -/
theorem malloc_internal_returned (s : Machine) (size hp off : Nat)
    (h : (malloc_internal s size hp off).returned = true) :
    (size + 2 * WSIZE) % WORD ≤ (1 <<< ((hp >>> 58) &&& 63)) % WORD ∧
      hp % ((1 <<< ((hp >>> 58) &&& 63)) % WORD) = 0 ∧
      word_poisoned s ((hp + (1 <<< ((hp >>> 58) &&& 63)) % WORD + WORD - 2 * WSIZE) % WORD)
        = false ∧
      malloc_internal s size hp off =
        (poison_range (after_advise s size hp) ((hp + size) % WORD)
          (((hp + (1 <<< ((hp >>> 58) &&& 63)) % WORD + WORD - 2 * WSIZE) % WORD + WORD
            - (hp + size) % WORD) % WORD) off).bind fun s6 _ => .ret s6 hp := by
  rw [malloc_internal_eq] at h ⊢
  obtain ⟨s1, a1, e1, h1⟩ := bind_returned _ _ h
  obtain ⟨c1, rfl⟩ := valid_if_ret _ _ _ _ e1
  rw [e1]
  obtain ⟨s2, a2, e2, h2⟩ := bind_returned _ _ h1
  obtain ⟨c2, rfl⟩ := valid_if_ret _ _ _ _ e2
  simp only [Outcome.bind]
  rw [e2]
  obtain ⟨s3, a3, e3, h3⟩ := bind_returned _ _ h2
  obtain ⟨c3, rfl⟩ := write_and_poison_ret _ _ _ _ _ e3
  simp only [Outcome.bind]
  rw [e3]
  simp only [decide_eq_true_eq, ge_iff_le] at c1 c2
  exact ⟨c1, c2, c3, rfl⟩

end Full

namespace Full

theorem realloc_log_extends_read (s : Machine) (ptr size hp off foff : Nat) :
    Event.read_unchecked ((ptr + (1 <<< (ptr >>> 58)) % WORD + WORD - WSIZE) % WORD)
      ∈ (realloc s ptr size hp off foff).state.log := by
  have h : ∃ evs, (realloc s ptr size hp off foff).state.log = evs ++
      (__cc_read_unchecked (__cc_bug_if s (decide (ptr % ((1 <<< (ptr >>> 58)) % WORD) ≠ 0)))
        ((ptr + (1 <<< (ptr >>> 58)) % WORD + WORD - WSIZE) % WORD)).1.log := by
    unfold realloc
    refine bind_log_extends _ _ _ (malloc_internal_log_extends _ _ _ _) (fun s2 p => ?_)
    refine bind_log_extends s2 _ _ (free_internal_log_extends _ _ _) (fun s4 _ => ⟨[], rfl⟩)
  exact log_extends_mem h _ (List.mem_cons_self _ _)

/-- C20: for every 64-bit address `a` the region size decoded by `malloc_internal`
(`1 << ((a >> 58) & 63)`) and the one decoded by `free_internal` and `realloc`
(`1 << (a >> 58)`) are both `2 ^ k`, `k` being the value of the top six bits of `a`,
a power of two between 1 and `2 ^ 63`; so `malloc_internal` writes the size word, and
`free_internal` and `realloc` read it, at the same address `a + 2 ^ k - 8`. -/
theorem region_size_decoding_agrees (a : Nat) (ha : a < WORD) (s : Machine)
    (size hp off foff : Nat) :
    a / 2 ^ 58 < 64 ∧
    (1 <<< ((a >>> 58) &&& 63)) % WORD = 2 ^ (a / 2 ^ 58) ∧
    (1 <<< (a >>> 58)) % WORD = 2 ^ (a / 2 ^ 58) ∧
    1 ≤ 2 ^ (a / 2 ^ 58) ∧ 2 ^ (a / 2 ^ 58) ≤ 2 ^ 63 ∧
    ((malloc_internal s size a off).returned = true →
      Event.write_unchecked ((a + 2 ^ (a / 2 ^ 58) + WORD - 8) % WORD) size
        ∈ (malloc_internal s size a off).state.log) ∧
    (a ≠ 0 → Event.read_unchecked ((a + 2 ^ (a / 2 ^ 58) + WORD - 8) % WORD)
        ∈ (free_internal s a off).state.log) ∧
    Event.read_unchecked ((a + 2 ^ (a / 2 ^ 58) + WORD - 8) % WORD)
        ∈ (realloc s a size hp off foff).state.log := by
  have hk := top_bits_lt a ha
  have hm := decode_malloc a ha
  have hf := decode_free a ha
  refine ⟨hk, hm, hf, Nat.one_le_two_pow, Nat.pow_le_pow_right (by norm_num) (by omega),
    ?_, ?_, ?_⟩
  · intro hr
    obtain ⟨_, _, _, he⟩ := malloc_internal_returned s size a off hr
    rw [he]
    refine log_extends_mem
      (bind_log_extends (after_advise s size a) _ (fun s6 _ => Outcome.ret s6 a)
        (poison_range_log_extends _ _ _ _) (fun s6 _ => ⟨[], rfl⟩)) _ ?_
    rw [← hm]
    simp [after_advise, __cc_advise_poison_offset, __cc_access_valid, __cc_write_unchecked]
  · intro h0
    rw [← hf]
    unfold free_internal
    rw [if_neg h0]
    refine log_extends_mem (poison_range_log_extends _ _ _ _) _ ?_
    simp [__cc_advise_poison_offset, __cc_access_invalid, __cc_read_unchecked]
  · rw [← hf]
    exact realloc_log_extends_read s a size hp off foff

theorem region_size_decoding_agrees_witness :
    1441151880758558720 < WORD ∧
    1441151880758558720 / 2 ^ 58 < 64 ∧
    (1 <<< ((1441151880758558720 >>> 58) &&& 63)) % WORD = 2 ^ (1441151880758558720 / 2 ^ 58) ∧
    (1 <<< (1441151880758558720 >>> 58)) % WORD = 2 ^ (1441151880758558720 / 2 ^ 58) :=
  ⟨by decide,
    (region_size_decoding_agrees 1441151880758558720 (by decide)
      (start_state fun _ => 0) 1 0 15 0).1,
    (region_size_decoding_agrees 1441151880758558720 (by decide)
      (start_state fun _ => 0) 1 0 15 0).2.1,
    (region_size_decoding_agrees 1441151880758558720 (by decide)
      (start_state fun _ => 0) 1 0 15 0).2.2.1⟩

end Full

namespace Simple

end Simple

namespace Full

/-- A 64-bit multiple of `2 ^ k` leaves room for a whole region of `2 ^ k` bytes
below `2 ^ 64`, and is a multiple of 16 when the region has at least 16 bytes. -/
theorem region_arith (hp k : Nat) (hk : k < 64) (hlt : hp < WORD) (hdiv : hp % 2 ^ k = 0) :
    hp + 2 ^ k ≤ WORD ∧ (16 ≤ 2 ^ k → 2 ^ k % 16 = 0 ∧ hp % 16 = 0) := by
  obtain ⟨q, hq⟩ := Nat.dvd_of_mod_eq_zero hdiv
  have hW : WORD = 2 ^ k * 2 ^ (64 - k) := by
    rw [← Nat.pow_add, WORD_pow]
    congr 1
    omega
  constructor
  · have hqlt : q < 2 ^ (64 - k) := by
      rw [hq, hW] at hlt
      exact Nat.lt_of_mul_lt_mul_left hlt
    calc hp + 2 ^ k = 2 ^ k * (q + 1) := by rw [hq, Nat.mul_add, Nat.mul_one]
      _ ≤ 2 ^ k * 2 ^ (64 - k) := Nat.mul_le_mul_left _ hqlt
      _ = WORD := hW.symm
  · intro h16
    have hk4 : 4 ≤ k := by
      by_contra hc
      have : 2 ^ k ≤ 2 ^ 3 := Nat.pow_le_pow_right (by norm_num) (by omega)
      have h8 : (2:Nat) ^ 3 = 8 := by norm_num
      omega
    have hd : 16 ∣ 2 ^ k := by
      have : (16:Nat) = 2 ^ 4 := by norm_num
      rw [this]
      exact Nat.pow_dvd_pow 2 hk4
    refine ⟨Nat.mod_eq_zero_of_dvd hd, Nat.mod_eq_zero_of_dvd ?_⟩
    rw [hq]
    exact Dvd.dvd.mul_right hd q

theorem bind_ret_const_value {α β : Type} (o : Outcome α) (v : β)
    (h : (o.bind fun s _ => Outcome.ret s v).returned = true) :
    (o.bind fun s _ => Outcome.ret s v).value = some v := by
  cases o with
  | ret s a => rfl
  | halt s => simp [Outcome.bind, Outcome.returned] at h

/-- When `size + 16` does not wrap and `malloc_internal` returns, it returns the
host's address, which is a multiple of the decoded region size, and the region has
room for the payload and the two metadata words. -/
theorem malloc_internal_region (s : Machine) (size hp off : Nat) (hlt : hp < WORD)
    (hsize : size + 16 < WORD) (h : (malloc_internal s size hp off).returned = true) :
    (malloc_internal s size hp off).value = some hp ∧
      hp % 2 ^ (hp / 2 ^ 58) = 0 ∧ size + 16 ≤ 2 ^ (hp / 2 ^ 58) := by
  obtain ⟨c1, c2, _, he⟩ := malloc_internal_returned s size hp off h
  rw [decode_malloc hp hlt] at c1 c2
  have e : (size + 2 * WSIZE) % WORD = size + 16 := Nat.mod_eq_of_lt hsize
  rw [e] at c1
  refine ⟨?_, c2, c1⟩
  rw [he] at h ⊢
  exact bind_ret_const_value _ hp h

end Full

namespace Full

theorem posix_memalign_of_malloc (s : Machine) (al size hp off : Nat) :
    posix_memalign s al size hp off
      = (malloc s (if al > size then al else size) hp off).bind fun s1 p => .ret s1 (0, p) :=
  rfl

/-- C14 (amended): when `N + 16` does not wrap and `malloc(N)` returns (its validity
checks passed), the pointer it returns is a multiple of `2 ^ m` for the least `m`
with `N ≤ 2 ^ m`, the next power of two at or above `N`.  Hence for every
power-of-two alignment and every size such that `max(alignment, size) + 16` does
not wrap, whenever `posix_memalign(memptr, alignment, size)` returns, it returns 0
and the pointer it stores is a multiple of `alignment`. -/
theorem size_class_memalign_aligned (s : Machine) (n j size hp off : Nat) (hlt : hp < WORD)
    (hn : n + 16 < WORD) (hmal : (malloc s n hp off).returned = true)
    (hsize : max (2 ^ j) size + 16 < WORD)
    (hret : (posix_memalign s (2 ^ j) size hp off).returned = true) :
    (malloc s n hp off).value = some hp ∧
      (∀ m, (∀ i, n ≤ 2 ^ i → m ≤ i) → hp % 2 ^ m = 0) ∧
      (posix_memalign s (2 ^ j) size hp off).value = some (0, hp) ∧ hp % 2 ^ j = 0 := by
  obtain ⟨v1, d1, f1⟩ := malloc_internal_region s n hp off hlt hn hmal
  have hdvd : ∀ m, m ≤ hp / 2 ^ 58 → hp % 2 ^ m = 0 := by
    intro m hm
    exact Nat.mod_eq_zero_of_dvd
      (Nat.dvd_trans (Nat.pow_dvd_pow 2 hm) (Nat.dvd_of_mod_eq_zero d1))
  refine ⟨v1, ?_, ?_, ?_⟩
  · intro m hm
    exact hdvd m (hm _ (by omega))
  all_goals
    rw [posix_memalign_of_malloc] at hret
    have hmr : (malloc s (if 2 ^ j > size then 2 ^ j else size) hp off).returned = true := by
      obtain ⟨s1, a, e, _⟩ := bind_returned _ _ hret
      rw [e]
      rfl
    have hs' : (if 2 ^ j > size then 2 ^ j else size) + 16 < WORD := by
      split <;> omega
    obtain ⟨v2, -, f2⟩ := malloc_internal_region s _ hp off hlt hs' hmr
  · rw [posix_memalign_of_malloc]
    have := Simple.outcome_eq_ret _ _ v2
    unfold malloc at this ⊢
    rw [this]
    rfl
  · apply hdvd
    have h2 : 2 ^ j < 2 ^ (hp / 2 ^ 58) := by
      split at f2 <;> omega
    exact Nat.le_of_lt ((Nat.pow_lt_pow_iff_right (by norm_num)).1 h2)

theorem size_class_memalign_aligned_witness :
    1441151880758558720 < WORD ∧ 1 + 16 < WORD ∧
    (malloc (start_state fun _ => 0) 1 1441151880758558720 15).returned = true ∧
    max (2 ^ 4) 1 + 16 < WORD ∧
    (posix_memalign (start_state fun _ => 0) (2 ^ 4) 1 1441151880758558720 15).returned
      = true ∧
    (posix_memalign (start_state fun _ => 0) (2 ^ 4) 1 1441151880758558720 15).value
      = some (0, 1441151880758558720) ∧
    1441151880758558720 % 2 ^ 4 = 0 :=
  ⟨by decide, by decide, by decide, by decide, by decide,
    (size_class_memalign_aligned (start_state fun _ => 0) 1 4 1 1441151880758558720 15
      (by decide) (by decide) (by decide) (by decide) (by decide)).2.2⟩

/-- C14 (counterexample): for alignment 16 and size `2 ^ 64 - 16` the sum
`size + 16` wraps to `0`, the one-byte region at address 1 passes both validity
checks, and `posix_memalign` returns 0 and stores the pointer 1, which is not a
multiple of 16.  And for alignment 16 and size 1, when the host answers with a
region of 16 bytes, the first validity check flags the trace invalid and
`posix_memalign` does not return. -/
theorem size_class_memalign_counterexample :
    (posix_memalign (start_state fun _ => 0) 16 18446744073709551600 1 1).value
      = some (0, 1) ∧
    ¬ (1 % 16 = 0) ∧
    (posix_memalign (start_state fun _ => 0) 16 1 1152921504606846976 0).returned = false ∧
    (posix_memalign (start_state fun _ => 0) 16 1 1152921504606846976 0).state.invalid
      = true := by
  refine ⟨by decide, by decide, by decide, by decide⟩

end Full

namespace Full

theorem poison_range_cases (s : Machine) (st len off : Nat) :
    poison_range s st len off =
      if off < len then
        if (st + off) % WORD % WSIZE = 0 then
          if word_poisoned s ((st + off) % WORD) = true then
            .halt { s with invalid := true,
                           log := Event.flag_invalid ::
                             Event.write_and_poison ((st + off) % WORD) 0 :: s.log }
          else
            .ret { s with mem := write_word s.mem ((st + off) % WORD) 0,
                          poisoned := fun x => in_word ((st + off) % WORD) x || s.poisoned x,
                          log := Event.write_and_poison ((st + off) % WORD) 0 :: s.log } ()
        else .halt { s with invalid := true, log := Event.flag_invalid :: s.log }
      else .ret s () := by
  unfold poison_range
  by_cases h1 : off < len
  · by_cases h2 : (st + off) % WORD % WSIZE = 0
    · by_cases h3 : word_poisoned s ((st + off) % WORD) = true
      · simp [h1, h2, h3, __cc_valid_if, Outcome.bind, __cc_write_and_poison, __cc_flag_invalid]
      · simp [h1, h2, h3, __cc_valid_if, Outcome.bind, __cc_write_and_poison, __cc_flag_invalid]
    · simp [h1, h2, __cc_valid_if, Outcome.bind, __cc_flag_invalid]
  · simp [h1]

/-- The only word that the poisoning step passes to `__cc_write_and_poison` is the
one the oracle named, in range and word-aligned. -/
theorem poison_range_log_mem (s : Machine) (st len off w v : Nat)
    (h : Event.write_and_poison w v ∈ (poison_range s st len off).state.log) :
    Event.write_and_poison w v ∈ s.log ∨
      (w = (st + off) % WORD ∧ v = 0 ∧ off < len ∧ (st + off) % WORD % WSIZE = 0) := by
  rw [poison_range_cases] at h
  split_ifs at h with h1 h2 h3
  · simp only [Outcome.state, List.mem_cons, Event.write_and_poison.injEq] at h
    rcases h with h | h | h
    · exact absurd h (by simp)
    · exact Or.inr ⟨h.1, h.2, h1, h2⟩
    · exact Or.inl h
  · simp only [Outcome.state, List.mem_cons, Event.write_and_poison.injEq] at h
    rcases h with h | h
    · exact Or.inr ⟨h.1, h.2, h1, h2⟩
    · exact Or.inl h
  · simp only [Outcome.state, List.mem_cons] at h
    rcases h with h | h
    · exact absurd h (by simp)
    · exact Or.inl h
  · exact Or.inl h

end Full
theorem bind_log_mem {α β : Type} (e : Event) (P : Prop) (s : Machine) (o : Outcome α)
    (f : Machine → α → Outcome β) (h1 : e ∈ o.state.log → e ∈ s.log ∨ P)
    (h2 : ∀ s1 a, o = .ret s1 a → e ∈ (f s1 a).state.log → e ∈ s1.log ∨ P)
    (h : e ∈ (o.bind f).state.log) : e ∈ s.log ∨ P := by
  cases o with
  | ret s1 a =>
    rcases h2 s1 a rfl h with h | h
    · exact h1 h
    · exact Or.inr h
  | halt s1 => exact h1 h

theorem valid_if_log_mem (s : Machine) (c : Bool) (w v : Nat)
    (h : Event.write_and_poison w v ∈ (__cc_valid_if s c).state.log) :
    Event.write_and_poison w v ∈ s.log := by
  revert h
  cases c <;> intro h
  · simp only [__cc_valid_if, __cc_flag_invalid, Outcome.state, List.mem_cons,
      Bool.false_eq_true, if_false] at h
    exact h.resolve_left (by simp)
  · exact h

theorem write_and_poison_log_mem (s : Machine) (p val w v : Nat)
    (h : Event.write_and_poison w v ∈ (__cc_write_and_poison s p val).state.log) :
    Event.write_and_poison w v ∈ s.log ∨ (w = p ∧ v = val) := by
  unfold __cc_write_and_poison at h
  split_ifs at h
  · simp only [__cc_flag_invalid, Outcome.state, List.mem_cons,
      Event.write_and_poison.injEq] at h
    rcases h with h | h | h
    · exact absurd h (by simp)
    · exact Or.inr h
    · exact Or.inl h
  · simp only [Outcome.state, List.mem_cons, Event.write_and_poison.injEq] at h
    rcases h with h | h
    · exact Or.inr h
    · exact Or.inl h

theorem store8_log_mem (s : Machine) (p val w v : Nat)
    (h : Event.write_and_poison w v ∈ (store8 s p val).log) :
    Event.write_and_poison w v ∈ s.log := by
  simp only [store8, __cc_bug_if, __cc_flag_bug] at h
  split_ifs at h
  · simp only [List.mem_cons] at h
    rcases h with h | h
    · exact absurd h (by simp)
    · exact h
  · exact h

theorem bug_if_log_mem (s : Machine) (c : Bool) (w v : Nat)
    (h : Event.write_and_poison w v ∈ (__cc_bug_if s c).log) :
    Event.write_and_poison w v ∈ s.log := by
  revert h
  cases c <;> intro h
  · exact h
  · simp only [__cc_bug_if, __cc_flag_bug, if_true, List.mem_cons] at h
    rcases h with h | h
    · exact absurd h (by simp)
    · exact h

namespace Full

/-- The `__cc_write_and_poison` calls of `malloc_internal`: the allocation marker
with value `1`, and the word the oracle named with value `0`, in range and
word-aligned. -/
theorem malloc_internal_log_mem (s : Machine) (size hp off w v : Nat)
    (h : Event.write_and_poison w v ∈ (malloc_internal s size hp off).state.log) :
    Event.write_and_poison w v ∈ s.log ∨
      ((w = (hp + (1 <<< ((hp >>> 58) &&& 63)) % WORD + WORD - 2 * WSIZE) % WORD ∧ v = 1) ∨
      (w = ((hp + size) % WORD + off) % WORD ∧ v = 0 ∧
        off < ((hp + (1 <<< ((hp >>> 58) &&& 63)) % WORD + WORD - 2 * WSIZE) % WORD + WORD
            - (hp + size) % WORD) % WORD ∧
        ((hp + size) % WORD + off) % WORD % WSIZE = 0)) := by
  rw [malloc_internal_eq] at h
  refine bind_log_mem _ _ s _ _ ?_ ?_ h
  · intro h1
    have h2 := valid_if_log_mem _ _ _ _ h1
    simp only [__cc_malloc, List.mem_cons] at h2
    rcases h2 with h2 | h2
    · exact absurd h2 (by simp)
    · exact Or.inl h2
  · intro s1 _ _ h
    refine bind_log_mem _ _ s1 _ _ (fun h1 => Or.inl (valid_if_log_mem _ _ _ _ h1)) ?_ h
    intro s2 _ _ h
    refine bind_log_mem _ _ s2 _ _ ?_ ?_ h
    · intro h1
      rcases write_and_poison_log_mem _ _ _ _ _ h1 with h1 | h1
      · exact Or.inl h1
      · exact Or.inr (Or.inl h1)
    · intro s3 _ _ h
      refine bind_log_mem _ _ s3 _ _ ?_ (fun s6 _ _ h1 => Or.inl (by exact h1)) h
      intro h1
      rcases poison_range_log_mem _ _ _ _ _ _ h1 with h1 | h1
      · simp only [__cc_advise_poison_offset, __cc_access_valid, __cc_write_unchecked,
          List.mem_cons] at h1
        rcases h1 with h1 | h1 | h1 | h1
        · exact absurd h1 (by simp)
        · exact absurd h1 (by simp)
        · exact absurd h1 (by simp)
        · exact Or.inl h1
      · exact Or.inr (Or.inr h1)

/-- The `__cc_write_and_poison` calls of `free_internal`: only the word the oracle
named, with value `0`, in range and word-aligned. -/
theorem free_internal_log_mem (s : Machine) (ptr off w v : Nat)
    (h : Event.write_and_poison w v ∈ (free_internal s ptr off).state.log) :
    Event.write_and_poison w v ∈ s.log ∨
      (ptr ≠ 0 ∧ w = (ptr + off) % WORD ∧ v = 0 ∧
        off < ((1 <<< (ptr >>> 58)) % WORD + WORD - 2 * WSIZE) % WORD ∧
        (ptr + off) % WORD % WSIZE = 0) := by
  unfold free_internal at h
  by_cases h0 : ptr = 0
  · simp only [h0, if_true, Outcome.state] at h
    exact Or.inl h
  · simp only [h0, if_false] at h
    rcases poison_range_log_mem _ _ _ _ _ _ h with h | h
    · left
      simp only [__cc_advise_poison_offset, __cc_access_invalid, __cc_read_unchecked,
        List.mem_cons] at h
      rcases h with h | h | h | h
      · exact absurd h (by simp)
      · exact absurd h (by simp)
      · exact absurd h (by simp)
      · exact bug_if_log_mem _ _ _ _ (store8_log_mem _ _ _ _ _ h)
    · exact Or.inr ⟨h0, h⟩

end Full
namespace Full

/-- C19: for every region that passes the two validity checks of `malloc_internal`
(the request `size + 16` not wrapping), every `__cc_write_and_poison` call made by
`malloc_internal` is either the allocation marker (value `1`, the word at
`ptr + region_size - 16`) or the oracle's word (value `0`), and the oracle's word
satisfies `ptr + size ≤ poison` and `poison + 8 ≤ ptr + region_size - 16`; every
`__cc_write_and_poison` call made by `free_internal` on that pointer, in any state,
is the oracle's word, and it satisfies `ptr ≤ poison` and
`poison + 8 ≤ ptr + region_size - 16`. -/
theorem oracle_poison_in_unused_space (s t : Machine) (size hp off foff : Nat)
    (hlt : hp < WORD) (hsize : size + 2 * WSIZE < WORD)
    (hc1 : (1 <<< ((hp >>> 58) &&& 63)) % WORD ≥ (size + 2 * WSIZE) % WORD)
    (hc2 : hp % ((1 <<< ((hp >>> 58) &&& 63)) % WORD) = 0) :
    (∀ w v, Event.write_and_poison w v ∈ (malloc_internal s size hp off).state.log →
      Event.write_and_poison w v ∈ s.log ∨
      (v = 1 ∧ w + 16 = hp + (1 <<< ((hp >>> 58) &&& 63)) % WORD) ∨
      (v = 0 ∧ hp + size ≤ w ∧ w + 8 ≤ hp + (1 <<< ((hp >>> 58) &&& 63)) % WORD - 16)) ∧
    (∀ w v, Event.write_and_poison w v ∈ (free_internal t hp foff).state.log →
      Event.write_and_poison w v ∈ t.log ∨
      (v = 0 ∧ hp ≤ w ∧ w + 8 ≤ hp + (1 <<< ((hp >>> 58) &&& 63)) % WORD - 16)) := by
  have hW : WORD = 18446744073709551616 := rfl
  have hk := top_bits_lt hp hlt
  have hm := fun w v => malloc_internal_log_mem s size hp off w v
  have hfr := fun w v => free_internal_log_mem t hp foff w v
  simp only [decode_free hp hlt] at hfr
  simp only [decode_malloc hp hlt] at hm hc1 hc2 ⊢
  obtain ⟨hfit, h16⟩ := region_arith hp _ hk hlt hc2
  generalize 2 ^ (hp / 2 ^ 58) = R at *
  simp only [WSIZE, WORD] at hm hfr hsize hc1 hlt hfit
  obtain ⟨hR16, hp16⟩ := h16 (by omega)
  constructor
  · intro w v h
    rcases hm w v h with h | h | h
    · exact Or.inl h
    · refine Or.inr (Or.inl ⟨h.2, ?_⟩)
      rw [h.1]
      omega
    · obtain ⟨hw, hv, ho, ha⟩ := h
      refine Or.inr (Or.inr ⟨hv, ?_⟩)
      rw [hw]
      omega
  · intro w v h
    rcases hfr w v h with h | h
    · exact Or.inl h
    · obtain ⟨_, hw, hv, ho, ha⟩ := h
      refine Or.inr ⟨hv, ?_⟩
      rw [hw]
      omega

theorem oracle_poison_in_unused_space_witness :
    1441151880758558720 < WORD ∧ 1 + 2 * WSIZE < WORD ∧
    (1 <<< ((1441151880758558720 >>> 58) &&& 63)) % WORD ≥ (1 + 2 * WSIZE) % WORD ∧
    1441151880758558720 % ((1 <<< ((1441151880758558720 >>> 58) &&& 63)) % WORD) = 0 ∧
    Event.write_and_poison 1441151880758558728 0 ∈
      (malloc_internal (start_state fun _ => 0) 1 1441151880758558720 7).state.log ∧
    ((∀ w v, Event.write_and_poison w v ∈
        (malloc_internal (start_state fun _ => 0) 1 1441151880758558720 7).state.log →
      Event.write_and_poison w v ∈ (start_state fun _ => 0).log ∨
      (v = 1 ∧ w + 16 = 1441151880758558720
        + (1 <<< ((1441151880758558720 >>> 58) &&& 63)) % WORD) ∨
      (v = 0 ∧ 1441151880758558720 + 1 ≤ w ∧ w + 8 ≤ 1441151880758558720
        + (1 <<< ((1441151880758558720 >>> 58) &&& 63)) % WORD - 16)) ∧
    (∀ w v, Event.write_and_poison w v ∈
        (free_internal (start_state fun _ => 0) 1441151880758558720 8).state.log →
      Event.write_and_poison w v ∈ (start_state fun _ => 0).log ∨
      (v = 0 ∧ 1441151880758558720 ≤ w ∧ w + 8 ≤ 1441151880758558720
        + (1 <<< ((1441151880758558720 >>> 58) &&& 63)) % WORD - 16))) :=
  ⟨by decide, by decide, by decide, by decide, by decide,
    oracle_poison_in_unused_space (start_state fun _ => 0) (start_state fun _ => 0) 1
      1441151880758558720 7 8 (by decide) (by decide) (by decide) (by decide)⟩

end Full

/-- The byte addresses of the word at `a`. -/
theorem in_word_offset (a i : Nat) (ha : a < WORD) (hi : i < WSIZE) :
    in_word a ((a + i) % WORD) = true ∧ ((a + i) % WORD + WORD - a % WORD) % WORD = i := by
  unfold in_word
  simp only [WORD, WSIZE, Bool.and_eq_true, decide_eq_true_eq] at ha hi ⊢
  omega

/-- A word that was stored is the word loaded (modulo `2 ^ 64`). -/
theorem read_write_word (mem : Nat → Nat) (a v : Nat) (ha : a < WORD) :
    read_word (write_word mem a v) a = v % WORD := by
  have h0 := in_word_offset a 0 ha (by decide)
  have h1 := in_word_offset a 1 ha (by decide)
  have h2 := in_word_offset a 2 ha (by decide)
  have h3 := in_word_offset a 3 ha (by decide)
  have h4 := in_word_offset a 4 ha (by decide)
  have h5 := in_word_offset a 5 ha (by decide)
  have h6 := in_word_offset a 6 ha (by decide)
  have h7 := in_word_offset a 7 ha (by decide)
  have e0 : a % WORD = a := Nat.mod_eq_of_lt ha
  have h0a : in_word a a = true := by
    have h := h0.1
    rwa [Nat.add_zero, e0] at h
  have h0b : (a + WORD - a % WORD) % WORD = 0 := by
    have h := h0.2
    rw [Nat.add_zero] at h
    rw [e0] at h ⊢
    exact h
  unfold read_word write_word
  simp only [h0a, h1.1, h2.1, h3.1, h4.1, h5.1, h6.1, h7.1, if_true,
    h0b, h1.2, h2.2, h3.2, h4.2, h5.2, h6.2, h7.2]
  norm_num
  omega

/-- A load depends on the eight bytes of the word only. -/
theorem read_word_congr (m1 m2 : Nat → Nat) (a : Nat)
    (h : ∀ x, in_word a x = true → m1 x = m2 x) (ha : a < WORD) :
    read_word m1 a = read_word m2 a := by
  have h0 := in_word_offset a 0 ha (by decide)
  have h1 := in_word_offset a 1 ha (by decide)
  have h2 := in_word_offset a 2 ha (by decide)
  have h3 := in_word_offset a 3 ha (by decide)
  have h4 := in_word_offset a 4 ha (by decide)
  have h5 := in_word_offset a 5 ha (by decide)
  have h6 := in_word_offset a 6 ha (by decide)
  have h7 := in_word_offset a 7 ha (by decide)
  have e0 : a % WORD = a := Nat.mod_eq_of_lt ha
  simp only [Nat.add_zero, e0] at h0
  unfold read_word
  rw [h _ h0.1, h _ h1.1, h _ h2.1, h _ h3.1, h _ h4.1, h _ h5.1, h _ h6.1, h _ h7.1]
namespace Full

theorem poison_range_returned_invalid (s : Machine) (st len off : Nat)
    (h : (poison_range s st len off).returned = true) :
    (poison_range s st len off).state.invalid = s.invalid := by
  rw [poison_range_cases] at h ⊢
  split_ifs at h ⊢
  · simp [Outcome.returned] at h
  · rfl
  · simp [Outcome.returned] at h
  · rfl

/-- C12: when the sum `size + 16` of the request wraps around `2 ^ 64`, the check
`region_size >= size + 2 * sizeof(uintptr_t)` of `malloc_internal` compares with the
wrapped sum: whenever `malloc_internal` returns for such a size (it raised no flag),
it returns the host's address, the host was asked for `size + 16 - 2 ^ 64` bytes, and
the decoded region size `2 ^ (top six bits of base)` is smaller than `size + 16`, so
the region has no room for `size` bytes and the two metadata words. -/
theorem malloc_internal_wrapped_size_short_region (s : Machine) (size hp off : Nat)
    (hlt : hp < WORD) (hs : size < WORD) (hwrap : WORD ≤ size + 16)
    (h : (malloc_internal s size hp off).returned = true) :
    (malloc_internal s size hp off).value = some hp ∧
      (malloc_internal s size hp off).state.invalid = s.invalid ∧
      Event.cc_malloc (size + 16 - WORD) ∈ (malloc_internal s size hp off).state.log ∧
      hp % 2 ^ (hp / 2 ^ 58) = 0 ∧
      2 ^ (hp / 2 ^ 58) < size + 16 := by
  obtain ⟨_, c2, _, he⟩ := malloc_internal_returned s size hp off h
  rw [decode_malloc hp hlt] at c2
  have hk := top_bits_lt hp hlt
  have hR := two_pow_top_lt _ hk
  have hret : (poison_range (after_advise s size hp) ((hp + size) % WORD)
      (((hp + (1 <<< ((hp >>> 58) &&& 63)) % WORD + WORD - 2 * WSIZE) % WORD + WORD
        - (hp + size) % WORD) % WORD) off).returned = true := by
    rw [he] at h
    obtain ⟨s1, a, e, _⟩ := bind_returned _ _ h
    rw [e]
    rfl
  refine ⟨?_, ?_, ?_, c2, by omega⟩
  · rw [he] at h ⊢
    exact bind_ret_const_value _ hp h
  · rw [he, Simple.bind_ret_state _ (fun _ _ => hp), poison_range_returned_invalid _ _ _ _ hret]
    rfl
  · rw [he, Simple.bind_ret_state _ (fun _ _ => hp)]
    refine log_extends_mem (poison_range_log_extends _ _ _ _) _ ?_
    have e : (size + 2 * WSIZE) % WORD = size + 16 - WORD := by
      simp only [WORD, WSIZE] at hs hwrap ⊢
      omega
    simp [after_advise, __cc_advise_poison_offset, __cc_access_valid, __cc_write_unchecked,
      __cc_malloc, e]

theorem malloc_internal_wrapped_size_short_region_witness :
    (1152921504606846976 : Nat) < WORD ∧ (18446744073709551600 : Nat) < WORD ∧
    WORD ≤ 18446744073709551600 + 16 ∧
    (malloc_internal (start_state fun _ => 0) 18446744073709551600
      1152921504606846976 16).returned = true ∧
    2 ^ (1152921504606846976 / 2 ^ 58) = 16 ∧
    (malloc_internal (start_state fun _ => 0) 18446744073709551600
      1152921504606846976 16).value = some 1152921504606846976 ∧
    (malloc_internal (start_state fun _ => 0) 18446744073709551600
      1152921504606846976 16).state.invalid = (start_state fun _ => 0).invalid ∧
    Event.cc_malloc (18446744073709551600 + 16 - WORD) ∈
      (malloc_internal (start_state fun _ => 0) 18446744073709551600
        1152921504606846976 16).state.log ∧
    1152921504606846976 % 2 ^ (1152921504606846976 / 2 ^ 58) = 0 ∧
    2 ^ (1152921504606846976 / 2 ^ 58) < 18446744073709551600 + 16 :=
  ⟨by decide, by decide, by decide, by decide, by decide,
    malloc_internal_wrapped_size_short_region (start_state fun _ => 0) 18446744073709551600
      1152921504606846976 16 (by decide) (by decide) (by decide) (by decide)⟩

theorem poison_range_valid (s : Machine) (st len off : Nat) :
    (poison_range s st len off).state.valid = s.valid := by
  rw [poison_range_cases]
  split_ifs <;> rfl

theorem poison_range_bug (s : Machine) (st len off : Nat) :
    (poison_range s st len off).state.bug = s.bug := by
  rw [poison_range_cases]
  split_ifs <;> rfl

theorem poison_range_mem (s : Machine) (st len off x : Nat)
    (h : off < len → in_word ((st + off) % WORD) x = false) :
    (poison_range s st len off).state.mem x = s.mem x := by
  rw [poison_range_cases]
  split_ifs with h1 h2 h3
  · rfl
  · exact Simple.write_word_frame _ _ _ _ (h h1)
  · rfl
  · rfl

/-- When `malloc_internal` returns, it returns the host's address in the state left by
the poisoning of the oracle's word. -/
theorem malloc_internal_ret (s s1 : Machine) (size hp off p : Nat)
    (h : malloc_internal s size hp off = .ret s1 p) :
    p = hp ∧ s1 = (poison_range (after_advise s size hp) ((hp + size) % WORD)
          (((hp + (1 <<< ((hp >>> 58) &&& 63)) % WORD + WORD - 2 * WSIZE) % WORD + WORD
            - (hp + size) % WORD) % WORD) off).state := by
  have hr : (malloc_internal s size hp off).returned = true := by rw [h]; rfl
  obtain ⟨_, _, _, he⟩ := malloc_internal_returned s size hp off hr
  rw [he] at h
  revert h
  cases poison_range (after_advise s size hp) ((hp + size) % WORD)
          (((hp + (1 <<< ((hp >>> 58) &&& 63)) % WORD + WORD - 2 * WSIZE) % WORD + WORD
            - (hp + size) % WORD) % WORD) off with
  | ret s6 a =>
    intro h
    simp only [Outcome.bind, Outcome.ret.injEq] at h
    exact ⟨h.2.symm, h.1.symm⟩
  | halt s6 =>
    intro h
    simp [Outcome.bind] at h

theorem free_internal_eq (s : Machine) (ptr off : Nat) (h0 : ptr ≠ 0) :
    free_internal s ptr off =
      poison_range
        (__cc_advise_poison_offset
          (__cc_access_invalid
            (__cc_read_unchecked
              (store8 (__cc_bug_if s (decide (ptr % ((1 <<< (ptr >>> 58)) % WORD) ≠ 0))) ptr 0)
              ((ptr + (1 <<< (ptr >>> 58)) % WORD + WORD - WSIZE) % WORD)).1
            ptr
            ((ptr + read_word
              (store8 (__cc_bug_if s (decide (ptr % ((1 <<< (ptr >>> 58)) % WORD) ≠ 0)))
                ptr 0).mem
              ((ptr + (1 <<< (ptr >>> 58)) % WORD + WORD - WSIZE) % WORD)) % WORD))
          ptr (((1 <<< (ptr >>> 58)) % WORD + WORD - 2 * WSIZE) % WORD) off).1
        ptr (((1 <<< (ptr >>> 58)) % WORD + WORD - 2 * WSIZE) % WORD) off := by
  unfold free_internal
  rw [if_neg h0]
  rfl

/-- The store `*ptr = 0` of `free_internal` to a byte that is not accessible is
flagged as a bug. -/
theorem free_internal_bug_of_inaccessible (s : Machine) (ptr off : Nat) (h0 : ptr ≠ 0)
    (hv : s.valid ptr = false) : (free_internal s ptr off).state.bug = true := by
  rw [free_internal_eq s ptr off h0, poison_range_bug]
  have hb : ∀ c, (__cc_bug_if s c).valid ptr = false := by
    intro c; cases c <;> exact hv
  have key : ∀ t : Machine, t.valid ptr = false → (store8 t ptr 0).bug = true := by
    intro t ht
    simp [store8, __cc_bug_if, ht, __cc_flag_bug]
  exact key _ (hb _)

/-- After `free_internal` the first byte of the region is inaccessible, when the size
word holds a size that is not `0` and does not wrap. -/
theorem free_internal_first_byte (s : Machine) (ptr off : Nat) (h0 : ptr ≠ 0)
    (hsz : ptr < (ptr + read_word
              (store8 (__cc_bug_if s (decide (ptr % ((1 <<< (ptr >>> 58)) % WORD) ≠ 0)))
                ptr 0).mem
              ((ptr + (1 <<< (ptr >>> 58)) % WORD + WORD - WSIZE) % WORD)) % WORD) :
    (free_internal s ptr off).state.valid ptr = false := by
  rw [free_internal_eq s ptr off h0, poison_range_valid]
  simp only [__cc_advise_poison_offset, __cc_access_invalid, __cc_read_unchecked]
  rw [decide_eq_true (Nat.le_refl ptr), decide_eq_true hsz]
  rfl

end Full
namespace Full

theorem after_advise_mem (s : Machine) (size hp : Nat) :
    (after_advise s size hp).mem =
      write_word (write_word s.mem
        ((hp + (1 <<< ((hp >>> 58) &&& 63)) % WORD + WORD - 2 * WSIZE) % WORD) 1)
        ((hp + (1 <<< ((hp >>> 58) &&& 63)) % WORD + WORD - WSIZE) % WORD) size := rfl

theorem store8_mem_other (s : Machine) (p v x : Nat) (h : x ≠ p) :
    (store8 s p v).mem x = s.mem x := by
  have hb : ∀ c, (__cc_bug_if s c).mem = s.mem := by
    intro c; cases c <;> rfl
  simp only [store8, store_byte, h, if_false, hb]

theorem bug_if_mem (s : Machine) (c : Bool) : (__cc_bug_if s c).mem = s.mem := by
  cases c <;> rfl

/-- After a returning `malloc_internal` of a size that is not `0`, `free_internal`
reads the size back from the size word and declares the first byte of the payload
inaccessible. -/
theorem malloc_free_first_byte (s s1 : Machine) (size hp off f1 p : Nat)
    (hlt : hp < WORD) (hpos : 0 < size) (hsize : size + 16 < WORD)
    (hm : malloc_internal s size hp off = .ret s1 p) :
    p ≠ 0 ∧ (free_internal s1 p f1).state.valid p = false := by
  have hr : (malloc_internal s size hp off).returned = true := by rw [hm]; rfl
  obtain ⟨_, hdiv, hroom⟩ := malloc_internal_region s size hp off hlt hsize hr
  obtain ⟨hp_eq, hs1⟩ := malloc_internal_ret s s1 size hp off p hm
  subst hp_eq
  have hW : WORD = 18446744073709551616 := rfl
  have hk := top_bits_lt p hlt
  obtain ⟨hfit, h16⟩ := region_arith p _ hk hlt hdiv
  obtain ⟨hR16, hp16⟩ := h16 (by omega)
  have h0 : p ≠ 0 := by
    intro h
    rw [h] at hroom
    simp at hroom
  refine ⟨h0, free_internal_first_byte s1 p f1 h0 ?_⟩
  have hread : read_word
      (store8 (__cc_bug_if s1 (decide (p % ((1 <<< (p >>> 58)) % WORD) ≠ 0))) p 0).mem
      ((p + (1 <<< (p >>> 58)) % WORD + WORD - WSIZE) % WORD) = size := by
    have hsp : (p + (1 <<< (p >>> 58)) % WORD + WORD - WSIZE) % WORD < WORD :=
      Nat.mod_lt _ (by decide)
    rw [read_word_congr _ (write_word (write_word s.mem
        ((p + (1 <<< ((p >>> 58) &&& 63)) % WORD + WORD - 2 * WSIZE) % WORD) 1)
        ((p + (1 <<< (p >>> 58)) % WORD + WORD - WSIZE) % WORD) size) _ ?_ hsp,
      read_write_word _ _ _ hsp]
    · exact Nat.mod_eq_of_lt (by omega)
    · intro x hx
      have hspv : (p + (1 <<< (p >>> 58)) % WORD + WORD - WSIZE) % WORD
          = p + 2 ^ (p / 2 ^ 58) - 8 := by
        rw [decode_free p hlt]
        simp only [WORD, WSIZE] at hfit ⊢
        omega
      rw [hspv] at hx ⊢
      rw [Simple.in_word_iff _ _ (by simp only [WORD, WSIZE] at hfit ⊢; omega)] at hx
      simp only [WSIZE] at hx
      rw [store8_mem_other _ _ _ _ (by omega), bug_if_mem, hs1, poison_range_mem,
        after_advise_mem]
      · have e : (p + (1 <<< ((p >>> 58) &&& 63)) % WORD + WORD - WSIZE) % WORD
            = p + 2 ^ (p / 2 ^ 58) - 8 := by
          rw [decode_malloc p hlt]
          simp only [WORD, WSIZE] at hfit ⊢
          omega
        rw [e]
      · intro hoff
        rw [decode_malloc p hlt] at hoff
        cases hin : in_word (((p + size) % WORD + off) % WORD) x with
        | false => rfl
        | true =>
          exfalso
          generalize 2 ^ (p / 2 ^ 58) = R at *
          simp only [WORD, WSIZE] at hoff hfit hin hlt hsize
          have hlt2 : ((p + size) % 18446744073709551616 + off) % 18446744073709551616
              + 8 ≤ 18446744073709551616 := by omega
          rw [Simple.in_word_iff _ _ hlt2] at hin
          simp only [WSIZE] at hin
          omega
  rw [hread]
  rw [Nat.mod_eq_of_lt (by simp only [WORD] at hfit ⊢; omega)]
  omega

end Full
namespace Full

theorem after_advise_valid (s : Machine) (size hp : Nat) :
    (after_advise s size hp).valid
      = fun x => (decide (hp ≤ x) && decide (x < (hp + size) % WORD)) || s.valid x := rfl

/-- A byte that is inaccessible stays inaccessible through `free_internal`. -/
theorem free_internal_keeps_inaccessible (s : Machine) (ptr off x : Nat)
    (hv : s.valid x = false) : (free_internal s ptr off).state.valid x = false := by
  by_cases h0 : ptr = 0
  · unfold free_internal
    rw [if_pos h0]
    exact hv
  · rw [free_internal_eq s ptr off h0, poison_range_valid]
    have hb : ∀ c, (__cc_bug_if s c).valid x = false := by
      intro c; cases c <;> exact hv
    have key : ∀ t : Machine, t.valid x = false → (store8 t ptr 0).valid x = false := by
      intro t ht
      rw [(Simple.store8_view t ptr 0).2.2.2]
      exact ht
    simp only [__cc_advise_poison_offset, __cc_access_invalid, __cc_read_unchecked,
      key _ (hb _), Bool.and_false]

/-- After a returning `malloc_internal` of size `0` that found the first byte of the
region inaccessible, that byte is still inaccessible after `free_internal`. -/
theorem malloc_zero_free_first_byte (s s1 : Machine) (hp off f1 p : Nat)
    (hlt : hp < WORD) (hv : s.valid hp = false)
    (hm : malloc_internal s 0 hp off = .ret s1 p) :
    p ≠ 0 ∧ (free_internal s1 p f1).state.valid p = false := by
  have hr : (malloc_internal s 0 hp off).returned = true := by rw [hm]; rfl
  obtain ⟨_, hdiv, hroom⟩ := malloc_internal_region s 0 hp off hlt (by decide) hr
  obtain ⟨hp_eq, hs1⟩ := malloc_internal_ret s s1 0 hp off p hm
  subst hp_eq
  have h0 : p ≠ 0 := by
    intro h
    rw [h] at hroom
    simp at hroom
  refine ⟨h0, free_internal_keeps_inaccessible s1 p f1 p ?_⟩
  rw [hs1, poison_range_valid, after_advise_valid]
  simp only [Nat.add_zero, Nat.mod_eq_of_lt hlt, Nat.lt_irrefl, decide_False, Bool.and_false,
    Bool.false_or]
  exact hv

/-- The store `*ptr = 0` of `free_internal` to a byte that is not accessible adds a
`__cc_flag_bug` call to the record. -/
theorem free_internal_flags_bug (s : Machine) (ptr off : Nat) (h0 : ptr ≠ 0)
    (hv : s.valid ptr = false) :
    ∃ evs, (free_internal s ptr off).state.log = evs ++ s.log ∧ Event.flag_bug ∈ evs := by
  rw [free_internal_eq s ptr off h0]
  obtain ⟨e1, h1⟩ := poison_range_log_extends
    (__cc_advise_poison_offset
      (__cc_access_invalid
        (__cc_read_unchecked
          (store8 (__cc_bug_if s (decide (ptr % ((1 <<< (ptr >>> 58)) % WORD) ≠ 0))) ptr 0)
          ((ptr + (1 <<< (ptr >>> 58)) % WORD + WORD - WSIZE) % WORD)).1
        ptr
        ((ptr + read_word
          (store8 (__cc_bug_if s (decide (ptr % ((1 <<< (ptr >>> 58)) % WORD) ≠ 0)))
            ptr 0).mem
          ((ptr + (1 <<< (ptr >>> 58)) % WORD + WORD - WSIZE) % WORD)) % WORD))
      ptr (((1 <<< (ptr >>> 58)) % WORD + WORD - 2 * WSIZE) % WORD) off).1
    ptr (((1 <<< (ptr >>> 58)) % WORD + WORD - 2 * WSIZE) % WORD) off
  obtain ⟨e0, h00⟩ := bug_if_log_extends s (decide (ptr % ((1 <<< (ptr >>> 58)) % WORD) ≠ 0))
  have hb : (__cc_bug_if s (decide (ptr % ((1 <<< (ptr >>> 58)) % WORD) ≠ 0))).valid ptr
      = false := by
    cases decide (ptr % ((1 <<< (ptr >>> 58)) % WORD) ≠ 0) <;> exact hv
  have key : ∀ t : Machine, t.valid ptr = false →
      (store8 t ptr 0).log = Event.flag_bug :: t.log := by
    intro t ht
    simp [store8, __cc_bug_if, ht, __cc_flag_bug]
  refine ⟨e1 ++ [Event.advise_poison_offset ptr
      (((1 <<< (ptr >>> 58)) % WORD + WORD - 2 * WSIZE) % WORD),
    Event.access_invalid ptr ((ptr + read_word
          (store8 (__cc_bug_if s (decide (ptr % ((1 <<< (ptr >>> 58)) % WORD) ≠ 0)))
            ptr 0).mem
          ((ptr + (1 <<< (ptr >>> 58)) % WORD + WORD - WSIZE) % WORD)) % WORD),
    Event.read_unchecked ((ptr + (1 <<< (ptr >>> 58)) % WORD + WORD - WSIZE) % WORD),
    Event.flag_bug] ++ e0, ?_, by simp⟩
  rw [h1]
  simp only [__cc_advise_poison_offset, __cc_access_invalid, __cc_read_unchecked]
  rw [key _ hb, h00]
  simp

theorem poison_range_poisoned (s : Machine) (st len off x : Nat)
    (h : (poison_range s st len off).state.poisoned x = true) :
    s.poisoned x = true ∨ (off < len ∧ in_word ((st + off) % WORD) x = true) := by
  rw [poison_range_cases] at h
  split_ifs at h with h1 h2 h3
  · exact Or.inl h
  · simp only [Outcome.state, Bool.or_eq_true] at h
    rcases h with h | h
    · exact Or.inr ⟨h1, h⟩
    · exact Or.inl h
  · exact Or.inl h
  · exact Or.inl h

theorem after_advise_fields (s : Machine) (size hp : Nat) :
    (after_advise s size hp).bug = s.bug ∧
    (after_advise s size hp).poisoned = fun x =>
      in_word ((hp + (1 <<< ((hp >>> 58) &&& 63)) % WORD + WORD - 2 * WSIZE) % WORD) x
        || s.poisoned x := ⟨rfl, rfl⟩

/-- After a returning `malloc_internal` of a size that is not `0`, in a state without
a bug flag in which the first byte of the region is not poisoned, the first
`free_internal` flags no bug. -/
theorem malloc_free_no_bug (s s1 : Machine) (size hp off f1 p : Nat)
    (hlt : hp < WORD) (hpos : 0 < size) (hsize : size + 16 < WORD)
    (hbug : s.bug = false) (hpo : s.poisoned hp = false)
    (hm : malloc_internal s size hp off = .ret s1 p) :
    (free_internal s1 p f1).state.bug = false := by
  have hr : (malloc_internal s size hp off).returned = true := by rw [hm]; rfl
  obtain ⟨_, hdiv, hroom⟩ := malloc_internal_region s size hp off hlt hsize hr
  obtain ⟨hp_eq, hs1⟩ := malloc_internal_ret s s1 size hp off p hm
  subst hp_eq
  have hW : WORD = 18446744073709551616 := rfl
  have hk := top_bits_lt p hlt
  obtain ⟨hfit, h16⟩ := region_arith p _ hk hlt hdiv
  have h0 : p ≠ 0 := by
    intro h
    rw [h] at hroom
    simp at hroom
  have hs1bug : s1.bug = false := by
    rw [hs1, poison_range_bug, (after_advise_fields s size p).1, hbug]
  have hs1valid : s1.valid p = true := by
    rw [hs1, poison_range_valid, after_advise_valid]
    have e : (p + size) % WORD = p + size := Nat.mod_eq_of_lt (by omega)
    simp only [e, Bool.or_eq_true, Bool.and_eq_true, decide_eq_true_eq]
    left
    omega
  have hmd : (p + (1 <<< ((p >>> 58) &&& 63)) % WORD + WORD - 2 * WSIZE) % WORD
      = p + 2 ^ (p / 2 ^ 58) - 16 := by
    rw [decode_malloc p hlt]
    simp only [WORD, WSIZE] at hfit ⊢
    omega
  have hs1po : s1.poisoned p = false := by
    cases hq : s1.poisoned p with
    | false => rfl
    | true =>
      exfalso
      rw [hs1] at hq
      rcases poison_range_poisoned _ _ _ _ _ hq with hq | ⟨ho, hq⟩
      · rw [(after_advise_fields s size p).2] at hq
        simp only [Bool.or_eq_true] at hq
        rcases hq with hq | hq
        · rw [hmd, Simple.in_word_iff _ _ (by simp only [WORD, WSIZE] at hfit ⊢; omega)] at hq
          omega
        · rw [hpo] at hq
          exact absurd hq (by simp)
      · rw [hmd] at ho
        have e : (p + size) % WORD = p + size := Nat.mod_eq_of_lt (by omega)
        rw [e] at ho hq
        have e2 : (p + size + off) % WORD = p + size + off := by
          simp only [WORD] at hfit ho ⊢
          omega
        rw [e2] at hq
        simp only [in_word, Bool.and_eq_true, decide_eq_true_eq, WORD, WSIZE] at hq
        simp only [WORD] at hfit ho
        omega
  rw [free_internal_eq s1 p f1 h0, poison_range_bug]
  have hc : decide (p % ((1 <<< (p >>> 58)) % WORD) ≠ 0) = false := by
    rw [decode_free p hlt, hdiv]
    rfl
  rw [hc]
  show (store8 s1 p 0).bug = false
  simp [store8, __cc_bug_if, hs1valid, hs1po, hs1bug]

/-- C13 (amended): for every request of a size with `size + 16 < 2 ^ 64` (a request
of size `0` only when the first byte of the region was not accessible before) that
`malloc` returns with pointer `p`, and every oracle behaviour for which the first
`free(p)` returns, the second `free(p)` (no allocation in between) flags a detected
bug: the second call itself calls `__cc_flag_bug`, for its store `*p = 0` hits a byte
that is inaccessible since the first `free`, and the bug flag is set afterwards.  When
the size is not `0`, no bug was flagged before the allocation and `p` was not
poisoned, no bug is flagged yet after the first `free`.  The second `free` does not
pass the allocation-marker word at `p + region_size - 16` to
`__cc_write_and_poison`. -/
theorem double_free_flags_bug (s : Machine) (size hp off f1 f2 : Nat)
    (hlt : hp < WORD) (hpos : 0 < size ∨ s.valid hp = false) (hsize : size + 16 < WORD)
    (hm : (malloc s size hp off).returned = true)
    (_hf : (free (malloc s size hp off).state hp f1).returned = true) :
    (malloc s size hp off).value = some hp ∧
    (∃ evs, (free (free (malloc s size hp off).state hp f1).state hp f2).state.log
        = evs ++ (free (malloc s size hp off).state hp f1).state.log ∧
      Event.flag_bug ∈ evs) ∧
    (free (free (malloc s size hp off).state hp f1).state hp f2).state.bug = true ∧
    (0 < size → s.bug = false → s.poisoned hp = false →
      (free (malloc s size hp off).state hp f1).state.bug = false) ∧
    ∀ v, Event.write_and_poison (hp + (1 <<< (hp >>> 58)) % WORD - 16) v ∈
        (free (free (malloc s size hp off).state hp f1).state hp f2).state.log →
      Event.write_and_poison (hp + (1 <<< (hp >>> 58)) % WORD - 16) v ∈
        (free (malloc s size hp off).state hp f1).state.log := by
  unfold malloc at hm ⊢
  unfold free
  obtain ⟨hval, hdiv, hroom⟩ := malloc_internal_region s size hp off hlt hsize hm
  have hret := Simple.outcome_eq_ret _ hp hval
  have hfirst : hp ≠ 0 ∧
      (free_internal (malloc_internal s size hp off).state hp f1).state.valid hp = false := by
    by_cases hz : 0 < size
    · exact malloc_free_first_byte s _ size hp off f1 hp hlt hz hsize hret
    · have hv0 : s.valid hp = false := hpos.resolve_left hz
      have e0 : size = 0 := by omega
      subst e0
      exact malloc_zero_free_first_byte s _ hp off f1 hp hlt hv0 hret
  obtain ⟨h0, hv⟩ := hfirst
  refine ⟨hval, free_internal_flags_bug _ hp f2 h0 hv,
    free_internal_bug_of_inaccessible _ hp f2 h0 hv, ?_, ?_⟩
  · intro hz hbug hpo
    exact malloc_free_no_bug s _ size hp off f1 hp hlt hz hsize hbug hpo hret
  intro v h
  rcases free_internal_log_mem _ hp f2 _ v h with h | h
  · exact h
  · exfalso
    obtain ⟨_, hw, _, ho, _⟩ := h
    have hk := top_bits_lt hp hlt
    obtain ⟨hfit, _⟩ := region_arith hp _ hk hlt hdiv
    rw [decode_free hp hlt] at hw ho
    generalize 2 ^ (hp / 2 ^ 58) = R at *
    simp only [WORD, WSIZE] at hw ho hfit hlt
    omega

theorem double_free_flags_bug_witness :
    1441151880758558720 < WORD ∧
    (0 < 1 ∨ (start_state fun _ => 0).valid 1441151880758558720 = false) ∧ 1 + 16 < WORD ∧
    (malloc (start_state fun _ => 0) 1 1441151880758558720 15).returned = true ∧
    (free (malloc (start_state fun _ => 0) 1 1441151880758558720 15).state
      1441151880758558720 8).returned = true ∧
    (free (malloc (start_state fun _ => 0) 1 1441151880758558720 15).state
      1441151880758558720 8).state.bug = false ∧
    (malloc (start_state fun _ => 0) 1 1441151880758558720 15).value
      = some 1441151880758558720 ∧
    (∃ evs, (free (free (malloc (start_state fun _ => 0) 1 1441151880758558720 15).state
          1441151880758558720 8).state 1441151880758558720 0).state.log
        = evs ++ (free (malloc (start_state fun _ => 0) 1 1441151880758558720 15).state
          1441151880758558720 8).state.log ∧
      Event.flag_bug ∈ evs) ∧
    (free (free (malloc (start_state fun _ => 0) 1 1441151880758558720 15).state
      1441151880758558720 8).state 1441151880758558720 0).state.bug = true ∧
    (0 < 1 → (start_state fun _ => 0).bug = false →
      (start_state fun _ => 0).poisoned 1441151880758558720 = false →
      (free (malloc (start_state fun _ => 0) 1 1441151880758558720 15).state
        1441151880758558720 8).state.bug = false) ∧
    ∀ v, Event.write_and_poison
        (1441151880758558720 + (1 <<< (1441151880758558720 >>> 58)) % WORD - 16) v ∈
        (free (free (malloc (start_state fun _ => 0) 1 1441151880758558720 15).state
          1441151880758558720 8).state 1441151880758558720 0).state.log →
      Event.write_and_poison
        (1441151880758558720 + (1 <<< (1441151880758558720 >>> 58)) % WORD - 16) v ∈
        (free (malloc (start_state fun _ => 0) 1 1441151880758558720 15).state
          1441151880758558720 8).state.log :=
  ⟨by decide, by decide, by decide, by decide, by decide, by decide,
    double_free_flags_bug (start_state fun _ => 0) 1 1441151880758558720 15 8 0
      (by decide) (by decide) (by decide) (by decide) (by decide)⟩

/-- C13 (counterexample): `p = malloc(1)` returns a region of 32 bytes; the oracle
answers out of range in both calls of `free(p)`.  The second `free(p)` returns and
the trace is still valid (a bug is flagged); the only `__cc_write_and_poison` call on
record is the one of `malloc` on the allocation marker. -/
theorem double_free_leaves_trace_valid :
    (malloc (start_state fun _ => 0) 1 1441151880758558720 15).value
      = some 1441151880758558720 ∧
    (free (malloc (start_state fun _ => 0) 1 1441151880758558720 15).state
      1441151880758558720 16).returned = true ∧
    (free (free (malloc (start_state fun _ => 0) 1 1441151880758558720 15).state
      1441151880758558720 16).state 1441151880758558720 16).returned = true ∧
    (free (free (malloc (start_state fun _ => 0) 1 1441151880758558720 15).state
      1441151880758558720 16).state 1441151880758558720 16).state.invalid = false ∧
    (free (free (malloc (start_state fun _ => 0) 1 1441151880758558720 15).state
      1441151880758558720 16).state 1441151880758558720 16).state.bug = true ∧
    ((free (free (malloc (start_state fun _ => 0) 1 1441151880758558720 15).state
      1441151880758558720 16).state 1441151880758558720 16).state.log.filter
        fun e => match e with
          | Event.write_and_poison _ _ => true
          | _ => false)
      = [Event.write_and_poison 1441151880758558736 1] := by
  refine ⟨by decide, by decide, by decide, by decide, by decide, by decide⟩

end Full

namespace Simple

theorem init_pos_log_mem (s : Machine) (w v : Nat)
    (h : Event.write_and_poison w v ∈ (init_pos s).log) :
    Event.write_and_poison w v ∈ s.log := by
  unfold init_pos at h
  split at h
  · simp only [__cc_malloc_init, mmap_fixed, List.mem_cons] at h
    exact h.resolve_left (by simp)
  · exact h

theorem pre_poison_log_mem (s : Machine) (al size w v : Nat)
    (h : Event.write_and_poison w v ∈ (pre_poison s al size).log) :
    Event.write_and_poison w v ∈ s.log := by
  simp only [pre_poison, __cc_write_unchecked, __cc_access_valid, List.mem_cons] at h
  rcases h with h | h | h | h
  · exact absurd h (by simp)
  · exact absurd h (by simp)
  · exact absurd h (by simp)
  · exact init_pos_log_mem s w v h

/-- The only word that the poisoning step of `posix_memalign` passes to
`__cc_write_and_poison` is the one the oracle named. -/
theorem poison_padding_log_mem (s : Machine) (ps off w v : Nat)
    (h : Event.write_and_poison w v ∈ (poison_padding s ps off).state.log) :
    Event.write_and_poison w v ∈ s.log ∨
      (w = (ps + off) % WORD ∧ v = 0 ∧ off < MALLOC_PADDING ∧ (ps + off) % WORD % WSIZE = 0) := by
  rw [poison_padding_cases] at h
  split_ifs at h with h1 h2 h3
  · simp only [Outcome.state, List.mem_cons, Event.write_and_poison.injEq] at h
    rcases h with h | h | h
    · exact absurd h (by simp)
    · exact Or.inr ⟨h.1, h.2, h1, h2⟩
    · exact Or.inl h
  · simp only [Outcome.state, List.mem_cons, Event.write_and_poison.injEq] at h
    rcases h with h | h
    · exact Or.inr ⟨h.1, h.2, h1, h2⟩
    · exact Or.inl h
  · simp only [Outcome.state, List.mem_cons] at h
    rcases h with h | h
    · exact absurd h (by simp)
    · exact Or.inl h
  · exact Or.inl h

/-- C18 (amended): when the cursor arithmetic of the call does not wrap, every word
that `posix_memalign` passes to `__cc_write_and_poison` is the oracle's word
`poison = padding_start + offset` with `offset < 64`, written with `0`, word-aligned,
and it starts within the 64-byte padding: `padding_start ≤ poison < padding_start +
64`.  Its end satisfies `poison + 8 ≤ padding_start + 71`, and
`poison + 8 ≤ padding_start + 64` when `padding_start` is a multiple of 8.  Every
byte the call poisons lies in that one word, and nothing is poisoned and no
`__cc_write_and_poison` call is made when the offset is at least 64. -/
theorem poison_word_near_padding (s : Machine) (al size off : Nat)
    (hfit : fits s al size = true) :
    (∀ w v, Event.write_and_poison w v ∈ (posix_memalign s al size off).state.log →
      Event.write_and_poison w v ∈ s.log ∨
      (off < MALLOC_PADDING ∧ v = 0 ∧ w = next_base s al + size + off ∧ w % WSIZE = 0 ∧
        next_base s al + size ≤ w ∧ w < next_base s al + size + MALLOC_PADDING ∧
        w + WSIZE ≤ next_base s al + size + MALLOC_PADDING + 7 ∧
        ((next_base s al + size) % WSIZE = 0 →
          w + WSIZE ≤ next_base s al + size + MALLOC_PADDING))) ∧
    (∀ x, (posix_memalign s al size off).state.poisoned x = true →
      s.poisoned x = true ∨
      (off < MALLOC_PADDING ∧ next_base s al + size + off ≤ x ∧
        x < next_base s al + size + off + WSIZE)) ∧
    (MALLOC_PADDING ≤ off →
      (posix_memalign s al size off).state.poisoned = s.poisoned ∧
      ∀ w v, Event.write_and_poison w v ∈ (posix_memalign s al size off).state.log →
        Event.write_and_poison w v ∈ s.log) := by
  have hb := fits_bounds s al size hfit
  have hW : WORD = 18446744073709551616 := rfl
  have hS : WSIZE = 8 := rfl
  have hM : MALLOC_PADDING = 64 := rfl
  have e1 : (next_base s al + size) % WORD = next_base s al + size :=
    Nat.mod_eq_of_lt (by omega)
  have hlog : ∀ w v, Event.write_and_poison w v ∈ (posix_memalign s al size off).state.log →
      Event.write_and_poison w v ∈ s.log ∨
      (w = (next_base s al + size + off) % WORD ∧ v = 0 ∧ off < MALLOC_PADDING ∧
        (next_base s al + size + off) % WORD % WSIZE = 0) := by
    intro w v h
    rw [posix_memalign_state, e1] at h
    rcases poison_padding_log_mem _ _ _ _ _ h with h | h
    · exact Or.inl (pre_poison_log_mem s al size w v h)
    · exact Or.inr h
  refine ⟨?_, ?_, ?_⟩
  · intro w v h
    rcases hlog w v h with h | ⟨hw, hv, ho, ha⟩
    · exact Or.inl h
    · have e2 : (next_base s al + size + off) % WORD = next_base s al + size + off :=
        Nat.mod_eq_of_lt (by omega)
      rw [e2] at hw ha
      subst hw
      refine Or.inr ⟨ho, hv, rfl, ha, ?_, ?_, ?_, ?_⟩
      · omega
      · omega
      · omega
      · intro hps
        simp only [WSIZE, MALLOC_PADDING] at hps ha ho ⊢
        omega
  · intro x hx
    rw [posix_memalign_poisoned_eq, e1] at hx
    split_ifs at hx with hc
    · simp only [Bool.or_eq_true] at hx
      rcases hx with hx | hx
      · have e2 : (next_base s al + size + off) % WORD = next_base s al + size + off :=
          Nat.mod_eq_of_lt (by omega)
        have ha := hc.2.1
        rw [e2] at hx ha
        have hle : next_base s al + size + off + WSIZE ≤ WORD := by
          simp only [WSIZE, MALLOC_PADDING] at ha hb ⊢
          omega
        rw [in_word_iff _ _ hle] at hx
        exact Or.inr ⟨hc.1, hx.1, hx.2⟩
      · exact Or.inl hx
    · exact Or.inl hx
  · intro ho
    constructor
    · rw [posix_memalign_poisoned_eq, if_neg]
      intro hc
      omega
    · intro w v h
      rcases hlog w v h with h | h
      · exact h
      · omega

theorem poison_word_near_padding_witness :
    fits (start_state fun _ => 0) 16 1 = true ∧
    Event.write_and_poison 4294967376 0 ∈
      (posix_memalign (start_state fun _ => 0) 16 1 63).state.log ∧
    ((∀ w v, Event.write_and_poison w v ∈
        (posix_memalign (start_state fun _ => 0) 16 1 63).state.log →
      Event.write_and_poison w v ∈ (start_state fun _ => 0).log ∨
      (63 < MALLOC_PADDING ∧ v = 0 ∧ w = next_base (start_state fun _ => 0) 16 + 1 + 63 ∧
        w % WSIZE = 0 ∧
        next_base (start_state fun _ => 0) 16 + 1 ≤ w ∧
        w < next_base (start_state fun _ => 0) 16 + 1 + MALLOC_PADDING ∧
        w + WSIZE ≤ next_base (start_state fun _ => 0) 16 + 1 + MALLOC_PADDING + 7 ∧
        ((next_base (start_state fun _ => 0) 16 + 1) % WSIZE = 0 →
          w + WSIZE ≤ next_base (start_state fun _ => 0) 16 + 1 + MALLOC_PADDING))) ∧
    (∀ x, (posix_memalign (start_state fun _ => 0) 16 1 63).state.poisoned x = true →
      (start_state fun _ => 0).poisoned x = true ∨
      (63 < MALLOC_PADDING ∧ next_base (start_state fun _ => 0) 16 + 1 + 63 ≤ x ∧
        x < next_base (start_state fun _ => 0) 16 + 1 + 63 + WSIZE)) ∧
    (MALLOC_PADDING ≤ 63 →
      (posix_memalign (start_state fun _ => 0) 16 1 63).state.poisoned
        = (start_state fun _ => 0).poisoned ∧
      ∀ w v, Event.write_and_poison w v ∈
          (posix_memalign (start_state fun _ => 0) 16 1 63).state.log →
        Event.write_and_poison w v ∈ (start_state fun _ => 0).log)) :=
  ⟨by decide, by decide, poison_word_near_padding (start_state fun _ => 0) 16 1 63 (by decide)⟩

/-- C18 (counterexample): from the start of a process `malloc(1)` has its padding at
`0x100000011`; the oracle answers 63, the word at `0x100000050` is word-aligned and
is poisoned, and it ends 7 bytes past the end `0x100000051` of the padding.  For
`malloc(2 ^ 64 - 0x100000030)` the padding starts at `2 ^ 64 - 32`; the oracle
answers 32, the address wraps and the word at address `0`, below the padding, is
poisoned. -/
theorem poison_word_overhangs_padding :
    (malloc (start_state fun _ => 0) 1 63).returned = true ∧
    (malloc (start_state fun _ => 0) 1 63).value = some 4294967312 ∧
    (malloc (start_state fun _ => 0) 1 63).state.log.head?
      = some (Event.write_and_poison 4294967376 0) ∧
    Event.advise_poison_offset 4294967313 64 ∈ (malloc (start_state fun _ => 0) 1 63).state.log ∧
    (malloc (start_state fun _ => 0) 1 63).state.poisoned 4294967383 = true ∧
    ¬ (4294967376 + 8 ≤ 4294967313 + 64) ∧
    (malloc (start_state fun _ => 0) 18446744069414584272 32).returned = true ∧
    (malloc (start_state fun _ => 0) 18446744069414584272 32).state.log.head?
      = some (Event.write_and_poison 0 0) ∧
    Event.advise_poison_offset 18446744073709551584 64 ∈
      (malloc (start_state fun _ => 0) 18446744069414584272 32).state.log ∧
    ¬ (18446744073709551584 ≤ 0) := by
  refine ⟨by decide, by decide, by decide, by decide, by decide, by decide, by decide,
    by decide, by decide, by decide⟩

end Simple

/-- The backward byte loop copies `n` bytes when the ranges do not wrap around the
address space and the source does not start inside the destination after its
start. -/
theorem memmove_back_loop_spec (n : Nat) : ∀ (mem : Nat → Nat) (dest src : Nat),
    dest + n ≤ WORD → src + n ≤ WORD → (src ≤ dest ∨ dest + n ≤ src) →
    (∀ i, i < n →
      memmove_back_loop n mem ((dest + n) % WORD) ((src + n) % WORD) (dest + i)
        = mem (src + i)) ∧
      ∀ x, (x < dest ∨ dest + n ≤ x) →
        memmove_back_loop n mem ((dest + n) % WORD) ((src + n) % WORD) x = mem x := by
  induction n with
  | zero =>
    intro mem dest src _ _ _
    exact ⟨fun i hi => absurd hi (Nat.not_lt_zero i), fun x _ => rfl⟩
  | succ n ih =>
    intro mem dest src hd hs ho
    have hW : WORD = 18446744073709551616 := rfl
    have e1 : (if (dest + (n + 1)) % WORD = 0 then WORD - 1 else (dest + (n + 1)) % WORD - 1)
        = (dest + n) % WORD := by
      simp only [WORD]
      split <;> omega
    have e2 : (if (src + (n + 1)) % WORD = 0 then WORD - 1 else (src + (n + 1)) % WORD - 1)
        = (src + n) % WORD := by
      simp only [WORD]
      split <;> omega
    have e3 : (dest + n) % WORD = dest + n := Nat.mod_eq_of_lt (by omega)
    have e4 : (src + n) % WORD = src + n := Nat.mod_eq_of_lt (by omega)
    unfold memmove_back_loop
    rw [e1, e2]
    obtain ⟨h1, h2⟩ := ih (store_byte mem ((dest + n) % WORD) (mem ((src + n) % WORD)))
      dest src (by omega) (by omega) (by omega)
    refine ⟨?_, ?_⟩
    · intro i hi
      by_cases hin : i = n
      · subst hin
        rw [h2 (dest + i) (by omega), e3, e4]
        simp [store_byte]
      · rw [h1 i (by omega), e3, e4]
        have hne : src + i ≠ dest + n := by omega
        simp only [store_byte, if_neg hne]
    · intro x hx
      rw [h2 x (by omega), e3, e4]
      have hne : x ≠ dest + n := by omega
      simp only [store_byte, if_neg hne]

/-- C15: for every byte memory and every `dest`, `src`, `len` with `dest + len` and
`src + len` not beyond `2 ^ 64`, after `__llvm__memmove__p0i8__p0i8__i64(dest, src,
len)` the byte at `dest + i` is the byte that was at `src + i` before the call, for
every `i < len`, whether or not the ranges overlap, and every byte outside
`[dest, dest + len)` is unchanged. -/
theorem memmove_copies_overlapping (mem : Nat → Nat) (dest src len : Nat)
    (hd : dest + len ≤ WORD) (hs : src + len ≤ WORD) :
    (∀ i, i < len → __llvm__memmove__p0i8__p0i8__i64 mem dest src len (dest + i)
        = mem (src + i)) ∧
      ∀ x, (x < dest ∨ dest + len ≤ x) →
        __llvm__memmove__p0i8__p0i8__i64 mem dest src len x = mem x := by
  unfold __llvm__memmove__p0i8__p0i8__i64
  split_ifs with h
  · exact Simple.memcpy_loop_spec len mem dest src hd hs (Or.inl h)
  · exact memmove_back_loop_spec len mem dest src hd hs (Or.inl (by omega))

theorem memmove_copies_overlapping_witness :
    10 + 4 ≤ WORD ∧ 8 + 4 ≤ WORD ∧
    ((∀ i, i < 4 → __llvm__memmove__p0i8__p0i8__i64 (fun x => x) 10 8 4 (10 + i)
        = (fun x => x) (8 + i)) ∧
      ∀ x, (x < 10 ∨ 10 + 4 ≤ x) →
        __llvm__memmove__p0i8__p0i8__i64 (fun x => x) 10 8 4 x = (fun x => x) x) :=
  ⟨by decide, by decide, memmove_copies_overlapping (fun x => x) 10 8 4 (by decide) (by decide)⟩

/-- The conjunction of two numbers splits at bit `k`. -/
theorem and_split (k a c m0 m1 : Nat) (ha : a < 2 ^ k) (hm : m0 < 2 ^ k) :
    (2 ^ k * c + a) &&& (2 ^ k * m1 + m0) = 2 ^ k * (c &&& m1) + (a &&& m0) := by
  apply Nat.eq_of_testBit_eq
  intro j
  have hlt : a &&& m0 < 2 ^ k := Nat.and_lt_two_pow _ hm
  rw [Nat.testBit_and, Nat.testBit_mul_pow_two_add _ ha, Nat.testBit_mul_pow_two_add _ hm,
    Nat.testBit_mul_pow_two_add _ hlt]
  split_ifs <;> simp [Nat.testBit_and]

/-- The conjunction of two 32-bit numbers, byte by byte. -/
theorem and_bytes (b0 b1 b2 b3 m0 m1 m2 m3 : Nat)
    (h0 : b0 < 256) (h1 : b1 < 256) (h2 : b2 < 256)
    (g0 : m0 < 256) (g1 : m1 < 256) (g2 : m2 < 256) :
    (b0 + 256 * b1 + 65536 * b2 + 16777216 * b3) &&&
        (m0 + 256 * m1 + 65536 * m2 + 16777216 * m3)
      = (b0 &&& m0) + 256 * (b1 &&& m1) + 65536 * (b2 &&& m2) + 16777216 * (b3 &&& m3) := by
  have e : ∀ x0 x1 x2 x3 : Nat, x0 + 256 * x1 + 65536 * x2 + 16777216 * x3
      = 2 ^ 8 * (2 ^ 8 * (2 ^ 8 * x3 + x2) + x1) + x0 := by
    intro x0 x1 x2 x3
    norm_num
    omega
  rw [e b0, e m0, e (b0 &&& m0)]
  rw [and_split 8 b0 _ m0 _ (by norm_num; exact h0) (by norm_num; exact g0),
    and_split 8 b1 _ m1 _ (by norm_num; exact h1) (by norm_num; exact g1),
    and_split 8 b2 _ m2 _ (by norm_num; exact h2) (by norm_num; exact g2)]

/-- The bytes of a 32-bit number. -/
theorem bytes_of (x : Nat) (h : x < U32) :
    x = x % 256 + 256 * (x / 256 % 256) + 65536 * (x / 65536 % 256)
      + 16777216 * (x / 16777216) ∧ x / 16777216 < 256 := by
  simp only [U32] at h
  omega
/-- The number of bits set among the lowest `n + 1` bits: the lowest bit, and the bits
set among the lowest `n` bits of the rest. -/
theorem count_bits_succ (n x : Nat) :
    ((List.range (n + 1)).countP fun i => x.testBit i)
      = x % 2 + (List.range n).countP fun i => (x / 2).testBit i := by
  rw [List.range_succ_eq_map, List.countP_cons, List.countP_map]
  have e : ((fun i => x.testBit i) ∘ Nat.succ) = fun i => (x / 2).testBit i := by
    funext i
    simp only [Function.comp, Nat.succ_eq_add_one, Nat.testBit_succ]
  rw [e, Nat.testBit_zero]
  rcases Nat.mod_two_eq_zero_or_one x with h | h
  · simp [h]
  · simp [h]
    omega

theorem count_bits_add (m : Nat) : ∀ (n x : Nat),
    ((List.range (m + n)).countP fun i => x.testBit i)
      = ((List.range m).countP fun i => x.testBit i)
        + (List.range n).countP fun i => (x / 2 ^ m).testBit i := by
  induction m with
  | zero => intro n x; simp
  | succ m ih =>
    intro n x
    have e : m + 1 + n = (m + n) + 1 := by omega
    rw [e, count_bits_succ, count_bits_succ, ih n (x / 2), Nat.div_div_eq_div_mul,
      Nat.pow_succ, Nat.mul_comm (2 ^ m) 2]
    omega

theorem count_bits_mod (n x : Nat) :
    ((List.range n).countP fun i => (x % 2 ^ n).testBit i)
      = (List.range n).countP fun i => x.testBit i := by
  apply List.countP_congr
  intro i hi
  rw [List.mem_range] at hi
  simp [Nat.testBit_mod_two_pow, hi]

/-- The bits set in a 32-bit number are the bits set in its four bytes. -/
theorem bits_set_bytes (x : Nat) :
    bits_set x = ((List.range 8).countP fun i => (x % 256).testBit i)
      + ((List.range 8).countP fun i => (x / 256 % 256).testBit i)
      + ((List.range 8).countP fun i => (x / 65536 % 256).testBit i)
      + ((List.range 8).countP fun i => (x / 16777216 % 256).testBit i) := by
  unfold bits_set
  have e : (32 : Nat) = 8 + (8 + (8 + 8)) := rfl
  have h8 : (256 : Nat) = 2 ^ 8 := by norm_num
  have h16 : x / 65536 = x / 2 ^ 8 / 2 ^ 8 := by
    rw [Nat.div_div_eq_div_mul]
    norm_num
  have h24 : x / 16777216 = x / 2 ^ 8 / 2 ^ 8 / 2 ^ 8 := by
    rw [Nat.div_div_eq_div_mul, Nat.div_div_eq_div_mul]
    norm_num
  rw [e, count_bits_add 8, count_bits_add 8, count_bits_add 8, h16, h24, h8,
    count_bits_mod 8 x, count_bits_mod 8 (x / 2 ^ 8), count_bits_mod 8 (x / 2 ^ 8 / 2 ^ 8),
    count_bits_mod 8 (x / 2 ^ 8 / 2 ^ 8 / 2 ^ 8)]
  omega
set_option maxRecDepth 100000 in
theorem byte_round1 : ∀ b, b < 256 →
    (b &&& 170) % 2 ^ 1 = 0 ∧ ctpop_sum b 85 170 1 < 256 := by
  decide

set_option maxRecDepth 100000 in
theorem byte_round2 : ∀ b, b < 256 →
    (b &&& 204) % 2 ^ 2 = 0 ∧ ctpop_sum b 51 204 2 < 256 := by
  decide

set_option maxRecDepth 100000 in
theorem byte_round3 : ∀ b, b < 256 →
    (b &&& 240) % 2 ^ 4 = 0 ∧ ctpop_sum b 15 240 4 < 256 := by
  decide

set_option maxRecDepth 100000 in
/-- Three rounds count the bits of a byte. -/
theorem byte_rounds : ∀ b, b < 256 →
    ctpop_sum (ctpop_sum (ctpop_sum b 85 170 1) 51 204 2) 15 240 4
      = ((List.range 8).countP fun i => b.testBit i) ∧
    ctpop_sum (ctpop_sum (ctpop_sum b 85 170 1) 51 204 2) 15 240 4 ≤ 8 := by
  decide

/-- A round whose masks repeat in every byte and whose shift stays within the byte
acts on each byte separately. -/
theorem ctpop_sum_bytes (sh l h b0 b1 b2 b3 : Nat)
    (h0 : b0 < 256) (h1 : b1 < 256) (h2 : b2 < 256) (hl : l < 256) (hh : h < 256)
    (d0 : (b0 &&& h) % 2 ^ sh = 0) (d1 : (b1 &&& h) % 2 ^ sh = 0)
    (d2 : (b2 &&& h) % 2 ^ sh = 0) (d3 : (b3 &&& h) % 2 ^ sh = 0) :
    ctpop_sum (b0 + 256 * b1 + 65536 * b2 + 16777216 * b3)
        (l + 256 * l + 65536 * l + 16777216 * l) (h + 256 * h + 65536 * h + 16777216 * h) sh
      = ctpop_sum b0 l h sh + 256 * ctpop_sum b1 l h sh + 65536 * ctpop_sum b2 l h sh
        + 16777216 * ctpop_sum b3 l h sh := by
  unfold ctpop_sum
  rw [and_bytes _ _ _ _ _ _ _ _ h0 h1 h2 hl hl hl, and_bytes _ _ _ _ _ _ _ _ h0 h1 h2 hh hh hh]
  simp only [Nat.shiftRight_eq_div_pow]
  obtain ⟨z0, e0⟩ := Nat.dvd_of_mod_eq_zero d0
  obtain ⟨z1, e1⟩ := Nat.dvd_of_mod_eq_zero d1
  obtain ⟨z2, e2⟩ := Nat.dvd_of_mod_eq_zero d2
  obtain ⟨z3, e3⟩ := Nat.dvd_of_mod_eq_zero d3
  have hp : 0 < 2 ^ sh := Nat.pow_pos (by norm_num)
  have e : 2 ^ sh * z0 + 256 * (2 ^ sh * z1) + 65536 * (2 ^ sh * z2)
      + 16777216 * (2 ^ sh * z3)
      = 2 ^ sh * (z0 + 256 * z1 + 65536 * z2 + 16777216 * z3) := by ring
  rw [e0, e1, e2, e3, e, Nat.mul_div_cancel_left _ hp, Nat.mul_div_cancel_left _ hp,
    Nat.mul_div_cancel_left _ hp, Nat.mul_div_cancel_left _ hp, Nat.mul_div_cancel_left _ hp]
  ring
theorem and_255 (e : Nat) (h : e < 256) : e &&& 255 = e := by
  have h1 : e &&& 255 = e % 256 := Nat.and_pow_two_sub_one_eq_mod e 8
  rw [h1, Nat.mod_eq_of_lt h]

/-- The fourth round adds neighbouring bytes. -/
theorem ctpop_sum_round4 (e0 e1 e2 e3 : Nat)
    (h0 : e0 < 256) (h1 : e1 < 256) (h2 : e2 < 256) (h3 : e3 < 256) :
    ctpop_sum (e0 + 256 * e1 + 65536 * e2 + 16777216 * e3) 0x00ff00ff 0xff00ff00 8
      = (e0 + e1) + 65536 * (e2 + e3) := by
  unfold ctpop_sum
  have m1 : (0x00ff00ff : Nat) = 255 + 256 * 0 + 65536 * 255 + 16777216 * 0 := by norm_num
  have m2 : (0xff00ff00 : Nat) = 0 + 256 * 255 + 65536 * 0 + 16777216 * 255 := by norm_num
  rw [m1, m2, and_bytes _ _ _ _ _ _ _ _ h0 h1 h2 (by norm_num) (by norm_num) (by norm_num),
    and_bytes _ _ _ _ _ _ _ _ h0 h1 h2 (by norm_num) (by norm_num) (by norm_num),
    and_255 e0 h0, and_255 e1 h1, and_255 e2 h2, and_255 e3 h3]
  simp only [Nat.and_zero, Nat.shiftRight_eq_div_pow]
  norm_num
  omega

/-- The fifth round adds the two halves. -/
theorem ctpop_sum_round5 (f0 f2 : Nat) (h0 : f0 < 256) (h2 : f2 < 256) :
    ctpop_sum (f0 + 65536 * f2) 0x0000ffff 0xffff0000 16 = f0 + f2 := by
  unfold ctpop_sum
  have m1 : (0x0000ffff : Nat) = 255 + 256 * 255 + 65536 * 0 + 16777216 * 0 := by norm_num
  have m2 : (0xffff0000 : Nat) = 0 + 256 * 0 + 65536 * 255 + 16777216 * 255 := by norm_num
  have ex : f0 + 65536 * f2 = f0 + 256 * 0 + 65536 * f2 + 16777216 * 0 := by omega
  rw [ex, m1, m2,
    and_bytes _ _ _ _ _ _ _ _ h0 (by norm_num) h2 (by norm_num) (by norm_num) (by norm_num),
    and_bytes _ _ _ _ _ _ _ _ h0 (by norm_num) h2 (by norm_num) (by norm_num) (by norm_num),
    and_255 f0 h0, and_255 f2 h2]
  simp only [Nat.and_zero, Nat.zero_and, Nat.shiftRight_eq_div_pow]
  norm_num

/-- The five sums of `__llvm__ctpop__i32`, given the bytes after each of the first
three rounds. -/
theorem ctpop_chain (x c0 c1 c2 c3 d0 d1 d2 d3 e0 e1 e2 e3 : Nat)
    (hc : ctpop_sum x 0x55555555 0xaaaaaaaa 1 = c0 + 256 * c1 + 65536 * c2 + 16777216 * c3)
    (hc0 : c0 < 256) (hc1 : c1 < 256) (hc2 : c2 < 256) (hc3 : c3 < 256)
    (hd : ctpop_sum (c0 + 256 * c1 + 65536 * c2 + 16777216 * c3) 0x33333333 0xcccccccc 2
      = d0 + 256 * d1 + 65536 * d2 + 16777216 * d3)
    (hd0 : d0 < 256) (hd1 : d1 < 256) (hd2 : d2 < 256) (hd3 : d3 < 256)
    (he : ctpop_sum (d0 + 256 * d1 + 65536 * d2 + 16777216 * d3) 0x0f0f0f0f 0xf0f0f0f0 4
      = e0 + 256 * e1 + 65536 * e2 + 16777216 * e3)
    (he0 : e0 ≤ 8) (he1 : e1 ≤ 8) (he2 : e2 ≤ 8) (he3 : e3 ≤ 8) :
    (∀ t ∈ ctpop_sums x, t < U32) ∧ __llvm__ctpop__i32 x = e0 + e1 + e2 + e3 := by
  have hU : U32 = 4294967296 := rfl
  have r4 := ctpop_sum_round4 e0 e1 e2 e3 (by omega) (by omega) (by omega) (by omega)
  have r5 := ctpop_sum_round5 (e0 + e1) (e2 + e3) (by omega) (by omega)
  have k1 : (c0 + 256 * c1 + 65536 * c2 + 16777216 * c3) % U32
      = c0 + 256 * c1 + 65536 * c2 + 16777216 * c3 := Nat.mod_eq_of_lt (by omega)
  have k2 : (d0 + 256 * d1 + 65536 * d2 + 16777216 * d3) % U32
      = d0 + 256 * d1 + 65536 * d2 + 16777216 * d3 := Nat.mod_eq_of_lt (by omega)
  have k3 : (e0 + 256 * e1 + 65536 * e2 + 16777216 * e3) % U32
      = e0 + 256 * e1 + 65536 * e2 + 16777216 * e3 := Nat.mod_eq_of_lt (by omega)
  have k4 : (e0 + e1 + 65536 * (e2 + e3)) % U32 = e0 + e1 + 65536 * (e2 + e3) :=
    Nat.mod_eq_of_lt (by omega)
  have k5 : (e0 + e1 + (e2 + e3)) % U32 = e0 + e1 + (e2 + e3) :=
    Nat.mod_eq_of_lt (by omega)
  constructor
  · intro t ht
    simp only [ctpop_sums, List.mem_cons, List.mem_singleton, List.not_mem_nil,
      or_false] at ht
    rw [hc, k1, hd, k2, he, k3, r4, k4, r5] at ht
    omega
  · simp only [__llvm__ctpop__i32]
    rw [hc, k1, hd, k2, he, k3, r4, k4, r5, k5]
    omega

/-- The five sums of `__llvm__ctpop__i32` on a number given by its bytes. -/
theorem ctpop_sums_bytes (b0 b1 b2 b3 : Nat)
    (h0 : b0 < 256) (h1 : b1 < 256) (h2 : b2 < 256) (h3 : b3 < 256) :
    (∀ t ∈ ctpop_sums (b0 + 256 * b1 + 65536 * b2 + 16777216 * b3), t < U32) ∧
    __llvm__ctpop__i32 (b0 + 256 * b1 + 65536 * b2 + 16777216 * b3)
      = ((List.range 8).countP fun i => b0.testBit i)
        + ((List.range 8).countP fun i => b1.testBit i)
        + ((List.range 8).countP fun i => b2.testBit i)
        + ((List.range 8).countP fun i => b3.testBit i) ∧
    __llvm__ctpop__i32 (b0 + 256 * b1 + 65536 * b2 + 16777216 * b3) ≤ 32 := by
  have c0 := (byte_round1 b0 h0).2
  have c1 := (byte_round1 b1 h1).2
  have c2 := (byte_round1 b2 h2).2
  have c3 := (byte_round1 b3 h3).2
  have d0 := (byte_round2 _ c0).2
  have d1 := (byte_round2 _ c1).2
  have d2 := (byte_round2 _ c2).2
  have d3 := (byte_round2 _ c3).2
  obtain ⟨q0, p0⟩ := byte_rounds b0 h0
  obtain ⟨q1, p1⟩ := byte_rounds b1 h1
  obtain ⟨q2, p2⟩ := byte_rounds b2 h2
  obtain ⟨q3, p3⟩ := byte_rounds b3 h3
  obtain ⟨a1, a2⟩ := ctpop_chain (b0 + 256 * b1 + 65536 * b2 + 16777216 * b3)
    _ _ _ _ _ _ _ _ _ _ _ _
    (ctpop_sum_bytes 1 85 170 b0 b1 b2 b3 h0 h1 h2 (by norm_num) (by norm_num)
      (byte_round1 b0 h0).1 (byte_round1 b1 h1).1 (byte_round1 b2 h2).1 (byte_round1 b3 h3).1)
    c0 c1 c2 c3
    (ctpop_sum_bytes 2 51 204 _ _ _ _ c0 c1 c2 (by norm_num) (by norm_num)
      (byte_round2 _ c0).1 (byte_round2 _ c1).1 (byte_round2 _ c2).1 (byte_round2 _ c3).1)
    d0 d1 d2 d3
    (ctpop_sum_bytes 4 15 240 _ _ _ _ d0 d1 d2 (by norm_num) (by norm_num)
      (byte_round3 _ d0).1 (byte_round3 _ d1).1 (byte_round3 _ d2).1 (byte_round3 _ d3).1)
    p0 p1 p2 p3
  refine ⟨a1, ?_, ?_⟩
  · rw [a2, q0, q1, q2, q3]
  · rw [a2]
    omega

/-- C16: for every 32-bit `x`, `__llvm__ctpop__i32(x)` is the number of bits set to 1
in `x`, a value between 0 and 32, and none of the five sums, computed modulo
`2 ^ 32`, overflows. -/
theorem ctpop_counts_set_bits (x : Nat) (hx : x < U32) :
    __llvm__ctpop__i32 x = bits_set x ∧ __llvm__ctpop__i32 x ≤ 32 ∧
      ∀ t ∈ ctpop_sums x, t < U32 := by
  obtain ⟨hxb, h3⟩ := bytes_of x hx
  have hb := bits_set_bytes x
  rw [Nat.mod_eq_of_lt h3] at hb
  have h0 : x % 256 < 256 := Nat.mod_lt _ (by norm_num)
  have h1 : x / 256 % 256 < 256 := Nat.mod_lt _ (by norm_num)
  have h2 : x / 65536 % 256 < 256 := Nat.mod_lt _ (by norm_num)
  obtain ⟨a1, a2, a3⟩ := ctpop_sums_bytes _ _ _ _ h0 h1 h2 h3
  rw [← hxb] at a1 a2 a3
  exact ⟨by rw [a2, hb], a3, a1⟩

theorem ctpop_counts_set_bits_witness :
    (4042322161 : Nat) < U32 ∧
    (__llvm__ctpop__i32 4042322161 = bits_set 4042322161 ∧ __llvm__ctpop__i32 4042322161 ≤ 32 ∧
      ∀ t ∈ ctpop_sums 4042322161, t < U32) ∧
    __llvm__ctpop__i32 4042322161 = 17 :=
  ⟨by decide, ctpop_counts_set_bits 4042322161 (by decide), by decide⟩

namespace Simple

/-- The forward byte loop changes no byte outside the destination range. -/
theorem memcpy_loop_frame (n : Nat) : ∀ (mem : Nat → Nat) (dest src : Nat),
    dest + n ≤ WORD → ∀ x, (x < dest ∨ dest + n ≤ x) →
      memcpy_loop n mem dest src x = mem x := by
  induction n with
  | zero => intro mem dest src _ x _; rfl
  | succ n ih =>
    intro mem dest src hd x hx
    unfold memcpy_loop
    cases n with
    | zero =>
      have : x ≠ dest := by omega
      simp [memcpy_loop, store_byte, this]
    | succ m =>
      have e1 : (dest + 1) % WORD = dest + 1 := Nat.mod_eq_of_lt (by omega)
      rw [e1, ih _ (dest + 1) _ (by omega) x (by omega)]
      have : x ≠ dest := by omega
      simp [store_byte, this]

theorem poison_padding_mem_eq (s : Machine) (ps off : Nat) :
    (poison_padding s ps off).state.mem =
      if off < MALLOC_PADDING ∧ (ps + off) % WORD % WSIZE = 0 ∧
          word_poisoned s ((ps + off) % WORD) = false then
        write_word s.mem ((ps + off) % WORD) 0
      else s.mem := by
  rw [poison_padding_cases]
  split_ifs <;> simp_all [Outcome.state]

/-- The memory after `posix_memalign`: the header word is written, then the oracle's
word if the poisoning goes through. -/
theorem posix_memalign_mem_eq (s : Machine) (al size off : Nat) :
    (posix_memalign s al size off).state.mem =
      if off < MALLOC_PADDING ∧ ((next_base s al + size) % WORD + off) % WORD % WSIZE = 0 ∧
          word_poisoned s (((next_base s al + size) % WORD + off) % WORD) = false then
        write_word (write_word (init_pos s).mem ((next_base s al + WORD - WSIZE) % WORD) size)
          (((next_base s al + size) % WORD + off) % WORD) 0
      else write_word (init_pos s).mem ((next_base s al + WORD - WSIZE) % WORD) size := by
  rw [posix_memalign_state, poison_padding_mem_eq, pre_poison_mem,
    word_poisoned_congr _ s (pre_poison_poisoned s al size)]

theorem init_pos_mem_congr (s t : Machine) (hm : s.mem = t.mem) (hp : s.pos = t.pos) :
    (init_pos s).mem = (init_pos t).mem := by
  unfold init_pos
  rw [hp]
  split
  · simp only [__cc_malloc_init, mmap_fixed, hm]
  · exact hm

/-- The memory, the accessible bytes and the bug flag after `posix_memalign` do not
depend on the record of host calls. -/
theorem posix_memalign_congr (s t : Machine) (al size off : Nat) (hm : s.mem = t.mem)
    (hp : s.pos = t.pos) (hv : s.valid = t.valid) (hq : s.poisoned = t.poisoned)
    (hb : s.bug = t.bug) :
    (posix_memalign s al size off).state.mem = (posix_memalign t al size off).state.mem ∧
    (posix_memalign s al size off).state.valid = (posix_memalign t al size off).state.valid ∧
    (posix_memalign s al size off).state.bug = (posix_memalign t al size off).state.bug := by
  refine ⟨?_, ?_, ?_⟩
  · rw [posix_memalign_mem_eq, posix_memalign_mem_eq, next_base_of_pos_eq s t hp,
      word_poisoned_congr s t hq, init_pos_mem_congr s t hm hp]
  · rw [posix_memalign_valid, posix_memalign_valid, next_base_of_pos_eq s t hp, hv]
  · rw [posix_memalign_bug, posix_memalign_bug, hb]

/-- Under `fits`, the header word of the new allocation holds the requested size
after `posix_memalign`. -/
theorem posix_memalign_header (s : Machine) (al size off : Nat)
    (hfit : fits s al size = true) :
    read_word (posix_memalign s al size off).state.mem (next_base s al - WSIZE) = size := by
  have hb := fits_bounds s al size hfit
  have hW : WORD = 18446744073709551616 := rfl
  have hS : WSIZE = 8 := rfl
  have hM : MALLOC_PADDING = 64 := rfl
  have e : (next_base s al + WORD - WSIZE) % WORD = next_base s al - WSIZE := by
    simp only [WORD, WSIZE, MALLOC_PADDING] at hb ⊢
    omega
  have hlt : next_base s al - WSIZE < WORD := by omega
  rw [read_word_congr _ (write_word (init_pos s).mem (next_base s al - WSIZE) size) _ ?_ hlt,
    read_write_word _ _ _ hlt]
  · exact Nat.mod_eq_of_lt (by omega)
  · intro x hx
    rw [in_word_iff _ _ (by omega)] at hx
    rw [posix_memalign_mem_eq, e]
    split_ifs with hc
    · apply write_word_frame
      have e1 : (next_base s al + size) % WORD = next_base s al + size :=
        Nat.mod_eq_of_lt (by omega)
      have e2 : (next_base s al + size + off) % WORD = next_base s al + size + off :=
        Nat.mod_eq_of_lt (by omega)
      have ha := hc.2.1
      rw [e1, e2] at ha ⊢
      cases hq : in_word (next_base s al + size + off) x with
      | false => rfl
      | true =>
        have hle : next_base s al + size + off + WSIZE ≤ WORD := by
          simp only [WSIZE, MALLOC_PADDING] at ha hb ⊢
          omega
        rw [in_word_iff _ _ hle] at hq
        omega
    · rfl

end Simple
namespace Simple

/-- Below the base of the new allocation, the memory after an allocating call is the
memory after its `posix_memalign`: the copy made by `realloc` stays within the new
payload. -/
theorem call_mem_frame (s : Machine) (c : Call) (al size off : Nat)
    (hp : c.alloc_params = some (al, size, off)) (hfit : fits s al size = true)
    (x : Nat) (hx : x < next_base s al) :
    (c.run s).state.mem x = (posix_memalign s al size off).state.mem x := by
  have hb := fits_bounds s al size hfit
  cases c with
  | free ptr => simp [Call.alloc_params] at hp
  | store ptr val => simp [Call.alloc_params] at hp
  | malloc size' off' =>
    simp only [Call.alloc_params, Option.some.injEq, Prod.mk.injEq] at hp
    obtain ⟨rfl, rfl, rfl⟩ := hp
    simp only [Call.run]
    rw [bind_ret_state (malloc s size' off') (fun _ p => some (p, size')), malloc_state]
  | posix_memalign al' size' off' =>
    simp only [Call.alloc_params, Option.some.injEq, Prod.mk.injEq] at hp
    obtain ⟨rfl, rfl, rfl⟩ := hp
    simp only [Call.run]
    rw [bind_ret_state (posix_memalign s al' size' off') (fun _ r => some (r.2, size'))]
  | realloc ptr size' off' =>
    simp only [Call.alloc_params, Option.some.injEq, Prod.mk.injEq] at hp
    obtain ⟨rfl, rfl, rfl⟩ := hp
    simp only [Call.run]
    rw [bind_ret_state (realloc s ptr size' off') (fun _ p => some (p, size'))]
    by_cases h0 : ptr = 0
    · unfold realloc
      rw [if_pos h0, malloc_state]
    · rw [realloc_eq s ptr size' off' h0]
      have hc := posix_memalign_congr (__cc_read_unchecked s ((ptr + WORD - WSIZE) % WORD)).1 s
        16 size' off' rfl rfl rfl rfl rfl
      have hnb : next_base (__cc_read_unchecked s ((ptr + WORD - WSIZE) % WORD)).1 16
          = next_base s 16 :=
        next_base_of_pos_eq (__cc_read_unchecked s ((ptr + WORD - WSIZE) % WORD)).1 s rfl 16
      have hv := malloc_value (__cc_read_unchecked s ((ptr + WORD - WSIZE) % WORD)).1 size' off'
      have hs := malloc_state (__cc_read_unchecked s ((ptr + WORD - WSIZE) % WORD)).1 size' off'
      rw [← hc.1, ← hs]
      generalize malloc (__cc_read_unchecked s ((ptr + WORD - WSIZE) % WORD)).1 size' off' = o
        at hv ⊢
      cases o with
      | halt s1 => rfl
      | ret s1 q =>
        simp only [Outcome.value] at hv
        split at hv
        · simp only [Option.some.injEq] at hv
          rw [hnb] at hv
          subst hv
          simp only [Outcome.bind, Outcome.state]
          rw [free_mem]
          simp only [memcpy]
          apply memcpy_loop_frame
          · have hW : WORD = 18446744073709551616 := rfl
            split <;> omega
          · exact Or.inl hx
        · simp at hv

/-- A call of `free` changes no byte of the memory. -/
theorem call_mem_none (s : Machine) (c : Call) (hp : c.alloc_params = none)
    (hns : ∀ q v, c ≠ Call.store q v) : (c.run s).state.mem = s.mem := by
  cases c with
  | malloc size off => simp [Call.alloc_params] at hp
  | posix_memalign al size off => simp [Call.alloc_params] at hp
  | realloc ptr size off => simp [Call.alloc_params] at hp
  | free ptr => exact free_mem s ptr
  | store ptr val => exact absurd rfl (hns ptr val)

/-- A call that is not a program store leaves the header word of every earlier
allocation as it is, when the cursor arithmetic does not wrap. -/
theorem step_keeps_header (r : Run) (c : Call) (hI : r.Inv)
    (hw : (r.step c).wrapped = false) (hns : ∀ q v, c ≠ Call.store q v)
    (a : Nat × Nat) (ha : a ∈ r.allocs) :
    read_word (r.step c).state.mem (a.1 - WSIZE) = read_word r.state.mem (a.1 - WSIZE) := by
  cases hr : r.ended with
  | true => rw [step_ended r c hr]
  | false =>
    obtain ⟨hst, _, hwr, _⟩ := step_of_outcome r c hr
    rw [hst]
    cases hp : c.alloc_params with
    | none => rw [call_mem_none r.state c hp hns]
    | some q =>
      obtain ⟨al, size, off⟩ := q
      obtain ⟨_, _, h3, _, _, _⟩ := run_params_some r.state c al size off hp
      rw [hwr, h3] at hw
      simp only [Bool.or_eq_false_iff, Bool.not_eq_false'] at hw
      have hfit := hw.2
      have hb := fits_bounds r.state al size hfit
      have hP2 := pos_le_init_pos r.state
      have hin := hI.allocs_in a ha
      have hW : WORD = 18446744073709551616 := rfl
      have hS : WSIZE = 8 := rfl
      have hM : MALLOC_PADDING = 64 := rfl
      have hPI : POS_INIT = 4294967296 := rfl
      have hlt := hI.pos_lt
      apply read_word_congr _ _ _ _ (by omega)
      intro x hx
      rw [in_word_iff _ _ (by omega)] at hx
      rw [call_mem_frame r.state c al size off hp hfit x (by omega),
        posix_memalign_mem_below r.state al size off x hfit (by omega),
        init_pos_of_pos_ne r.state (by omega)]

/-- The header word of the allocation that a call returns holds the requested
size, when the cursor arithmetic does not wrap. -/
theorem step_new_header (r : Run) (c : Call) (hw : (r.step c).wrapped = false)
    (a : Nat × Nat) (hnew : (r.step c).allocs = a :: r.allocs) :
    read_word (r.step c).state.mem (a.1 - WSIZE) = a.2 := by
  have hne : ∀ l : List (Nat × Nat), l ≠ a :: l := by
    intro l h
    have := congrArg List.length h
    simp at this
  cases hr : r.ended with
  | true =>
    rw [step_ended r c hr] at hnew
    exact absurd hnew (hne _)
  | false =>
    obtain ⟨hst, _, hwr, hal⟩ := step_of_outcome r c hr
    rw [hst]
    cases hp : c.alloc_params with
    | none =>
      obtain ⟨_, h2, _⟩ := run_params_none r.state c hp
      rw [h2] at hal
      rw [hal] at hnew
      exact absurd hnew (hne _)
    | some q =>
      obtain ⟨al, size, off⟩ := q
      obtain ⟨_, h2, h3, _, _, _⟩ := run_params_some r.state c al size off hp
      rw [hwr, h3] at hw
      simp only [Bool.or_eq_false_iff, Bool.not_eq_false'] at hw
      have hfit := hw.2
      have hb := fits_bounds r.state al size hfit
      rw [hal, h2] at hnew
      split_ifs at hnew
      · simp only [List.cons.injEq, and_true] at hnew
        subst hnew
        simp only
        have hW : WORD = 18446744073709551616 := rfl
        have hS : WSIZE = 8 := rfl
        rw [← posix_memalign_header r.state al size off hfit]
        apply read_word_congr _ _ _ _ (by omega)
        intro x hx
        rw [in_word_iff _ _ (by omega)] at hx
        exact call_mem_frame r.state c al size off hp hfit x (by omega)
      · exact absurd hnew (hne _)

theorem step_allocs_mono (r : Run) (c : Call) (a : Nat × Nat) (ha : a ∈ r.allocs) :
    a ∈ (r.step c).allocs := by
  cases hr : r.ended with
  | true => rw [step_ended r c hr]; exact ha
  | false =>
    rw [(step_of_outcome r c hr).2.2.2]
    split
    · exact List.mem_cons_of_mem _ ha
    · exact ha

/-- Calls that are not program stores leave the header word of every earlier
allocation as it is, when the cursor arithmetic does not wrap. -/
theorem foldl_keeps_header (cs : List Call) : ∀ (r : Run), r.Inv →
    (cs.foldl Run.step r).wrapped = false → (∀ c ∈ cs, ∀ q v, c ≠ Call.store q v) →
    ∀ a ∈ r.allocs,
      read_word (cs.foldl Run.step r).state.mem (a.1 - WSIZE)
        = read_word r.state.mem (a.1 - WSIZE) := by
  induction cs with
  | nil => intro r _ _ _ a _; rfl
  | cons c cs ih =>
    intro r hI hw hns a ha
    have hw1 := foldl_wrapped_mono cs _ hw
    rw [List.foldl_cons, ih (r.step c) (inv_step r c hI hw1) hw
      (fun c' hc' => hns c' (List.mem_cons_of_mem _ hc')) a (step_allocs_mono r c a ha)]
    exact step_keeps_header r c hI hw1 (hns c (List.mem_cons_self _ _)) a ha

end Simple
namespace Simple

/-- C17 (amended): in a run from the start of a process whose cursor arithmetic does
not wrap, let a call of `malloc`, `posix_memalign` or `realloc`, made after any
history of calls and program stores, return the base `p` for the size `size`.  Then
the header word at `p - 8` holds exactly `size`, and it still holds `size` after every
later sequence of `malloc`/`posix_memalign`/`free`/`realloc` calls, on `p` or on other
pointers, whatever the oracle answers.  Hence `free(p)` reads `size` and declares
exactly `[p, p + size)` inaccessible, and `realloc(p, n)` copies `min(size, n)`
bytes. -/
theorem header_word_keeps_size (mem : Nat → Nat) (cs0 cs1 : List Call) (c : Call)
    (p size n off : Nat)
    (hnew : (run_calls (start_state mem) (cs0 ++ [c])).allocs
      = (p, size) :: (run_calls (start_state mem) cs0).allocs)
    (hcalls : ∀ c' ∈ cs1, ∀ q v, c' ≠ Call.store q v)
    (hw : (run_calls (start_state mem) (cs0 ++ c :: cs1)).wrapped = false) :
    read_word (run_calls (start_state mem) (cs0 ++ [c])).state.mem (p - WSIZE) = size ∧
    read_word (run_calls (start_state mem) (cs0 ++ c :: cs1)).state.mem (p - WSIZE) = size ∧
    free (run_calls (start_state mem) (cs0 ++ c :: cs1)).state p
      = __cc_access_invalid
          (__cc_read_unchecked (run_calls (start_state mem) (cs0 ++ c :: cs1)).state
            (p - WSIZE)).1 p (p + size) ∧
    realloc (run_calls (start_state mem) (cs0 ++ c :: cs1)).state p n off
      = (malloc (__cc_read_unchecked (run_calls (start_state mem) (cs0 ++ c :: cs1)).state
          (p - WSIZE)).1 n off).bind fun s1 q =>
            .ret (free (memcpy s1 q p (if size < n then size else n)) p) q := by
  have e1 : run_calls (start_state mem) (cs0 ++ [c])
      = (run_calls (start_state mem) cs0).step c := by
    simp [run_calls, List.foldl_append]
  have e2 : run_calls (start_state mem) (cs0 ++ c :: cs1)
      = cs1.foldl Run.step ((run_calls (start_state mem) cs0).step c) := by
    simp [run_calls, List.foldl_append]
  rw [e1] at hnew
  rw [e1, e2]
  rw [e2] at hw
  have hw1 := foldl_wrapped_mono cs1 _ hw
  have hw0 := step_wrapped_mono _ c hw1
  have hI0 := run_calls_inv mem cs0 hw0
  have hI1 := inv_step _ c hI0 hw1
  have hm : (p, size) ∈ ((run_calls (start_state mem) cs0).step c).allocs := by
    rw [hnew]
    exact List.mem_cons_self _ _
  have h1 := step_new_header _ c hw1 (p, size) hnew
  have h2 := foldl_keeps_header cs1 _ hI1 hw hcalls (p, size) hm
  simp only at h1 h2
  rw [h1] at h2
  have hin := hI1.allocs_in (p, size) hm
  have hlt := hI1.pos_lt
  simp only at hin
  have hW : WORD = 18446744073709551616 := rfl
  have hS : WSIZE = 8 := rfl
  have hM : MALLOC_PADDING = 64 := rfl
  have hPI : POS_INIT = 4294967296 := rfl
  have ep : (p + WORD - WSIZE) % WORD = p - WSIZE := by
    simp only [WORD, WSIZE]
    omega
  have es : (p + size) % WORD = p + size := Nat.mod_eq_of_lt (by omega)
  refine ⟨h1, h2, ?_, ?_⟩
  · unfold free
    rw [if_neg (by omega), if_neg (by omega), ep]
    simp only [__cc_read_unchecked]
    rw [h2, es]
  · rw [realloc_eq _ p n off (by omega), ep]
    simp only [__cc_read_unchecked]
    rw [h2]

theorem header_word_keeps_size_witness :
    (run_calls (start_state fun _ => 0) ([] ++ [Call.malloc 4 4])).allocs
      = (4294967312, 4) :: (run_calls (start_state fun _ => 0) []).allocs ∧
    (∀ c' ∈ [Call.malloc 9 7, Call.free 4294967312, Call.realloc 4294967312 2 64],
      ∀ q v, c' ≠ Call.store q v) ∧
    (run_calls (start_state fun _ => 0) ([] ++ Call.malloc 4 4 ::
      [Call.malloc 9 7, Call.free 4294967312, Call.realloc 4294967312 2 64])).wrapped = false ∧
    (read_word (run_calls (start_state fun _ => 0) ([] ++ [Call.malloc 4 4])).state.mem
      (4294967312 - WSIZE) = 4 ∧
    read_word (run_calls (start_state fun _ => 0) ([] ++ Call.malloc 4 4 ::
      [Call.malloc 9 7, Call.free 4294967312, Call.realloc 4294967312 2 64])).state.mem
      (4294967312 - WSIZE) = 4 ∧
    free (run_calls (start_state fun _ => 0) ([] ++ Call.malloc 4 4 ::
      [Call.malloc 9 7, Call.free 4294967312, Call.realloc 4294967312 2 64])).state 4294967312
      = __cc_access_invalid
          (__cc_read_unchecked (run_calls (start_state fun _ => 0) ([] ++ Call.malloc 4 4 ::
            [Call.malloc 9 7, Call.free 4294967312, Call.realloc 4294967312 2 64])).state
            (4294967312 - WSIZE)).1 4294967312 (4294967312 + 4) ∧
    realloc (run_calls (start_state fun _ => 0) ([] ++ Call.malloc 4 4 ::
      [Call.malloc 9 7, Call.free 4294967312, Call.realloc 4294967312 2 64])).state
        4294967312 3 64
      = (malloc (__cc_read_unchecked (run_calls (start_state fun _ => 0)
          ([] ++ Call.malloc 4 4 ::
            [Call.malloc 9 7, Call.free 4294967312, Call.realloc 4294967312 2 64])).state
          (4294967312 - WSIZE)).1 3 64).bind fun s1 q =>
            .ret (free (memcpy s1 q 4294967312 (if 4 < 3 then 4 else 3)) 4294967312) q) :=
  ⟨by decide,
    by intro c' hc' q v h; subst h; simp at hc',
    by decide,
    header_word_keeps_size (fun _ => 0) [] [Call.malloc 9 7, Call.free 4294967312,
      Call.realloc 4294967312 2 64] (Call.malloc 4 4) 4294967312 4 3 64 (by decide)
      (by intro c' hc' q v h; subst h; simp at hc') (by decide)⟩

/-- C17 (counterexample): `malloc(4)` returns `p = 0x100000010` and its header word
holds 4.  `malloc(2 ^ 64 - 160)` then wraps the cursor to `0x100000000`, and
`malloc(9)` returns `0x100000010` again and writes 9 into the header word of `p`.
The oracle's offsets 4, 0 and 7 are in range and name word-aligned, unpoisoned words;
the process has not ended and the trace is valid. -/
theorem header_overwritten_after_wrap :
    (run_calls (start_state fun _ => 0) [Call.malloc 4 4]).allocs = [(4294967312, 4)] ∧
    read_word (run_calls (start_state fun _ => 0) [Call.malloc 4 4]).state.mem
      (4294967312 - 8) = 4 ∧
    (run_calls (start_state fun _ => 0)
      [Call.malloc 4 4, Call.malloc 18446744073709551456 0, Call.malloc 9 7]).allocs
      = [(4294967312, 9), (4294967392, 18446744073709551456), (4294967312, 4)] ∧
    (run_calls (start_state fun _ => 0)
      [Call.malloc 4 4, Call.malloc 18446744073709551456 0, Call.malloc 9 7]).ended = false ∧
    (run_calls (start_state fun _ => 0)
      [Call.malloc 4 4, Call.malloc 18446744073709551456 0, Call.malloc 9 7]).state.invalid
      = false ∧
    (run_calls (start_state fun _ => 0)
      [Call.malloc 4 4, Call.malloc 18446744073709551456 0, Call.malloc 9 7]).wrapped = true ∧
    read_word (run_calls (start_state fun _ => 0)
      [Call.malloc 4 4, Call.malloc 18446744073709551456 0, Call.malloc 9 7]).state.mem
      (4294967312 - 8) = 9 := by
  refine ⟨by decide, by decide, by decide, by decide, by decide, by decide, by decide⟩

end Simple

end Fromager
